import Mathlib

/-!
# yqlib data navigator

A shallow embedding of `pkg/yqlib/data_navigator.go`: the path navigation and
in-place mutation engine over a `yaml.Node` tree, followed by theorems about
its operations `Get`, `Update` and `Delete`.

Modelling decisions.

* A `*yaml.Node` tree is an owned tree: every node is held by exactly one
  `Content` slot, so a Go function that mutates the node behind a pointer is a
  Lean function that returns the node's new state, and the caller stores it
  back in the slot the pointer came from. A node that the Go code allocates
  but never stores in the tree is visited the same way, its new state being
  dropped by the caller.
* A closure of type `VisitorFn` mutates the node it receives and the
  variables it captured; it is a function from the node and the captured
  state to the new node, the new captured state and the returned `error`.
* A Go run-time failure (index or slice bounds out of range) is the result
  `none`; a function that can fail this way returns an `Option`.
* `Get`, `Update` and `Delete` return, next to what the Go functions return,
  the tree as the call left it.
* Logging (`n.log`, `DebugNode`) has no effect on the tree and is left out.
* Strings are sequences of characters; the Go functions used on them
  (`strconv.ParseInt`, `strings.TrimSuffix`, `strings.HasPrefix`) are modelled
  after the Go standard library.
-/

namespace yqlib

/-! ## The node model (`yaml.Node` of gopkg.in/yaml.v3) -/

/-- Kind is `yaml.Kind`, an unsigned integer; `0` is the zero value of a node
that was never given a kind. -/
abbrev Kind := Nat

abbrev DocumentNode : Kind := 1
abbrev SequenceNode : Kind := 2
abbrev MappingNode : Kind := 4
abbrev ScalarNode : Kind := 8
abbrev AliasNode : Kind := 16

/-- Node is `yaml.Node`: the fields the navigator reads or writes, and the
fields `Anchor`, `Line` and `Column` that it leaves alone. -/
inductive Node where
  | mk (Kind : Kind) (Style : Nat) (Tag Value Anchor : String) (Content : List Node)
      (HeadComment LineComment FootComment : String) (Line Column : Int) : Node

namespace Node

def Kind : Node → yqlib.Kind
  | mk k _ _ _ _ _ _ _ _ _ _ => k

def Style : Node → Nat
  | mk _ s _ _ _ _ _ _ _ _ _ => s

def Tag : Node → String
  | mk _ _ t _ _ _ _ _ _ _ _ => t

def Value : Node → String
  | mk _ _ _ v _ _ _ _ _ _ _ => v

def Anchor : Node → String
  | mk _ _ _ _ a _ _ _ _ _ _ => a

def Content : Node → List Node
  | mk _ _ _ _ _ c _ _ _ _ _ => c

def HeadComment : Node → String
  | mk _ _ _ _ _ _ h _ _ _ _ => h

def LineComment : Node → String
  | mk _ _ _ _ _ _ _ l _ _ _ => l

def FootComment : Node → String
  | mk _ _ _ _ _ _ _ _ f _ _ => f

def Line : Node → Int
  | mk _ _ _ _ _ _ _ _ _ l _ => l

def Column : Node → Int
  | mk _ _ _ _ _ _ _ _ _ _ c => c

/-- The node after the assignment `node.Content = content`. -/
def setContent : Node → List Node → Node
  | mk k s t v a _ h l f li co, content => mk k s t v a content h l f li co

/-- The composite literal `yaml.Node{Kind: kind}`: every other field zero. -/
def ofKind (kind : yqlib.Kind) : Node :=
  mk kind 0 "" "" "" [] "" "" "" 0 0

/-- The composite literal `yaml.Node{Value: value, Kind: kind}`. -/
def ofValue (value : String) (kind : yqlib.Kind) : Node :=
  mk kind 0 "" value "" [] "" "" "" 0 0

/-- A plain scalar with the given value, for examples. -/
def scalar (value : String) : Node := ofValue value ScalarNode

/-- A mapping or sequence or document with the given content, for examples. -/
def container (kind : yqlib.Kind) (content : List Node) : Node :=
  mk kind 0 "" "" "" content "" "" "" 0 0

end Node

/-! ## Errors and `strconv.ParseInt` -/

/-- The `error` values the navigator can return: the two `*strconv.NumError`
of `ParseInt`, and whatever a caller's visitor returns. -/
inductive Error where
  | syntaxError (num : String)
  | rangeError (num : String)
  | other (msg : String)
  deriving DecidableEq, Repr

/-- The digit loop of `strconv.ParseUint(s, 10, 64)`: `none` is a byte that is
not a decimal digit (`ErrSyntax`), `some none` is a value that does not fit in
64 bits (`ErrRange`), `some (some n)` is the value. The loop stops at the first
of the two it meets. -/
def parseUintLoop : List Char → Nat → Option (Option Nat)
  | [], n => some (some n)
  | c :: cs, n =>
    if c.isDigit then
      if n ≥ (2 ^ 64 - 1) / 10 + 1 then some none
      else if n * 10 + (c.toNat - 48) > 2 ^ 64 - 1 then some none
      else parseUintLoop cs (n * 10 + (c.toNat - 48))
    else none

/-- ParseUint is `strconv.ParseUint(s, 10, 64)` on the bytes of `s`. -/
def ParseUint (s : List Char) : Option (Option Nat) :=
  match s with
  | [] => none
  | _ => parseUintLoop s 0

/-- ParseInt is `strconv.ParseInt(s, 10, 64)`: an optional sign, then
`ParseUint`, then the range check against `1 << 63`. -/
def ParseInt (s : String) : Except Error Int :=
  match s.data with
  | [] => .error (.syntaxError s)
  | c :: rest =>
    let neg := decide (c = '-')
    let body := if c = '+' ∨ c = '-' then rest else c :: rest
    match ParseUint body with
    | none => .error (.syntaxError s)
    | some none => .error (.rangeError s)
    | some (some un) =>
      if !neg && decide (un ≥ 2 ^ 63) then .error (.rangeError s)
      else if neg && decide (un > 2 ^ 63) then .error (.rangeError s)
      else if neg then .ok (-(un : Int)) else .ok (un : Int)

/-! ## Kind inference and key matching -/

def GuessKind (tail : List String) (guess : Kind) : Kind :=
  match tail with
  | [] => if guess = 0 then ScalarNode else guess
  | first :: _ =>
    if first = "+" ∨ (ParseInt first).isOk then SequenceNode
    else if first = "*" ∧ (guess = SequenceNode ∨ guess = MappingNode) then guess
    else MappingNode

/-- The pointer `getOrReplace` returns is `original` itself exactly when the
kinds agree; otherwise it is a new node that no `Content` slot holds yet. -/
def getOrReplace (original : Node) (expectedKind : Kind) : Node :=
  if original.Kind ≠ expectedKind then Node.ofKind expectedKind else original

/-- TrimSuffix is `strings.TrimSuffix`. -/
def TrimSuffix (s suffix : String) : String :=
  if suffix.data.isSuffixOf s.data then ⟨s.data.take (s.data.length - suffix.data.length)⟩
  else s

/-- HasPrefix is `strings.HasPrefix`. -/
def HasPrefix (s pfx : String) : Bool :=
  pfx.data.isPrefixOf s.data

def matchesKey (key actual : String) : Bool :=
  let pfxMatch := TrimSuffix key "*"
  if pfxMatch ≠ key then HasPrefix actual pfxMatch
  else decide (actual = key)

/-! ## The traversal engine -/

/-- The outcome of a traversal step: `none` when the Go code fails at run time,
otherwise the new state of the node it was given, the new state of what the
visitor captured, and the returned `error`. -/
abbrev Step (σ : Type) := Option (Node × σ × Option Error)

/-- VisitorFn is `func(*yaml.Node) error`, a closure over a state `σ`. -/
abbrev VisitorFn (σ : Type) := Node → σ → Step σ

/-- The type `mapVisitorFn` is `func(int) error`, a closure over a state `σ`. -/
abbrev mapVisitorFn (σ : Type) := Nat → σ → Option (σ × Option Error)

/-- The loop of `visitMatchingEntries` from position `index` on, `contents`
being what is left of the slice from there. Keys sit at the even positions and
no visitor writes to them. -/
def visitMatchingEntriesFrom {σ : Type} (key : String) (visit : mapVisitorFn σ) :
    List Node → Nat → Bool → σ → Option (Bool × σ × Option Error)
  | [], _, visited, s => some (visited, s, none)
  | [content], index, visited, s =>
    if matchesKey key content.Value then
      match visit index s with
      | none => none
      | some (s1, some errorVisiting) => some (visited, s1, some errorVisiting)
      | some (s1, none) => some (true, s1, none)
    else some (visited, s, none)
  | content :: _ :: rest, index, visited, s =>
    if matchesKey key content.Value then
      match visit index s with
      | none => none
      | some (s1, some errorVisiting) => some (visited, s1, some errorVisiting)
      | some (s1, none) => visitMatchingEntriesFrom key visit rest (index + 2) true s1
    else visitMatchingEntriesFrom key visit rest (index + 2) visited s

def visitMatchingEntries {σ : Type} (contents : List Node) (key : String)
    (visit : mapVisitorFn σ) (s : σ) : Option (Bool × σ × Option Error) :=
  visitMatchingEntriesFrom key visit contents 0 false s

/-- The loop of `splatMap` from position `index` on. The loop variable
`content` is reassigned to what `getOrReplace` returns, the slot of
`value.Content` is not: when the kinds differ the visited node is a new one
outside the tree and the slot keeps the node it had. -/
def splatMapFrom {σ : Type} (tail : List String) (visit : Node → σ → Step σ) :
    List Node → Nat → σ → Option (List Node × σ × Option Error)
  | [], _, s => some ([], s, none)
  | content :: rest, index, s =>
    if index % 2 = 0 then
      match splatMapFrom tail visit rest (index + 1) s with
      | none => none
      | some (rest1, s1, err) => some (content :: rest1, s1, err)
    else
      match visit (getOrReplace content (GuessKind tail content.Kind)) s with
      | none => none
      | some (content1, s1, some err) =>
        some ((if content.Kind = GuessKind tail content.Kind then content1 else content) :: rest,
          s1, some err)
      | some (content1, s1, none) =>
        match splatMapFrom tail visit rest (index + 1) s1 with
        | none => none
        | some (rest1, s2, err) =>
          some ((if content.Kind = GuessKind tail content.Kind then content1 else content) :: rest1,
            s2, err)

/-- In all the functions below `visit` stands for `n.Visit(·, tail, visitor)`. -/
def splatMap {σ : Type} (value : Node) (tail : List String) (visit : Node → σ → Step σ)
    (s : σ) : Step σ :=
  match splatMapFrom tail visit value.Content 0 s with
  | none => none
  | some (content, s1, err) => some (value.setContent content, s1, err)

/-- The closure `recurseMap` passes to `visitMatchingEntries`. It captures
`value`, of which it reads and writes the slice `value.Content`, and what
`visitor` captured. -/
def recurseMapEntry {σ : Type} (tail : List String) (visit : Node → σ → Step σ) :
    mapVisitorFn (List Node × σ) :=
  fun indexInMap st =>
    match st.1[indexInMap + 1]? with
    | none => none
    | some child =>
      match visit (getOrReplace child (GuessKind tail child.Kind)) st.2 with
      | none => none
      | some (child1, s1, err) => some ((st.1.set (indexInMap + 1) child1, s1), err)

def recurseMap {σ : Type} (value : Node) (head : String) (tail : List String)
    (visit : Node → σ → Step σ) (s : σ) : Step σ :=
  match visitMatchingEntries value.Content head (recurseMapEntry tail visit) (value.Content, s) with
  | none => none
  | some (_, st, some errorVisiting) => some (value.setContent st.1, st.2, some errorVisiting)
  | some (true, st, none) => some (value.setContent st.1, st.2, none)
  | some (false, st, none) =>
    match visit (Node.ofKind (GuessKind tail 0)) st.2 with
    | none => none
    | some (mapEntryValue, s1, err) =>
      some (value.setContent (st.1 ++ [Node.ofValue head ScalarNode] ++ [mapEntryValue]), s1, err)

/-- The loop of `splatArray`; as in `splatMap` a replaced child stays outside
the tree. -/
def splatArrayFrom {σ : Type} (tail : List String) (visit : Node → σ → Step σ) :
    List Node → σ → Option (List Node × σ × Option Error)
  | [], s => some ([], s, none)
  | childValue :: rest, s =>
    match visit (getOrReplace childValue (GuessKind tail childValue.Kind)) s with
    | none => none
    | some (child1, s1, some err) =>
      some ((if childValue.Kind = GuessKind tail childValue.Kind then child1 else childValue)
        :: rest, s1, some err)
    | some (child1, s1, none) =>
      match splatArrayFrom tail visit rest s1 with
      | none => none
      | some (rest1, s2, err) =>
        some ((if childValue.Kind = GuessKind tail childValue.Kind then child1 else childValue)
          :: rest1, s2, err)

def splatArray {σ : Type} (value : Node) (tail : List String) (visit : Node → σ → Step σ)
    (s : σ) : Step σ :=
  match splatArrayFrom tail visit value.Content s with
  | none => none
  | some (content, s1, err) => some (value.setContent content, s1, err)

def appendArray {σ : Type} (value : Node) (tail : List String) (visit : Node → σ → Step σ)
    (s : σ) : Step σ :=
  match visit (Node.ofKind (GuessKind tail 0)) s with
  | none => none
  | some (newNode, s1, err) => some (value.setContent (value.Content ++ [newNode]), s1, err)

/-- A negative `index` passes the bounds test and `value.Content[index]` then
fails at run time. -/
def recurseArray {σ : Type} (value : Node) (head : String) (tail : List String)
    (visit : Node → σ → Step σ) (s : σ) : Step σ :=
  match ParseInt head with
  | .error err => some (value, s, some err)
  | .ok index =>
    if index ≥ (value.Content.length : Int) then some (value, s, none)
    else if index < 0 then none
    else
      match value.Content[index.toNat]? with
      | none => none
      | some child =>
        match visit (getOrReplace child (GuessKind tail child.Kind)) s with
        | none => none
        | some (child1, s1, err) =>
          some (value.setContent (value.Content.set index.toNat child1), s1, err)

def recurse {σ : Type} (value : Node) (head : String) (tail : List String)
    (visit : Node → σ → Step σ) (s : σ) : Step σ :=
  if value.Kind = MappingNode then
    if head = "*" then splatMap value tail visit s
    else recurseMap value head tail visit s
  else if value.Kind = SequenceNode then
    if head = "*" then splatArray value tail visit s
    else if head = "+" then appendArray value tail visit s
    else recurseArray value head tail visit s
  else some (value, s, none)

/-- The first lines of `Visit`: a document stands for its first child, and
`value.Content[0]` fails at run time on a document without children. -/
def derefDocument {σ : Type} (value : Node) (inner : Node → σ → Step σ) (s : σ) : Step σ :=
  if value.Kind = DocumentNode then
    match value.Content with
    | [] => none
    | realValue :: others =>
      match inner realValue s with
      | none => none
      | some (realValue1, s1, err) => some (value.setContent (realValue1 :: others), s1, err)
  else inner value s

def Visit {σ : Type} (value : Node) (path : List String) (visitor : VisitorFn σ) (s : σ) :
    Step σ :=
  match path with
  | [] => derefDocument value visitor s
  | head :: tail =>
    derefDocument value
      (fun realValue s1 => recurse realValue head tail (fun node s2 => Visit node tail visitor s2) s1)
      s

/-! ## The operations -/

/-- The visitor of `Get`: it appends the matched node to `matchingNodes`. The
slice holds pointers; the model holds the state of each node when the visitor
was called on it, which in an owned tree is its state when `Get` returns: the
visitor is called where the path ends, and the traversal writes only to
nodes it still has path segments for. -/
def getVisitor : VisitorFn (List Node) :=
  fun matchedNode matchingNodes => some (matchedNode, matchingNodes ++ [matchedNode], none)

/-- The result policy of `Get` on the accumulated matches. -/
def getResult (matchingNodes : List Node) : Option Node :=
  match matchingNodes with
  | [] => none
  | [matchedNode] => some matchedNode
  | _ => some (Node.mk SequenceNode 0 "" "" "" matchingNodes "" "" "" 0 0)

/-- Get returns the tree as the traversal left it, the returned node and the
returned `error`; the `error` of `Visit` is dropped, as in the source. -/
def Get (value : Node) (path : List String) : Option (Node × Option Node × Option Error) :=
  match Visit value path getVisitor [] with
  | none => none
  | some (value1, matchingNodes, _) => some (value1, getResult matchingNodes, none)

/-- The eight assignments of the visitor of `Update`. -/
def overwrite (nodeToUpdate changesToApply : Node) : Node :=
  Node.mk changesToApply.Kind changesToApply.Style changesToApply.Tag changesToApply.Value
    nodeToUpdate.Anchor changesToApply.Content changesToApply.HeadComment
    changesToApply.LineComment changesToApply.FootComment nodeToUpdate.Line nodeToUpdate.Column

/-- The visitor of `Update`. Its state counts the calls; the count is not in
the source and nothing reads it there. -/
def updateVisitor (changesToApply : Node) : VisitorFn Nat :=
  fun nodeToUpdate calls => some (overwrite nodeToUpdate changesToApply, calls + 1, none)

def Update (rootNode : Node) (path : List String) (changesToApply : Node) :
    Option (Node × Option Error) :=
  match Visit rootNode path (updateVisitor changesToApply) 0 with
  | none => none
  | some (rootNode1, _, errorVisiting) => some (rootNode1, errorVisiting)

/-- The number of nodes the visitor of `Update` was called on. -/
def updateCalls (rootNode : Node) (path : List String) (changesToApply : Node) : Option Nat :=
  match Visit rootNode path (updateVisitor changesToApply) 0 with
  | none => none
  | some (_, calls, _) => some calls

/-- The deletion loop of `Delete` on a mapping, over the matching indices from
the highest down: both slice expressions fail at run time when
`indexToDelete + 2` is beyond the length. -/
def deleteIndices : List Nat → List Node → Option (List Node)
  | [], content => some content
  | indexToDelete :: more, content =>
    if indexToDelete + 2 > content.length then none
    else deleteIndices more (content.take indexToDelete ++ content.drop (indexToDelete + 2))

/-- The closure `Delete` passes to `visitMatchingEntries`: it appends the
index to `matchingIndices`. -/
def collectIndex : mapVisitorFn (List Nat) :=
  fun indexInMap matchingIndices => some (matchingIndices ++ [indexInMap], none)

/-- The visitor of `Delete`. On a sequence a negative `index` passes the
bounds test and `original[:index]` then fails at run time. -/
def deleteVisitor (lastBit : String) : VisitorFn Unit :=
  fun nodeToUpdate s =>
    if nodeToUpdate.Kind = SequenceNode then
      match ParseInt lastBit with
      | .error err => some (nodeToUpdate, s, some err)
      | .ok index =>
        if index ≥ (nodeToUpdate.Content.length : Int) then some (nodeToUpdate, s, none)
        else if index < 0 then none
        else
          some (nodeToUpdate.setContent
            (nodeToUpdate.Content.take index.toNat ++ nodeToUpdate.Content.drop (index.toNat + 1)),
            s, none)
    else if nodeToUpdate.Kind = MappingNode then
      match visitMatchingEntries nodeToUpdate.Content lastBit collectIndex [] with
      | none => none
      | some (_, _, some errorVisiting) => some (nodeToUpdate, s, some errorVisiting)
      | some (_, matchingIndices, none) =>
        match deleteIndices matchingIndices.reverse nodeToUpdate.Content with
        | none => none
        | some content => some (nodeToUpdate.setContent content, s, none)
    else some (nodeToUpdate, s, none)

/-- Delete fails at run time on the empty path: `path[len(path)-1]`. -/
def Delete (rootNode : Node) (path : List String) : Option (Node × Option Error) :=
  match path.getLast? with
  | none => none
  | some lastBit =>
    match Visit rootNode path.dropLast (deleteVisitor lastBit) () with
    | none => none
    | some (rootNode1, _, errorVisiting) => some (rootNode1, errorVisiting)

/-! ## Reference definitions, worded as the specification words them -/

/-- The number a string of decimal digits denotes, read after `start`. -/
def digitsValue (start : Nat) (cs : List Char) : Nat :=
  cs.foldl (fun n c => n * 10 + (c.toNat - 48)) start

/-- A base-10 integer that `int64` holds: an optional sign, then one digit or
more, the number they denote lying between `-2^63` and `2^63 - 1`. -/
def parsesAsInt (s : String) : Bool :=
  match s.data with
  | [] => false
  | c :: rest =>
    let body := if c = '+' ∨ c = '-' then rest else c :: rest
    !body.isEmpty && body.all Char.isDigit &&
      (if c = '-' then decide (digitsValue 0 body ≤ 2 ^ 63)
        else decide (digitsValue 0 body < 2 ^ 63))

/-- SpecGuessKind is kind inference rule by rule; a hint is unset when it
is `0`. -/
def SpecGuessKind (tail : List String) (hint : Kind) : Kind :=
  if tail = [] ∧ hint = 0 then ScalarNode
  else if tail = [] then hint
  else if tail.head? = some "+" ∨ tail.head?.map parsesAsInt = some true then SequenceNode
  else if tail.head? = some "*" ∧ (hint = SequenceNode ∨ hint = MappingNode) then hint
  else MappingNode

/-- The fields `Update` copies: `a` holds in each of them what `b` holds. -/
def sameFields (a b : Node) : Prop :=
  a.Value = b.Value ∧ a.Tag = b.Tag ∧ a.Kind = b.Kind ∧ a.Style = b.Style ∧
    a.Content = b.Content ∧ a.HeadComment = b.HeadComment ∧
    a.LineComment = b.LineComment ∧ a.FootComment = b.FootComment

/-- Update applied `k` times in a row to the same tree, each call returning
no error. -/
def repeatUpdate : Nat → Node → List String → Node → Option Node
  | 0, rootNode, _, _ => some rootNode
  | k + 1, rootNode, path, changesToApply =>
    match Update rootNode path changesToApply with
    | some (rootNode1, none) => repeatUpdate k rootNode1 path changesToApply
    | _ => none

/-- The value nodes of a mapping: the odd positions of its content. -/
def mapValues : List Node → List Node
  | [] => []
  | [_] => []
  | _ :: v :: rest => v :: mapValues rest

/-- The key/value pairs of a mapping's content, in content order. -/
def mapPairs : List Node → List (Node × Node)
  | [] => []
  | [_] => []
  | k :: v :: rest => (k, v) :: mapPairs rest

/-- The content that lists the given pairs. -/
def ofPairs : List (Node × Node) → List Node
  | [] => []
  | (k, v) :: rest => k :: v :: ofPairs rest

mutual
/-- The invariant of the data model on a tree: every mapping in it has content
of even length. -/
def evenMappings : Node → Bool
  | Node.mk k _ _ _ _ c _ _ _ _ _ =>
    (decide (k ≠ MappingNode) || decide (c.length % 2 = 0)) && evenMappingsList c
/-- The invariant on every tree of a list. -/
def evenMappingsList : List Node → Bool
  | [] => true
  | x :: xs => evenMappings x && evenMappingsList xs
end

mutual
/-- The two invariants of the data model on a tree: every document in it has
exactly one child and every mapping in it has content of even length. -/
def wellFormed : Node → Bool
  | Node.mk k _ _ _ _ c _ _ _ _ _ =>
    (decide (k ≠ DocumentNode) || decide (c.length = 1)) &&
      (decide (k ≠ MappingNode) || decide (c.length % 2 = 0)) && wellFormedList c
/-- The two invariants on every tree of a list. -/
def wellFormedList : List Node → Bool
  | [] => true
  | x :: xs => wellFormed x && wellFormedList xs
end

/-- Some key of the content matches the segment. -/
def anyKey (key : String) (content : List Node) : Bool :=
  (mapPairs content).any (fun p => matchesKey key p.1.Value)

/-- What Update with the one-segment path `[key]` makes of a pair of a mapping:
the key node stays; the value under a matching key holds the fields of the
replacement node, any other value stays. -/
def updatedPair (key : String) (changesToApply : Node) (p q : Node × Node) : Prop :=
  q.1 = p.1 ∧ (if matchesKey key p.1.Value then sameFields q.2 changesToApply else q.2 = p.2)

/-- What a key step with segment `key` and rest of path `tail` makes of a pair
of a mapping when the traversal returns no error: the key node stays; a value
under a key that does not match stays; the slot of a value under a matching
key holds what the traversal of `tail` left of the value itself when its kind
is the inferred one, and of a new node of the inferred kind otherwise. -/
def steppedPair {σ : Type} (key : String) (tail : List String) (visitor : VisitorFn σ)
    (p q : Node × Node) : Prop :=
  q.1 = p.1 ∧
    (if matchesKey key p.1.Value then
      ∃ sa sb, Visit (if p.2.Kind = GuessKind tail p.2.Kind then p.2
          else Node.ofKind (GuessKind tail p.2.Kind)) tail visitor sa = some (q.2, sb, none)
    else q.2 = p.2)

/-- A visitor that also records, in order, the nodes it is called on. -/
def traced {σ : Type} (visitor : VisitorFn σ) : VisitorFn (σ × List Node) :=
  fun node st =>
    match visitor node st.1 with
    | none => none
    | some (node1, s1, err) => some (node1, (s1, st.2 ++ [node]), err)

/-- The visitor called on each node of a list in turn, from state `s` on, when
every call returns no error: the nodes as the calls left them and the last
state. -/
def runAll {σ : Type} (visitor : VisitorFn σ) : List Node → σ → Option (List Node × σ)
  | [], s => some ([], s)
  | x :: rest, s =>
    match visitor x s with
    | some (x1, s1, none) =>
      match runAll visitor rest s1 with
      | some (rest1, s2) => some (x1 :: rest1, s2)
      | none => none
    | _ => none

/-- The values of a mapping under the keys that match the segment, in content
order. -/
def matchingValues (key : String) (content : List Node) : List Node :=
  ((mapPairs content).filter (fun p => matchesKey key p.1.Value)).map Prod.snd

/-- A visitor that returns an error on the nodes with the given value and
changes nothing, for examples. -/
def stopAt (value : String) : VisitorFn Unit :=
  fun node s => some (node, s, if node.Value = value then some (.other "stop") else none)

/-- What Get finds at a node that the last step of its path arrives at through
an index: a node of unset kind is replaced by a new empty Scalar, a Document
stands for its first child, any other node is found itself. -/
def foundAt (e : Node) : List Node :=
  if e.Kind = 0 then [Node.ofKind ScalarNode]
  else if e.Kind = DocumentNode then e.Content.take 1
  else [e]

/-- What Get with last segment `t` finds at a node after Delete has removed
`t` from it, `c` being the node as Delete met it. A Mapping holds no key
matching `t` any more: Get adds the key again with a new empty Scalar and
finds that, unless `t` is the full wildcard, which adds nothing. A Sequence
holds at the index `t` the element that followed the deleted one, if there is
one. Any other node holds nothing to find. -/
def foundAfterDelete (t : String) (c : Node) : List Node :=
  if c.Kind = MappingNode then (if t = "*" then [] else [Node.ofKind ScalarNode])
  else if c.Kind = SequenceNode then
    match ParseInt t with
    | .ok index => ((c.Content.drop (index.toNat + 1)).take 1).flatMap foundAt
    | .error _ => []
  else []

/-! ## Auxiliary definitions of the proofs -/

/-- What `visitMatchingEntries` with the closure of `recurseMap` does to the
content, pair by pair: a matching key on its own at the end has no value to
visit, which is a run-time failure. -/
def mapLoop {σ : Type} (key : String) (tail : List String) (visit : Node → σ → Step σ) :
    List Node → Bool → σ → Option (List Node × Bool × σ × Option Error)
  | [], visited, s => some ([], visited, s, none)
  | [k], visited, s => if matchesKey key k.Value then none else some ([k], visited, s, none)
  | k :: v :: rest, visited, s =>
    if matchesKey key k.Value then
      match visit (getOrReplace v (GuessKind tail v.Kind)) s with
      | none => none
      | some (v1, s1, some err) => some (k :: v1 :: rest, visited, s1, some err)
      | some (v1, s1, none) =>
        match mapLoop key tail visit rest true s1 with
        | none => none
        | some (rest1, visited1, s2, err) => some (k :: v1 :: rest1, visited1, s2, err)
    else
      match mapLoop key tail visit rest visited s with
      | none => none
      | some (rest1, visited1, s1, err) => some (k :: v :: rest1, visited1, s1, err)

/-- The positions of the keys that match, counted from `index`. -/
def matchingIndicesFrom (key : String) : List Node → Nat → List Nat
  | [], _ => []
  | [k], index => if matchesKey key k.Value then [index] else []
  | k :: _ :: rest, index =>
    if matchesKey key k.Value then index :: matchingIndicesFrom key rest (index + 2)
    else matchingIndicesFrom key rest (index + 2)

/-- The induction hypothesis of the round trip of Update and Get below a
child, `visitU` and `visitG` being the two traversals of the rest of the path:
on a tree with even mappings where `visitU` returned no error, the child keeps
a kind that `getOrReplace` leaves alone, and `visitG` on the updated child
changes nothing and reports as many nodes as `visitU` counted, each holding
the fields of the replacement node. -/
def RoundTrip (changesToApply : Node) (tail : List String) (visitU : Node → Nat → Step Nat)
    (visitG : Node → List Node → Step (List Node)) : Prop :=
  ∀ x x1 c c1, evenMappings x = true → visitU x c = some (x1, c1, none) →
    (GuessKind tail x.Kind = x.Kind → GuessKind tail x1.Kind = x1.Kind) ∧
      ∀ acc, ∃ ms, visitG x1 acc = some (x1, acc ++ ms, none) ∧ c1 = c + ms.length ∧
        ∀ m ∈ ms, sameFields m changesToApply

/-- The induction hypothesis of Get after Update and Delete below a child,
`visitU`, `visitD` and `visitG` being the three traversals of the rest of the
path, the one of Delete recording the nodes its visitor is called on: on a
tree with one child under every document and even mappings, where `visitU`
and then `visitD` returned no error, `visitG` returns no error and reports
what `foundAfterDelete` words, for the nodes `visitD` recorded, in order. -/
def AfterDelete (t : String) (visitU : Node → Nat → Step Nat)
    (visitD : Node → Unit × List Node → Step (Unit × List Node))
    (visitG : Node → List Node → Step (List Node)) : Prop :=
  ∀ x x1 x2 c c1 tr tr2, wellFormed x = true → visitU x c = some (x1, c1, none) →
    visitD x1 ((), tr) = some (x2, ((), tr2), none) →
    ∃ cs, tr2 = tr ++ cs ∧
      ∀ acc, ∃ x3, visitG x2 acc = some (x3, acc ++ cs.flatMap (foundAfterDelete t), none)

/-! # Theorems -/

/-! ## Basic facts about nodes -/

namespace Node

@[simp] theorem Kind_setContent (n : Node) (c : List Node) : (n.setContent c).Kind = n.Kind := by
  cases n; rfl

@[simp] theorem Content_setContent (n : Node) (c : List Node) : (n.setContent c).Content = c := by
  cases n; rfl

@[simp] theorem setContent_Content (n : Node) : n.setContent n.Content = n := by
  cases n; rfl

@[simp] theorem setContent_setContent (n : Node) (c d : List Node) :
    (n.setContent c).setContent d = n.setContent d := by
  cases n; rfl

@[simp] theorem Kind_ofKind (k : yqlib.Kind) : (ofKind k).Kind = k := rfl

@[simp] theorem Content_ofKind (k : yqlib.Kind) : (ofKind k).Content = [] := rfl

end Node

/-! ## `strconv.ParseInt` accepts the 64-bit decimal integers -/

theorem le_digitsValue (cs : List Char) (n : Nat) : n ≤ digitsValue n cs := by
  induction cs generalizing n with
  | nil => simp [digitsValue]
  | cons c cs ih =>
    have h := ih (n * 10 + (c.toNat - 48))
    simp only [digitsValue, List.foldl_cons] at h ⊢
    omega

theorem parseUintLoop_eq_some (cs : List Char) (n m : Nat) (hn : n ≤ 2 ^ 64 - 1) :
    parseUintLoop cs n = some (some m) ↔
      cs.all Char.isDigit = true ∧ digitsValue n cs = m ∧ m ≤ 2 ^ 64 - 1 := by
  induction cs generalizing n with
  | nil =>
    simp only [parseUintLoop, digitsValue, List.all_nil, List.foldl_nil, Option.some.injEq,
      true_and]
    constructor
    · intro h; subst h; exact ⟨rfl, hn⟩
    · intro h; exact h.1
  | cons c cs ih =>
    have hmono := le_digitsValue cs (n * 10 + (c.toNat - 48))
    have hstep : digitsValue n (c :: cs) = digitsValue (n * 10 + (c.toNat - 48)) cs := rfl
    rw [hstep]
    by_cases hc : c.isDigit = true
    · simp only [parseUintLoop, hc, if_true, List.all_cons, Bool.true_and]
      norm_num at hn hmono ⊢
      split_ifs with h1 h2
      · simp; intro _ h; omega
      · simp; intro _ h; omega
      · have := ih (n * 10 + (c.toNat - 48)) (by norm_num; omega)
        norm_num at this
        exact this
    · simp [parseUintLoop, hc]

theorem parseUintLoop_ne_some_none_iff (cs : List Char) (n : Nat) (hn : n ≤ 2 ^ 64 - 1) :
    (∃ m, parseUintLoop cs n = some (some m)) ↔
      cs.all Char.isDigit = true ∧ digitsValue n cs ≤ 2 ^ 64 - 1 := by
  constructor
  · rintro ⟨m, h⟩
    obtain ⟨h1, h2, h3⟩ := (parseUintLoop_eq_some cs n m hn).1 h
    exact ⟨h1, h2 ▸ h3⟩
  · rintro ⟨h1, h2⟩
    exact ⟨_, (parseUintLoop_eq_some cs n _ hn).2 ⟨h1, rfl, h2⟩⟩

theorem ParseUint_eq_some (cs : List Char) (m : Nat) :
    ParseUint cs = some (some m) ↔
      cs ≠ [] ∧ cs.all Char.isDigit = true ∧ digitsValue 0 cs = m ∧ m ≤ 2 ^ 64 - 1 := by
  cases cs with
  | nil => simp [ParseUint]
  | cons c cs =>
    simp only [ParseUint, ne_eq, reduceCtorEq, not_false_eq_true, true_and]
    exact parseUintLoop_eq_some (c :: cs) 0 m (by norm_num)

/-- ParseInt accepts exactly the strings `parsesAsInt` describes. -/
theorem ParseInt_isOk (s : String) : (ParseInt s).isOk = parsesAsInt s := by
  unfold ParseInt parsesAsInt
  cases hs : s.data with
  | nil => rfl
  | cons c rest =>
    simp only
    generalize hb : (if c = '+' ∨ c = '-' then rest else c :: rest) = body
    have key := ParseUint_eq_some body
    rw [Bool.eq_iff_iff]
    cases hp : ParseUint body with
    | none =>
      simp only [Except.isOk, Except.toBool, Bool.false_eq_true, false_iff]
      intro hne
      simp only [Bool.and_eq_true, Bool.not_eq_true', List.isEmpty_eq_false] at hne
      obtain ⟨⟨h1, h2⟩, h3⟩ := hne
      have hv : digitsValue 0 body ≤ 2 ^ 64 - 1 := by
        split_ifs at h3 <;> simp only [decide_eq_true_eq] at h3 <;> norm_num at h3 ⊢ <;> omega
      have := (key _).2 ⟨h1, h2, rfl, hv⟩
      rw [hp] at this
      exact absurd this (by simp)
    | some r =>
      cases r with
      | none =>
        simp only [Except.isOk, Except.toBool, Bool.false_eq_true, false_iff]
        intro hne
        simp only [Bool.and_eq_true, Bool.not_eq_true', List.isEmpty_eq_false] at hne
        obtain ⟨⟨h1, h2⟩, h3⟩ := hne
        have hv : digitsValue 0 body ≤ 2 ^ 64 - 1 := by
          split_ifs at h3 <;> simp only [decide_eq_true_eq] at h3 <;> norm_num at h3 ⊢ <;> omega
        have := (key _).2 ⟨h1, h2, rfl, hv⟩
        rw [hp] at this
        exact absurd this (by simp)
      | some un =>
        obtain ⟨h1, h2, h3, h4⟩ := (key un).1 hp
        have h1e : body.isEmpty = false := by simpa using h1
        rw [h3, h1e, h2]
        by_cases hneg : c = '-'
        · simp only [hneg, decide_True, Bool.not_true, Bool.false_and, Bool.false_eq_true,
            if_false, Bool.true_and, if_true, Bool.not_false, Bool.and_self, decide_eq_true_eq]
          split_ifs with h5
          · simp only [Except.isOk, Except.toBool, Bool.false_eq_true, false_iff]; omega
          · simp only [Except.isOk, Except.toBool, true_iff]; omega
        · simp only [hneg, decide_False, Bool.not_false, Bool.true_and, decide_eq_true_eq,
            Bool.false_and, Bool.false_eq_true, if_false, Bool.not_true, Bool.and_self]
          split_ifs with h5
          · simp only [Except.isOk, Except.toBool, Bool.false_eq_true, false_iff]; omega
          · simp only [Except.isOk, Except.toBool, true_iff]; omega

/-! ## Kind inference -/

/-- C7. `GuessKind` equals its five-rule reference definition `SpecGuessKind`
for every tail and hint: empty tail and unset hint gives Scalar; empty tail and
set hint gives the hint; a first segment that is `"+"` or parses as a base-10
integer (`strconv.ParseInt` in base 10 and 64 bits accepts it, see
`ParseInt_isOk`) gives Sequence; otherwise a first segment `"*"` with hint
Sequence or Mapping gives the hint; anything else gives Mapping. For a
non-empty tail the result is Sequence or Mapping. -/
theorem GuessKind_eq_SpecGuessKind (tail : List String) (hint : Kind) :
    GuessKind tail hint = SpecGuessKind tail hint ∧
      (tail ≠ [] → GuessKind tail hint = SequenceNode ∨ GuessKind tail hint = MappingNode) := by
  cases tail with
  | nil => simp [GuessKind, SpecGuessKind]
  | cons first rest =>
    simp only [GuessKind, SpecGuessKind, ParseInt_isOk, List.head?_cons, Option.map_some',
      Option.some.injEq, reduceCtorEq, false_and, if_false, ne_eq, not_false_eq_true, true_implies]
    split_ifs with h1 h2
    · exact ⟨trivial, Or.inl rfl⟩
    · exact ⟨trivial, h2.2⟩
    · exact ⟨trivial, Or.inr rfl⟩

/-! ## Sequences: a final segment that is not a number, an index beyond the end, the append marker -/

theorem ParseInt_error (t : String) (h : parsesAsInt t = false) :
    ParseInt t = .error (.syntaxError t) ∨ ParseInt t = .error (.rangeError t) := by
  have h1 : (ParseInt t).isOk = false := by rw [ParseInt_isOk, h]
  revert h1
  unfold ParseInt
  cases t.data with
  | nil => simp
  | cons c rest =>
    simp only
    split
    · simp
    · simp
    · split_ifs <;> simp [Except.isOk, Except.toBool]

theorem Visit_nil {σ : Type} (value : Node) (visitor : VisitorFn σ) (s : σ)
    (h : value.Kind ≠ DocumentNode) : Visit value [] visitor s = visitor value s := by
  simp [Visit, derefDocument, h]

theorem Visit_cons {σ : Type} (value : Node) (head : String) (tail : List String)
    (visitor : VisitorFn σ) (s : σ) (h : value.Kind ≠ DocumentNode) :
    Visit value (head :: tail) visitor s =
      recurse value head tail (fun node s2 => Visit node tail visitor s2) s := by
  simp [Visit, derefDocument, h]

/-- C9. Delete on a Sequence with a final segment that does not parse as a
base-10 integer returns the error of `ParseInt` (a syntax or a range
`NumError` naming the segment), not a no-op, and leaves the Sequence as it
was. -/
theorem Delete_sequence_not_a_number (S : Node) (t : String) (hS : S.Kind = SequenceNode)
    (ht : parsesAsInt t = false) :
    Delete S [t] = some (S, some (.syntaxError t)) ∨
      Delete S [t] = some (S, some (.rangeError t)) := by
  have hd : S.Kind ≠ DocumentNode := by rw [hS]; decide
  simp only [Delete, List.getLast?_singleton, List.dropLast_single, Visit_nil _ _ _ hd,
    deleteVisitor, hS, if_true]
  rcases ParseInt_error t ht with h | h <;> simp [h]

theorem Delete_sequence_not_a_number_witness :
    (parsesAsInt "abc" = false ∧
      (Delete (Node.container SequenceNode [Node.scalar "a"]) ["abc"] =
          some (Node.container SequenceNode [Node.scalar "a"], some (.syntaxError "abc")) ∨
        Delete (Node.container SequenceNode [Node.scalar "a"]) ["abc"] =
          some (Node.container SequenceNode [Node.scalar "a"], some (.rangeError "abc")))) ∧
    (parsesAsInt "*" = false ∧
      (Delete (Node.container SequenceNode [Node.scalar "a"]) ["*"] =
          some (Node.container SequenceNode [Node.scalar "a"], some (.syntaxError "*")) ∨
        Delete (Node.container SequenceNode [Node.scalar "a"]) ["*"] =
          some (Node.container SequenceNode [Node.scalar "a"], some (.rangeError "*")))) ∧
    (parsesAsInt "+" = false ∧
      (Delete (Node.container SequenceNode [Node.scalar "a"]) ["+"] =
          some (Node.container SequenceNode [Node.scalar "a"], some (.syntaxError "+")) ∨
        Delete (Node.container SequenceNode [Node.scalar "a"]) ["+"] =
          some (Node.container SequenceNode [Node.scalar "a"], some (.rangeError "+")))) :=
  ⟨⟨by decide, Delete_sequence_not_a_number _ "abc" rfl (by decide)⟩,
    ⟨by decide, Delete_sequence_not_a_number _ "*" rfl (by decide)⟩,
    ⟨by decide, Delete_sequence_not_a_number _ "+" rfl (by decide)⟩⟩

theorem ParseInt_ok_ne (seg : String) (i : Int) (h : ParseInt seg = .ok i) :
    seg ≠ "*" ∧ seg ≠ "+" := by
  constructor
  · rintro rfl
    have : ParseInt "*" = .error (.syntaxError "*") := rfl
    rw [this] at h; cases h
  · rintro rfl
    have : ParseInt "+" = .error (.syntaxError "+") := rfl
    rw [this] at h; cases h

/-- C10. A segment that parses as an integer `i` at or beyond the length of a
Sequence is a silent no-op: Delete with that segment and Update with that
segment followed by any tail return no error and leave the Sequence
unchanged, and Get returns no node. -/
theorem index_beyond_end_is_noop (S : Node) (seg : String) (i : Int) (tail : List String)
    (N : Node) (hS : S.Kind = SequenceNode) (hseg : ParseInt seg = .ok i)
    (hi : i ≥ (S.Content.length : Int)) :
    Delete S [seg] = some (S, none) ∧ Update S (seg :: tail) N = some (S, none) ∧
      Get S (seg :: tail) = some (S, none, none) := by
  have hd : S.Kind ≠ DocumentNode := by rw [hS]; decide
  have hm : S.Kind ≠ MappingNode := by rw [hS]; decide
  obtain ⟨h1, h2⟩ := ParseInt_ok_ne seg i hseg
  refine ⟨?_, ?_, ?_⟩
  · simp [Delete, Visit_nil _ _ _ hd, deleteVisitor, hS, hseg, hi]
  · simp [Update, Visit_cons _ _ _ _ _ hd, recurse, hS, h1, h2, recurseArray, hseg, hi]
  · simp [Get, Visit_cons _ _ _ _ _ hd, recurse, hS, h1, h2, recurseArray, hseg, hi, getResult]

theorem index_beyond_end_is_noop_witness :
    Delete (Node.container SequenceNode [Node.scalar "x", Node.scalar "y"]) ["2"] =
        some (Node.container SequenceNode [Node.scalar "x", Node.scalar "y"], none) ∧
      Update (Node.container SequenceNode [Node.scalar "x", Node.scalar "y"]) ["2", "k"]
          (Node.scalar "z") =
        some (Node.container SequenceNode [Node.scalar "x", Node.scalar "y"], none) ∧
      Get (Node.container SequenceNode [Node.scalar "x", Node.scalar "y"]) ["2", "k"] =
        some (Node.container SequenceNode [Node.scalar "x", Node.scalar "y"], none, none) :=
  index_beyond_end_is_noop (Node.container SequenceNode [Node.scalar "x", Node.scalar "y"])
    "2" 2 ["k"] (Node.scalar "z") rfl rfl (by decide)

theorem sameFields_overwrite (a N : Node) : sameFields (overwrite a N) N := by
  simp [sameFields, overwrite, Node.Value, Node.Tag, Node.Kind, Node.Style, Node.Content,
    Node.HeadComment, Node.LineComment, Node.FootComment]

theorem Kind_overwrite (a N : Node) : (overwrite a N).Kind = N.Kind := rfl

theorem Update_append (S N : Node) (hS : S.Kind = SequenceNode) :
    Update S ["+"] N =
      some (S.setContent (S.Content ++ [overwrite (Node.ofKind ScalarNode) N]), none) := by
  have hd : S.Kind ≠ DocumentNode := by rw [hS]; decide
  simp [Update, Visit_cons _ _ _ _ _ hd, recurse, hS, appendArray, GuessKind, Visit_nil,
    updateVisitor]

/-- C8. The append marker always adds and never matches: `k` Updates in a row
with path `["+"]` on a Sequence all return no error and leave it with its old
elements, unchanged and in order, followed by `k` new elements, each holding
the replacement node's fields. -/
theorem append_marker_always_adds (S N : Node) (k : Nat) (hS : S.Kind = SequenceNode) :
    ∃ added : List Node,
      repeatUpdate k S ["+"] N = some (S.setContent (S.Content ++ added)) ∧
        added.length = k ∧ ∀ e ∈ added, sameFields e N := by
  induction k generalizing S with
  | zero => exact ⟨[], by simp [repeatUpdate], rfl, by simp⟩
  | succ k ih =>
    obtain ⟨added, h1, h2, h3⟩ :=
      ih (S.setContent (S.Content ++ [overwrite (Node.ofKind ScalarNode) N])) (by simpa using hS)
    refine ⟨overwrite (Node.ofKind ScalarNode) N :: added, ?_, by simp [h2], ?_⟩
    · simp only [repeatUpdate, Update_append S N hS, h1]
      simp
    · intro e he
      rcases List.mem_cons.1 he with rfl | he
      · exact sameFields_overwrite _ _
      · exact h3 e he

theorem append_marker_always_adds_witness :
    ∃ added : List Node,
      repeatUpdate 2 (Node.container SequenceNode []) ["+"] (Node.scalar "x") =
          some ((Node.container SequenceNode []).setContent
            ((Node.container SequenceNode []).Content ++ added)) ∧
        added.length = 2 ∧ ∀ e ∈ added, sameFields e (Node.scalar "x") :=
  append_marker_always_adds (Node.container SequenceNode []) (Node.scalar "x") 2 rfl

/-! ## The full wildcard over a mapping -/

theorem getOrReplace_same (v : Node) (k : Kind) (h : v.Kind = k) : getOrReplace v k = v := by
  simp [getOrReplace, h]

theorem GuessKind_nil (k : Kind) (h : k ≠ 0) : GuessKind [] k = k := by
  simp [GuessKind, h]

theorem splatMapFrom_get (l : List Node) (index : Nat) (acc : List Node)
    (hindex : index % 2 = 0) (heven : l.length % 2 = 0)
    (hkinds : ∀ v ∈ mapValues l, v.Kind = ScalarNode ∨ v.Kind = SequenceNode ∨ v.Kind = MappingNode) :
    splatMapFrom [] (fun node s2 => Visit node [] getVisitor s2) l index acc =
      some (l, acc ++ mapValues l, none) := by
  match l with
  | [] => simp [splatMapFrom, mapValues]
  | [_] => simp at heven
  | k :: v :: rest =>
    have hv := hkinds v (by simp [mapValues])
    have h0 : v.Kind ≠ 0 := by rcases hv with h | h | h <;> rw [h] <;> decide
    have hd : v.Kind ≠ DocumentNode := by rcases hv with h | h | h <;> rw [h] <;> decide
    have ih := splatMapFrom_get rest (index + 1 + 1) (acc ++ [v]) (by omega)
      (by simp at heven ⊢; omega) (fun w hw => hkinds w (by simp [mapValues, hw]))
    have h1 : (index + 1) % 2 ≠ 0 := by omega
    simp [splatMapFrom, hindex, h1, GuessKind_nil _ h0, getOrReplace_same, Visit_nil _ _ _ hd,
      getVisitor, ih, mapValues]

theorem length_mapValues (l : List Node) : (mapValues l).length = l.length / 2 := by
  match l with
  | [] => rfl
  | [_] => simp [mapValues]
  | k :: v :: rest =>
    simp [mapValues, length_mapValues rest]
    omega

/-- C6. Get with the full wildcard over a Mapping with at least two entries,
even-length content and values of kind Scalar, Sequence or Mapping returns a
new Sequence node whose content is the value nodes of the Mapping in content
order, and leaves the Mapping unchanged. -/
theorem Get_wildcard_mapping (M : Node) (hM : M.Kind = MappingNode)
    (heven : M.Content.length % 2 = 0) (htwo : 4 ≤ M.Content.length)
    (hkinds : ∀ v ∈ mapValues M.Content,
      v.Kind = ScalarNode ∨ v.Kind = SequenceNode ∨ v.Kind = MappingNode) :
    Get M ["*"] =
      some (M, some (Node.mk SequenceNode 0 "" "" "" (mapValues M.Content) "" "" "" 0 0), none) := by
  have hd : M.Kind ≠ DocumentNode := by rw [hM]; decide
  have hlen := length_mapValues M.Content
  simp only [Get, Visit_cons _ _ _ _ _ hd, recurse, hM, if_true, splatMap,
    splatMapFrom_get M.Content 0 [] rfl heven hkinds, Node.setContent_Content, List.nil_append]
  match hmv : mapValues M.Content, hlen with
  | [], h => simp at h; omega
  | [_], h => simp at h; omega
  | a :: b :: rest, _ => simp [getResult]

theorem Get_wildcard_mapping_witness :
    Get (Node.container MappingNode
        [Node.scalar "a", Node.scalar "1", Node.scalar "b", Node.scalar "2"]) ["*"] =
      some (Node.container MappingNode
        [Node.scalar "a", Node.scalar "1", Node.scalar "b", Node.scalar "2"],
        some (Node.container SequenceNode [Node.scalar "1", Node.scalar "2"]), none) :=
  Get_wildcard_mapping _ rfl (by decide) (by decide) (by
    intro v hv
    simp [Node.container, Node.Content, mapValues] at hv
    rcases hv with rfl | rfl <;> exact Or.inl rfl)

/-! ## The loops over a mapping, pair by pair -/

theorem getElem?_value_slot (pre : List Node) (k v : Node) (rest : List Node) :
    (pre ++ k :: v :: rest)[pre.length + 1]? = some v := by
  induction pre with
  | nil => simp
  | cons a pre ih => simpa using ih

theorem getElem?_value_slot_none (pre : List Node) (k : Node) :
    (pre ++ [k])[pre.length + 1]? = none := by
  simp

theorem set_value_slot (pre : List Node) (k v v1 : Node) (rest : List Node) :
    (pre ++ k :: v :: rest).set (pre.length + 1) v1 = pre ++ k :: v1 :: rest := by
  induction pre with
  | nil => rfl
  | cons a pre ih => simp [ih]

theorem visitMatchingEntriesFrom_recurseMapEntry {σ : Type} (key : String) (tail : List String)
    (visit : Node → σ → Step σ) (l pre : List Node) (visited : Bool) (s : σ) :
    visitMatchingEntriesFrom key (recurseMapEntry tail visit) l pre.length visited (pre ++ l, s) =
      (mapLoop key tail visit l visited s).map
        (fun r => (r.2.1, (pre ++ r.1, r.2.2.1), r.2.2.2)) := by
  match l with
  | [] => simp [visitMatchingEntriesFrom, mapLoop]
  | [k] =>
    by_cases hk : matchesKey key k.Value = true
    · simp only [visitMatchingEntriesFrom, mapLoop, hk, recurseMapEntry,
        getElem?_value_slot_none]
      rfl
    · simp [visitMatchingEntriesFrom, mapLoop, hk]
  | k :: v :: rest =>
    by_cases hk : matchesKey key k.Value = true
    · simp only [visitMatchingEntriesFrom, mapLoop, hk, if_true, recurseMapEntry,
        getElem?_value_slot, set_value_slot]
      cases hv : visit (getOrReplace v (GuessKind tail v.Kind)) s with
      | none => rfl
      | some r =>
        obtain ⟨v1, s1, err⟩ := r
        cases err with
        | some e => rfl
        | none =>
          have ih := visitMatchingEntriesFrom_recurseMapEntry key tail visit rest
            (pre ++ [k, v1]) true s1
          simp only [List.length_append, List.length_cons, List.length_nil, List.append_assoc,
            List.cons_append, List.nil_append] at ih
          simp only [ih]
          cases mapLoop key tail visit rest true s1 <;> simp
    · have ih := visitMatchingEntriesFrom_recurseMapEntry key tail visit rest
        (pre ++ [k, v]) visited s
      simp only [List.length_append, List.length_cons, List.length_nil, List.append_assoc,
        List.cons_append, List.nil_append] at ih
      simp only [visitMatchingEntriesFrom, mapLoop, hk, if_false, ih, Bool.false_eq_true]
      cases mapLoop key tail visit rest visited s <;> simp

/-- recurseMap in terms of the pair-by-pair loop. -/
theorem recurseMap_eq {σ : Type} (value : Node) (head : String) (tail : List String)
    (visit : Node → σ → Step σ) (s : σ) :
    recurseMap value head tail visit s =
      match mapLoop head tail visit value.Content false s with
      | none => none
      | some (content, _, s1, some errorVisiting) =>
        some (value.setContent content, s1, some errorVisiting)
      | some (content, true, s1, none) => some (value.setContent content, s1, none)
      | some (content, false, s1, none) =>
        match visit (Node.ofKind (GuessKind tail 0)) s1 with
        | none => none
        | some (mapEntryValue, s2, err) =>
          some (value.setContent (content ++ [Node.ofValue head ScalarNode, mapEntryValue]),
            s2, err) := by
  have h := visitMatchingEntriesFrom_recurseMapEntry head tail visit value.Content [] false s
  simp only [List.length_nil, List.nil_append] at h
  simp only [recurseMap, visitMatchingEntries, h]
  cases mapLoop head tail visit value.Content false s with
  | none => rfl
  | some r =>
    obtain ⟨content, visited, s1, err⟩ := r
    cases err with
    | some e => cases visited <;> rfl
    | none =>
      cases visited with
      | true => rfl
      | false =>
        simp only [Option.map_some', List.append_assoc, List.singleton_append]

theorem visitMatchingEntriesFrom_collectIndex (key : String) (l : List Node) (index : Nat)
    (visited : Bool) (acc : List Nat) :
    ∃ b, visitMatchingEntriesFrom key collectIndex l index visited acc =
      some (b, acc ++ matchingIndicesFrom key l index, none) := by
  match l with
  | [] => exact ⟨visited, by simp [visitMatchingEntriesFrom, matchingIndicesFrom]⟩
  | [k] =>
    by_cases hk : matchesKey key k.Value = true
    · exact ⟨true, by simp [visitMatchingEntriesFrom, matchingIndicesFrom, hk, collectIndex]⟩
    · exact ⟨visited, by simp [visitMatchingEntriesFrom, matchingIndicesFrom, hk]⟩
  | k :: v :: rest =>
    by_cases hk : matchesKey key k.Value = true
    · obtain ⟨b, hb⟩ := visitMatchingEntriesFrom_collectIndex key rest (index + 2) true
        (acc ++ [index])
      exact ⟨b, by simp [visitMatchingEntriesFrom, matchingIndicesFrom, hk, collectIndex, hb]⟩
    · obtain ⟨b, hb⟩ := visitMatchingEntriesFrom_collectIndex key rest (index + 2) visited acc
      exact ⟨b, by simp [visitMatchingEntriesFrom, matchingIndicesFrom, hk, hb]⟩

theorem deleteIndices_append (a b : List Nat) (content : List Node) :
    deleteIndices (a ++ b) content = (deleteIndices a content).bind (deleteIndices b) := by
  induction a generalizing content with
  | nil => simp [deleteIndices]
  | cons i a ih =>
    simp only [List.cons_append, deleteIndices]
    split_ifs
    · rfl
    · exact ih _

/-- Deleting the matching indices from the highest down leaves the pairs
whose key does not match. -/
theorem deleteIndices_reverse (key : String) (l pre : List Node) (heven : l.length % 2 = 0) :
    deleteIndices (matchingIndicesFrom key l pre.length).reverse (pre ++ l) =
      some (pre ++ ofPairs ((mapPairs l).filter (fun p => !matchesKey key p.1.Value))) := by
  match l with
  | [] => simp [matchingIndicesFrom, deleteIndices, mapPairs, ofPairs]
  | [_] => simp at heven
  | k :: v :: rest =>
    have ih := deleteIndices_reverse key rest (pre ++ [k, v]) (by simp at heven ⊢; omega)
    simp only [List.length_append, List.length_cons, List.length_nil, List.append_assoc,
      List.cons_append, List.nil_append] at ih
    by_cases hk : matchesKey key k.Value = true
    · simp only [matchingIndicesFrom, hk, if_true, List.reverse_cons, deleteIndices_append, ih,
        Option.some_bind, mapPairs, List.filter_cons, Bool.not_true, Bool.false_eq_true, if_false]
      simp [deleteIndices]
    · simp only [matchingIndicesFrom, hk, if_false, ih, mapPairs, List.filter_cons,
        Bool.false_eq_true]
      simp [ofPairs, hk]

/-! ## Visitors that differ in their state only, and the result policy of Get -/

theorem splatMapFrom_state {σ τ : Type} (φ : σ → τ) (tail : List String)
    (visitF : Node → σ → Step σ) (visitG : Node → τ → Step τ)
    (hv : ∀ x s, visitG x (φ s) = (visitF x s).map (fun r => (r.1, φ r.2.1, r.2.2)))
    (l : List Node) (index : Nat) (s : σ) :
    splatMapFrom tail visitG l index (φ s) =
      (splatMapFrom tail visitF l index s).map (fun r => (r.1, φ r.2.1, r.2.2)) := by
  induction l generalizing index s with
  | nil => simp [splatMapFrom]
  | cons content rest ih =>
    by_cases hi : index % 2 = 0
    · simp only [splatMapFrom, hi, if_true, ih]
      cases splatMapFrom tail visitF rest (index + 1) s <;> simp
    · simp only [splatMapFrom, hi, if_false, hv]
      cases visitF (getOrReplace content (GuessKind tail content.Kind)) s with
      | none => rfl
      | some r =>
        obtain ⟨c1, s1, err⟩ := r
        cases err with
        | some e => rfl
        | none =>
          simp only [Option.map_some', ih]
          cases splatMapFrom tail visitF rest (index + 1) s1 <;> simp

theorem splatArrayFrom_state {σ τ : Type} (φ : σ → τ) (tail : List String)
    (visitF : Node → σ → Step σ) (visitG : Node → τ → Step τ)
    (hv : ∀ x s, visitG x (φ s) = (visitF x s).map (fun r => (r.1, φ r.2.1, r.2.2)))
    (l : List Node) (s : σ) :
    splatArrayFrom tail visitG l (φ s) =
      (splatArrayFrom tail visitF l s).map (fun r => (r.1, φ r.2.1, r.2.2)) := by
  induction l generalizing s with
  | nil => simp [splatArrayFrom]
  | cons content rest ih =>
    simp only [splatArrayFrom, hv]
    cases visitF (getOrReplace content (GuessKind tail content.Kind)) s with
    | none => rfl
    | some r =>
      obtain ⟨c1, s1, err⟩ := r
      cases err with
      | some e => rfl
      | none =>
        simp only [Option.map_some', ih]
        cases splatArrayFrom tail visitF rest s1 <;> simp

theorem mapLoop_state {σ τ : Type} (φ : σ → τ) (key : String) (tail : List String)
    (visitF : Node → σ → Step σ) (visitG : Node → τ → Step τ)
    (hv : ∀ x s, visitG x (φ s) = (visitF x s).map (fun r => (r.1, φ r.2.1, r.2.2)))
    (l : List Node) (visited : Bool) (s : σ) :
    mapLoop key tail visitG l visited (φ s) =
      (mapLoop key tail visitF l visited s).map (fun r => (r.1, r.2.1, φ r.2.2.1, r.2.2.2)) := by
  match l with
  | [] => simp [mapLoop]
  | [k] => by_cases hk : matchesKey key k.Value = true <;> simp [mapLoop, hk]
  | k :: v :: rest =>
    by_cases hk : matchesKey key k.Value = true
    · simp only [mapLoop, hk, if_true, hv]
      cases visitF (getOrReplace v (GuessKind tail v.Kind)) s with
      | none => rfl
      | some r =>
        obtain ⟨c1, s1, err⟩ := r
        cases err with
        | some e => rfl
        | none =>
          simp only [Option.map_some', mapLoop_state φ key tail visitF visitG hv rest true s1]
          cases mapLoop key tail visitF rest true s1 <;> simp
    · simp only [mapLoop, hk, if_false, Bool.false_eq_true,
        mapLoop_state φ key tail visitF visitG hv rest visited s]
      cases mapLoop key tail visitF rest visited s <;> simp

theorem recurse_state {σ τ : Type} (φ : σ → τ) (head : String) (tail : List String)
    (visitF : Node → σ → Step σ) (visitG : Node → τ → Step τ)
    (hv : ∀ x s, visitG x (φ s) = (visitF x s).map (fun r => (r.1, φ r.2.1, r.2.2)))
    (value : Node) (s : σ) :
    recurse value head tail visitG (φ s) =
      (recurse value head tail visitF s).map (fun r => (r.1, φ r.2.1, r.2.2)) := by
  unfold recurse
  split_ifs with hM hstar hS hstar hplus
  · simp only [splatMap, splatMapFrom_state φ tail visitF visitG hv]
    cases splatMapFrom tail visitF value.Content 0 s <;> simp
  · simp only [recurseMap_eq, mapLoop_state φ head tail visitF visitG hv]
    cases mapLoop head tail visitF value.Content false s with
    | none => rfl
    | some r =>
      obtain ⟨content, visited, s1, err⟩ := r
      cases err with
      | some e => cases visited <;> rfl
      | none =>
        cases visited with
        | true => rfl
        | false =>
          simp only [Option.map_some', hv]
          cases visitF (Node.ofKind (GuessKind tail 0)) s1 <;> simp
  · simp only [splatArray, splatArrayFrom_state φ tail visitF visitG hv]
    cases splatArrayFrom tail visitF value.Content s <;> simp
  · simp only [appendArray, hv]
    cases visitF (Node.ofKind (GuessKind tail 0)) s <;> simp
  · simp only [recurseArray]
    cases ParseInt head with
    | error e => rfl
    | ok index =>
      simp only
      split_ifs
      · rfl
      · rfl
      · cases value.Content[index.toNat]? with
        | none => rfl
        | some child =>
          simp only [hv]
          cases visitF (getOrReplace child (GuessKind tail child.Kind)) s <;> simp
  · rfl

theorem derefDocument_state {σ τ : Type} (φ : σ → τ)
    (innerF : Node → σ → Step σ) (innerG : Node → τ → Step τ)
    (hv : ∀ x s, innerG x (φ s) = (innerF x s).map (fun r => (r.1, φ r.2.1, r.2.2)))
    (value : Node) (s : σ) :
    derefDocument value innerG (φ s) =
      (derefDocument value innerF s).map (fun r => (r.1, φ r.2.1, r.2.2)) := by
  unfold derefDocument
  split_ifs
  · cases value.Content with
    | nil => rfl
    | cons realValue others =>
      simp only [hv]
      cases innerF realValue s <;> simp
  · exact hv value s

/-- Two visitors that do the same to the node and return the same error, their
states related by a function, make the same traversal. -/
theorem Visit_state {σ τ : Type} (φ : σ → τ) (f : VisitorFn σ) (g : VisitorFn τ)
    (hv : ∀ x s, g x (φ s) = (f x s).map (fun r => (r.1, φ r.2.1, r.2.2)))
    (path : List String) (value : Node) (s : σ) :
    Visit value path g (φ s) = (Visit value path f s).map (fun r => (r.1, φ r.2.1, r.2.2)) := by
  induction path generalizing value s with
  | nil => exact derefDocument_state φ f g hv value s
  | cons head tail ih =>
    simp only [Visit]
    exact derefDocument_state φ _ _ (fun x s1 => recurse_state φ head tail _ _ ih x s1) value s

theorem traced_fst {σ : Type} (f : VisitorFn σ) (x : Node) (st : σ × List Node) :
    f x st.1 = (traced f x st).map (fun r => (r.1, r.2.1.1, r.2.2)) := by
  simp only [traced]
  cases f x st.1 <;> simp

/-- C5. The result policy of Get. Let `ms` be the nodes the traversal of `P`
over `T` calls the visitor of Get on, in visitation order, as `traced` records
them next to what the visitor itself accumulates. Then Get returns no node
when `ms` is empty, the node itself when `ms` has one element, and otherwise a
new Sequence node whose content is `ms` in that order, with empty value and
tag; it returns no error, and the tree as the traversal left it. -/
theorem Get_result_policy (T : Node) (P : List String) (T1 : Node) (acc ms : List Node)
    (e : Option Error) (h : Visit T P (traced getVisitor) ([], []) = some (T1, (acc, ms), e)) :
    ∃ r : Option Node, Get T P = some (T1, r, none) ∧
      (ms = [] → r = none) ∧ (∀ m, ms = [m] → r = some m) ∧
      (2 ≤ ms.length → ∃ w, r = some w ∧ w.Kind = SequenceNode ∧ w.Content = ms ∧
        w.Value = "" ∧ w.Tag = "") := by
  have hrecord : ∀ (x : Node) (a : List Node), traced getVisitor x (a, a) =
      (getVisitor x a).map (fun r => (r.1, (r.2.1, r.2.1), r.2.2)) := by
    intro x a
    simp [traced, getVisitor]
  have h1 := Visit_state (fun a : List Node => (a, a)) getVisitor (traced getVisitor)
    hrecord P T []
  rw [h] at h1
  cases hg : Visit T P getVisitor [] with
  | none => rw [hg] at h1; cases h1
  | some r =>
    obtain ⟨T2, a, e2⟩ := r
    rw [hg] at h1
    simp only [Option.map_some', Option.some.injEq, Prod.mk.injEq] at h1
    obtain ⟨rfl, ⟨rfl, rfl⟩, rfl⟩ := h1
    refine ⟨getResult ms, by simp [Get, hg], ?_, ?_, ?_⟩
    · rintro rfl; rfl
    · rintro m rfl; rfl
    · intro hlen
      match ms, hlen with
      | a :: b :: rest, _ => exact ⟨_, rfl, rfl, rfl, rfl, rfl⟩

theorem Get_result_policy_witness :
    ∃ r : Option Node,
      Get (Node.container MappingNode
          [Node.scalar "a", Node.scalar "1", Node.scalar "b", Node.scalar "2"]) ["*"] =
        some (Node.container MappingNode
          [Node.scalar "a", Node.scalar "1", Node.scalar "b", Node.scalar "2"], r, none) ∧
      ([Node.scalar "1", Node.scalar "2"] = [] → r = none) ∧
      (∀ m, [Node.scalar "1", Node.scalar "2"] = [m] → r = some m) ∧
      (2 ≤ [Node.scalar "1", Node.scalar "2"].length →
        ∃ w, r = some w ∧ w.Kind = SequenceNode ∧
          w.Content = [Node.scalar "1", Node.scalar "2"] ∧ w.Value = "" ∧ w.Tag = "") :=
  Get_result_policy (Node.container MappingNode
      [Node.scalar "a", Node.scalar "1", Node.scalar "b", Node.scalar "2"]) ["*"]
    (Node.container MappingNode
      [Node.scalar "a", Node.scalar "1", Node.scalar "b", Node.scalar "2"])
    [Node.scalar "1", Node.scalar "2"] [Node.scalar "1", Node.scalar "2"] none rfl

/-! ## Delete on a mapping -/

theorem length_ofPairs (ps : List (Node × Node)) : (ofPairs ps).length = 2 * ps.length := by
  induction ps with
  | nil => rfl
  | cons p ps ih => obtain ⟨k, v⟩ := p; simp [ofPairs, ih]; omega

theorem length_mapPairs (l : List Node) : (mapPairs l).length = l.length / 2 := by
  match l with
  | [] => rfl
  | [_] => simp [mapPairs]
  | k :: v :: rest =>
    simp [mapPairs, length_mapPairs rest]
    omega

theorem ofPairs_mapPairs (l : List Node) (heven : l.length % 2 = 0) : ofPairs (mapPairs l) = l := by
  match l with
  | [] => rfl
  | [_] => simp at heven
  | k :: v :: rest =>
    simp [mapPairs, ofPairs, ofPairs_mapPairs rest (by simp at heven ⊢; omega)]

/-- Delete on a mapping with even-length content, with a one-segment path. -/
theorem Delete_mapping (M : Node) (t : String) (hM : M.Kind = MappingNode)
    (heven : M.Content.length % 2 = 0) :
    Delete M [t] =
      some (M.setContent
        (ofPairs ((mapPairs M.Content).filter (fun p => !matchesKey t p.1.Value))), none) := by
  have hd : M.Kind ≠ DocumentNode := by rw [hM]; decide
  obtain ⟨b, hb⟩ := visitMatchingEntriesFrom_collectIndex t M.Content 0 false []
  have hdel := deleteIndices_reverse t M.Content [] heven
  simp only [List.length_nil, List.nil_append] at hdel hb
  simp [Delete, Visit_nil _ _ _ hd, deleteVisitor, hM, visitMatchingEntries, hb, hdel]

/-- C4. Delete on a Mapping with even-length content returns no error and
leaves the key/value pairs whose key does not match the target, in their
original order and pairing; the content is shorter by twice the number of
matching keys. -/
theorem Delete_mapping_removes_matching (M : Node) (t : String) (hM : M.Kind = MappingNode)
    (heven : M.Content.length % 2 = 0) :
    Delete M [t] =
        some (M.setContent
          (ofPairs ((mapPairs M.Content).filter (fun p => !matchesKey t p.1.Value))), none) ∧
      (ofPairs ((mapPairs M.Content).filter (fun p => !matchesKey t p.1.Value))).length +
          2 * (mapPairs M.Content).countP (fun p => matchesKey t p.1.Value) =
        M.Content.length := by
  refine ⟨Delete_mapping M t hM heven, ?_⟩
  have h1 := List.length_eq_countP_add_countP (fun p : Node × Node => matchesKey t p.1.Value)
    (mapPairs M.Content)
  have h2 := length_mapPairs M.Content
  rw [length_ofPairs, ← List.countP_eq_length_filter]
  have h3 : (fun a : Node × Node => decide (¬matchesKey t a.1.Value = true)) =
      (fun p => !matchesKey t p.1.Value) := by
    funext p; cases matchesKey t p.1.Value <;> rfl
  rw [h3] at h1
  omega

theorem Delete_mapping_removes_matching_witness :
    Delete (Node.container MappingNode
        [Node.scalar "apple", Node.scalar "1", Node.scalar "ant", Node.scalar "2",
          Node.scalar "b", Node.scalar "3"]) ["a*"] =
      some (Node.container MappingNode [Node.scalar "b", Node.scalar "3"], none) :=
  (Delete_mapping_removes_matching (Node.container MappingNode
        [Node.scalar "apple", Node.scalar "1", Node.scalar "ant", Node.scalar "2",
          Node.scalar "b", Node.scalar "3"]) "a*" rfl (by decide)).1

/-! ## Update on a mapping -/

theorem evenMappingsList_iff (l : List Node) :
    evenMappingsList l = true ↔ ∀ x ∈ l, evenMappings x = true := by
  induction l with
  | nil => simp [evenMappingsList]
  | cons a l ih => simp [evenMappingsList, ih]

theorem evenMappings_iff (n : Node) :
    evenMappings n = true ↔
      (n.Kind = MappingNode → n.Content.length % 2 = 0) ∧ ∀ x ∈ n.Content, evenMappings x = true := by
  cases n with
  | mk k s t v a c h l f li co =>
    simp only [evenMappings, Node.Kind, Node.Content]
    rw [← evenMappingsList_iff]
    simp
    tauto

theorem Visit_update_nil (x N : Node) (c : Nat) (h : x.Kind ≠ DocumentNode) :
    Visit x [] (updateVisitor N) c = some (overwrite x N, c + 1, none) := by
  simp [Visit_nil _ _ _ h, updateVisitor]

theorem getOrReplace_nil_not_document (v : Node) (h : v.Kind ≠ DocumentNode) :
    (getOrReplace v (GuessKind [] v.Kind)).Kind ≠ DocumentNode := by
  by_cases h0 : v.Kind = 0
  · simp [getOrReplace, GuessKind, h0]
  · simp [getOrReplace, GuessKind, h0, h]

/-- The loop of `recurseMap` under Update with a one-segment path. -/
theorem mapLoop_update (key : String) (N : Node) (l : List Node) (visited : Bool) (c : Nat)
    (heven : l.length % 2 = 0)
    (hdoc : ∀ p ∈ mapPairs l, matchesKey key p.1.Value = true → p.2.Kind ≠ DocumentNode) :
    ∃ l1 c1, mapLoop key [] (fun node s2 => Visit node [] (updateVisitor N) s2) l visited c =
        some (l1, (visited || anyKey key l), c1, none) ∧
      l1.length = l.length ∧ List.Forall₂ (updatedPair key N) (mapPairs l) (mapPairs l1) ∧
      (anyKey key l = false → l1 = l) := by
  match l with
  | [] => exact ⟨[], c, by simp [mapLoop, anyKey, mapPairs], rfl, by simp [mapPairs], fun _ => rfl⟩
  | [_] => simp at heven
  | k :: v :: rest =>
    have hrest : rest.length % 2 = 0 := by simp at heven ⊢; omega
    have hdoc' : ∀ p ∈ mapPairs rest, matchesKey key p.1.Value = true → p.2.Kind ≠ DocumentNode :=
      fun p hp => hdoc p (by simp [mapPairs, hp])
    by_cases hk : matchesKey key k.Value = true
    · have hv : v.Kind ≠ DocumentNode := hdoc (k, v) (by simp [mapPairs]) hk
      obtain ⟨l1, c1, h1, h2, h3, _⟩ := mapLoop_update key N rest true (c + 1) hrest hdoc'
      refine ⟨k :: overwrite (getOrReplace v (GuessKind [] v.Kind)) N :: l1, c1, ?_, by simp [h2],
        ?_, ?_⟩
      · simp [mapLoop, hk, Visit_update_nil _ _ _ (getOrReplace_nil_not_document v hv), h1, anyKey,
          mapPairs]
      · simp only [mapPairs, List.forall₂_cons]
        exact ⟨⟨rfl, by simp [hk, sameFields_overwrite]⟩, h3⟩
      · simp [anyKey, mapPairs, hk]
    · obtain ⟨l1, c1, h1, h2, h3, h4⟩ := mapLoop_update key N rest visited c hrest hdoc'
      refine ⟨k :: v :: l1, c1, ?_, by simp [h2], ?_, ?_⟩
      · simp only [anyKey] at h1
        simp [mapLoop, hk, h1, anyKey, mapPairs]
      · simp only [mapPairs, List.forall₂_cons]
        exact ⟨⟨rfl, by simp [hk]⟩, h3⟩
      · intro h
        have : anyKey key rest = false := by simpa [anyKey, mapPairs, hk] using h
        rw [h4 this]

theorem anyKey_eq_false (key : String) (l : List Node) :
    anyKey key l = false ↔ ∀ p ∈ mapPairs l, matchesKey key p.1.Value = false := by
  simp [anyKey]

theorem anyKey_eq_true (key : String) (l : List Node) :
    anyKey key l = true ↔ ∃ p ∈ mapPairs l, matchesKey key p.1.Value = true := by
  simp [anyKey]

/-- C3, amended. Update has upsert semantics on a Mapping with even-length
content none of whose values under a key matching `h` is a Document node, for
every segment `h` other than `"*"` and every replacement node: it returns no
error; if no key matches `h`, the new content is the old content followed by a
Scalar key node with value `h` and a value node holding the replacement's
fields; if some key matches, the length is unchanged, every value under a
matching key holds the replacement's fields, and every other key and value is
unchanged. -/
theorem Update_mapping_upsert (M N : Node) (h : String) (hM : M.Kind = MappingNode)
    (heven : M.Content.length % 2 = 0) (hstar : h ≠ "*")
    (hdoc : ∀ p ∈ mapPairs M.Content, matchesKey h p.1.Value = true → p.2.Kind ≠ DocumentNode) :
    ∃ content, Update M [h] N = some (M.setContent content, none) ∧
      ((∀ p ∈ mapPairs M.Content, matchesKey h p.1.Value = false) →
        ∃ v, content = M.Content ++ [Node.ofValue h ScalarNode, v] ∧ sameFields v N) ∧
      ((∃ p ∈ mapPairs M.Content, matchesKey h p.1.Value = true) →
        content.length = M.Content.length ∧
          List.Forall₂ (updatedPair h N) (mapPairs M.Content) (mapPairs content)) := by
  have hd : M.Kind ≠ DocumentNode := by rw [hM]; decide
  obtain ⟨l1, c1, h1, h2, h3, h4⟩ := mapLoop_update h N M.Content false 0 heven hdoc
  cases hany : anyKey h M.Content with
  | false =>
    rw [hany] at h1
    have hl1 := h4 hany
    subst hl1
    refine ⟨M.Content ++ [Node.ofValue h ScalarNode, overwrite (Node.ofKind ScalarNode) N], ?_,
      fun _ => ⟨_, rfl, sameFields_overwrite _ _⟩, ?_⟩
    · simp [Update, Visit_cons _ _ _ _ _ hd, recurse, hM, hstar, recurseMap_eq, h1, GuessKind,
        Visit_update_nil]
    · intro hex
      rw [← anyKey_eq_true, hany] at hex
      cases hex
  | true =>
    rw [hany] at h1
    refine ⟨l1, ?_, ?_, fun _ => ⟨h2, h3⟩⟩
    · simp [Update, Visit_cons _ _ _ _ _ hd, recurse, hM, hstar, recurseMap_eq, h1]
    · intro hno
      rw [← anyKey_eq_false, hany] at hno
      cases hno

theorem Update_mapping_upsert_witness :
    Update (Node.container MappingNode []) ["k"] (Node.scalar "x") =
        some (Node.container MappingNode [Node.scalar "k", Node.scalar "x"], none) ∧
      ∃ content, Update (Node.container MappingNode []) ["k"] (Node.scalar "x") =
          some ((Node.container MappingNode []).setContent content, none) ∧
        ((∀ p ∈ mapPairs (Node.container MappingNode []).Content,
            matchesKey "k" p.1.Value = false) →
          ∃ v, content = (Node.container MappingNode []).Content ++ [Node.ofValue "k" ScalarNode, v] ∧
            sameFields v (Node.scalar "x")) ∧
        ((∃ p ∈ mapPairs (Node.container MappingNode []).Content,
            matchesKey "k" p.1.Value = true) →
          content.length = (Node.container MappingNode []).Content.length ∧
            List.Forall₂ (updatedPair "k" (Node.scalar "x"))
              (mapPairs (Node.container MappingNode []).Content) (mapPairs content)) :=
  ⟨rfl, Update_mapping_upsert (Node.container MappingNode []) (Node.scalar "x") "k" rfl
    (by decide) (by decide) (by intro p hp; simp [Node.container, Node.Content, mapPairs] at hp)⟩

/-- C3, counterexample. On the Mapping `{k: <Document holding "1">}` the key
`k` matches the segment `k`, Update with the Scalar `"x"` returns no error,
and the value under `k` is still a Document node afterwards: `Visit` stepped
through it and overwrote its child. -/
theorem Update_mapping_document_value :
    matchesKey "k" "k" = true ∧
      Update (Node.container MappingNode
          [Node.scalar "k", Node.container DocumentNode [Node.scalar "1"]]) ["k"]
          (Node.scalar "x") =
        some (Node.container MappingNode
          [Node.scalar "k", Node.container DocumentNode [Node.scalar "x"]], none) ∧
      ¬ sameFields (Node.container DocumentNode [Node.scalar "x"]) (Node.scalar "x") :=
  ⟨by decide, rfl, fun h => absurd h.2.2.1 (by decide)⟩

/-! ## Get after Update -/

theorem GuessKind_idem (tail : List String) (k : Kind) :
    GuessKind tail (GuessKind tail k) = GuessKind tail k := by
  cases tail with
  | nil =>
    by_cases h : k = 0
    · simp [GuessKind, h]
    · simp [GuessKind, h]
  | cons first rest =>
    simp only [GuessKind]
    split_ifs <;> simp_all

theorem Kind_getOrReplace (v : Node) (g : Kind) : (getOrReplace v g).Kind = g := by
  by_cases h : v.Kind = g
  · simp [getOrReplace, h]
  · simp [getOrReplace, h]

theorem evenMappings_ofKind (g : Kind) : evenMappings (Node.ofKind g) = true := by
  simp [Node.ofKind, evenMappings, evenMappingsList]

theorem evenMappings_getOrReplace (v : Node) (g : Kind) (h : evenMappings v = true) :
    evenMappings (getOrReplace v g) = true := by
  by_cases hk : v.Kind = g
  · simp [getOrReplace, hk, h]
  · simp [getOrReplace, hk, evenMappings_ofKind]

theorem matchesKey_self (key : String) : matchesKey key key = true := by
  simp only [matchesKey, TrimSuffix, HasPrefix]
  split_ifs with h1 h2
  · rw [List.isPrefixOf_iff_prefix]
    exact List.take_prefix _ _
  · simp
  · simp
  · simp

theorem Value_ofValue (v : String) (k : Kind) : (Node.ofValue v k).Value = v := rfl

/-- The round trip through the loop of `recurseMap`. -/
theorem mapLoop_roundtrip (N : Node) (key : String) (tail : List String)
    (visitU : Node → Nat → Step Nat) (visitG : Node → List Node → Step (List Node))
    (ih : RoundTrip N tail visitU visitG) (l : List Node) (heven : l.length % 2 = 0)
    (hwf : ∀ x ∈ l, evenMappings x = true) (visited : Bool) (c : Nat) (l1 : List Node)
    (visited1 : Bool) (c1 : Nat)
    (hU : mapLoop key tail visitU l visited c = some (l1, visited1, c1, none)) :
    l1.length = l.length ∧ visited1 = (visited || anyKey key l) ∧
      (anyKey key l = false → l1 = l ∧ c1 = c) ∧
      ∀ acc vis, ∃ ms, mapLoop key tail visitG l1 vis acc =
          some (l1, (vis || anyKey key l), acc ++ ms, none) ∧
        c1 = c + ms.length ∧ ∀ m ∈ ms, sameFields m N := by
  match l with
  | [] =>
    simp only [mapLoop, Option.some.injEq, Prod.mk.injEq, and_true] at hU
    obtain ⟨rfl, rfl, rfl⟩ := hU
    exact ⟨rfl, by simp [anyKey, mapPairs], fun _ => ⟨rfl, rfl⟩,
      fun acc vis => ⟨[], by simp [mapLoop, anyKey, mapPairs], rfl, by simp⟩⟩
  | [_] => simp at heven
  | k :: v :: rest =>
    have hrest : rest.length % 2 = 0 := by simp at heven ⊢; omega
    have hwf' : ∀ x ∈ rest, evenMappings x = true := fun x hx => hwf x (by simp [hx])
    by_cases hk : matchesKey key k.Value = true
    · simp only [mapLoop, hk, if_true] at hU
      cases hv : visitU (getOrReplace v (GuessKind tail v.Kind)) c with
      | none => simp [hv] at hU
      | some r =>
        obtain ⟨v1, c', err⟩ := r
        cases err with
        | some e => simp [hv] at hU
        | none =>
          simp only [hv] at hU
          cases hr : mapLoop key tail visitU rest true c' with
          | none => simp [hr] at hU
          | some r2 =>
            obtain ⟨rest1, vis2, c2, err2⟩ := r2
            simp only [hr, Option.some.injEq, Prod.mk.injEq] at hU
            obtain ⟨rfl, rfl, rfl, rfl⟩ := hU
            obtain ⟨h1, h2, _, h4⟩ :=
              mapLoop_roundtrip N key tail visitU visitG ih rest hrest hwf' true c' rest1 vis2 c2 hr
            obtain ⟨hK, hG⟩ := ih _ v1 c c'
              (evenMappings_getOrReplace v _ (hwf v (by simp))) hv
            have hkind := hK (by rw [Kind_getOrReplace, GuessKind_idem])
            refine ⟨by simp [h1], by simp [h2, anyKey, mapPairs, hk], ?_, ?_⟩
            · intro hno
              simp [anyKey, mapPairs, hk] at hno
            · intro acc vis
              obtain ⟨ms1, hg1, hc1, hm1⟩ := hG acc
              obtain ⟨ms2, hg2, hc2, hm2⟩ := h4 (acc ++ ms1) true
              refine ⟨ms1 ++ ms2, ?_, by simp [hc1, hc2]; omega, ?_⟩
              · simp [mapLoop, hk, getOrReplace, hkind, hg1, hg2, anyKey, mapPairs]
              · intro m hm
                rcases List.mem_append.1 hm with hm | hm
                · exact hm1 m hm
                · exact hm2 m hm
    · simp only [mapLoop, hk, if_false, Bool.false_eq_true] at hU
      cases hr : mapLoop key tail visitU rest visited c with
      | none => simp [hr] at hU
      | some r2 =>
        obtain ⟨rest1, vis2, c2, err2⟩ := r2
        simp only [hr, Option.some.injEq, Prod.mk.injEq] at hU
        obtain ⟨rfl, rfl, rfl, rfl⟩ := hU
        obtain ⟨h1, h2, h3, h4⟩ :=
          mapLoop_roundtrip N key tail visitU visitG ih rest hrest hwf' visited c rest1 vis2 c2 hr
        have hany : anyKey key (k :: v :: rest) = anyKey key rest := by
          simp [anyKey, mapPairs, hk]
        refine ⟨by simp [h1], by rw [hany]; exact h2, ?_, ?_⟩
        · intro hno
          rw [hany] at hno
          obtain ⟨h5, h6⟩ := h3 hno
          exact ⟨by rw [h5], h6⟩
        · intro acc vis
          obtain ⟨ms2, hg2, hc2, hm2⟩ := h4 acc vis
          exact ⟨ms2, by simp [mapLoop, hk, hg2, hany], hc2, hm2⟩

/-- The loop of `recurseMap` walks over an even number of nodes none of whose
keys matches and goes on behind them. -/
theorem mapLoop_append {σ : Type} (key : String) (tail : List String) (visit : Node → σ → Step σ)
    (l l2 : List Node) (heven : l.length % 2 = 0) (hno : anyKey key l = false) (visited : Bool)
    (s : σ) :
    mapLoop key tail visit (l ++ l2) visited s =
      (mapLoop key tail visit l2 visited s).map (fun r => (l ++ r.1, r.2)) := by
  match l with
  | [] => rcases h : mapLoop key tail visit l2 visited s with _ | r <;> simp [h]
  | [_] => simp at heven
  | k :: v :: rest =>
    have hrest : rest.length % 2 = 0 := by simp at heven ⊢; omega
    have hk : matchesKey key k.Value = false := by
      simp [anyKey, mapPairs] at hno; exact hno.1
    have hno' : anyKey key rest = false := by
      simp [anyKey, mapPairs] at hno; simpa [anyKey] using hno.2
    have ih := mapLoop_append key tail visit rest l2 hrest hno' visited s
    simp only [List.cons_append, mapLoop, hk, Bool.false_eq_true, if_false]
    have ih' : mapLoop key tail visit (rest.append l2) visited s = _ := ih
    rw [ih']
    rcases h : mapLoop key tail visit l2 visited s with _ | r <;> simp [h]

theorem mem_of_getElem? {α : Type} (l : List α) (i : Nat) (x : α) (h : l[i]? = some x) : x ∈ l := by
  rw [List.getElem?_eq_some] at h
  obtain ⟨hi, rfl⟩ := h
  exact List.getElem_mem hi

/-- The round trip through one step of the traversal. -/
theorem recurse_roundtrip (N : Node) (head : String) (tail : List String)
    (hstar : head ≠ "*") (hplus : head ≠ "+")
    (visitU : Node → Nat → Step Nat) (visitG : Node → List Node → Step (List Node))
    (ih : RoundTrip N tail visitU visitG) (v v1 : Node) (c c1 : Nat)
    (hwf : evenMappings v = true) (hU : recurse v head tail visitU c = some (v1, c1, none)) :
    v1.Kind = v.Kind ∧ ∀ acc, ∃ ms, recurse v1 head tail visitG acc = some (v1, acc ++ ms, none) ∧
      c1 = c + ms.length ∧ ∀ m ∈ ms, sameFields m N := by
  obtain ⟨heven, hchildren⟩ := (evenMappings_iff v).1 hwf
  by_cases hM : v.Kind = MappingNode
  · simp only [recurse, hM, if_true, hstar, if_false, recurseMap_eq] at hU
    cases hloop : mapLoop head tail visitU v.Content false c with
    | none => simp [hloop] at hU
    | some r =>
      obtain ⟨content, visited, c', err⟩ := r
      cases err with
      | some e => simp [hloop] at hU
      | none =>
        obtain ⟨h1, h2, h3, h4⟩ := mapLoop_roundtrip N head tail visitU visitG ih v.Content
          (heven hM) hchildren false c content visited c' hloop
        cases visited with
        | true =>
          simp only [hloop, Option.some.injEq, Prod.mk.injEq, and_true] at hU
          obtain ⟨rfl, rfl⟩ := hU
          refine ⟨by simp, fun acc => ?_⟩
          obtain ⟨ms, hg, hc, hm⟩ := h4 acc false
          refine ⟨ms, ?_, hc, hm⟩
          simp only [Bool.false_or] at h2
          simp [recurse, hM, hstar, recurseMap_eq, hg, ← h2]
        | false =>
          simp only [hloop] at hU
          simp only [Bool.false_or] at h2
          obtain ⟨rfl, rfl⟩ := h3 h2.symm
          cases hv : visitU (Node.ofKind (GuessKind tail 0)) c' with
          | none => simp [hv] at hU
          | some r2 =>
            obtain ⟨mv, c2, err2⟩ := r2
            simp only [hv, Option.some.injEq, Prod.mk.injEq] at hU
            obtain ⟨rfl, rfl, rfl⟩ := hU
            obtain ⟨hK, hG⟩ := ih _ mv c' _ (evenMappings_ofKind _) hv
            have hkind := hK (by rw [Node.Kind_ofKind, GuessKind_idem])
            refine ⟨by simp, fun acc => ?_⟩
            obtain ⟨ms, hg, hc, hm⟩ := hG acc
            refine ⟨ms, ?_, hc, hm⟩
            simp [recurse, hM, hstar, recurseMap_eq,
              mapLoop_append head tail visitG v.Content _ (heven hM) h2.symm, mapLoop,
              Value_ofValue, matchesKey_self, getOrReplace, hkind, hg]
  · by_cases hS : v.Kind = SequenceNode
    · simp only [recurse, hM, if_false, hS, if_true, hstar, hplus, recurseArray] at hU
      cases hp : ParseInt head with
      | error e => simp [hp] at hU
      | ok index =>
        simp only [hp] at hU
        by_cases hi : index ≥ (v.Content.length : Int)
        · simp only [hi, if_true, Option.some.injEq, Prod.mk.injEq, and_true] at hU
          obtain ⟨rfl, rfl⟩ := hU
          exact ⟨rfl, fun acc => ⟨[], by simp [recurse, hM, hS, hstar, hplus, recurseArray, hp, hi],
            rfl, by simp⟩⟩
        · simp only [hi, if_false] at hU
          by_cases hneg : index < 0
          · simp [hneg] at hU
          · simp only [hneg, if_false] at hU
            cases hx : v.Content[index.toNat]? with
            | none => simp [hx] at hU
            | some x =>
              simp only [hx] at hU
              cases hv : visitU (getOrReplace x (GuessKind tail x.Kind)) c with
              | none => simp [hv] at hU
              | some r =>
                obtain ⟨x1, c2, err⟩ := r
                simp only [hv, Option.some.injEq, Prod.mk.injEq] at hU
                obtain ⟨rfl, rfl, rfl⟩ := hU
                obtain ⟨hK, hG⟩ := ih _ x1 c _
                  (evenMappings_getOrReplace x _ (hchildren x (mem_of_getElem? _ _ _ hx))) hv
                have hkind := hK (by rw [Kind_getOrReplace, GuessKind_idem])
                have hlt : index.toNat < v.Content.length := by
                  rw [List.getElem?_eq_some] at hx
                  exact hx.1
                refine ⟨by simp, fun acc => ?_⟩
                obtain ⟨ms, hg, hc, hm⟩ := hG acc
                refine ⟨ms, ?_, hc, hm⟩
                simp [recurse, hM, hS, hstar, hplus, recurseArray, hp, hi, hneg, hlt,
                  getOrReplace, hkind, hg]
    · simp only [recurse, hM, hS, if_false, Option.some.injEq, Prod.mk.injEq, and_true] at hU
      obtain ⟨rfl, rfl⟩ := hU
      exact ⟨rfl, fun acc => ⟨[], by simp [recurse, hM, hS], rfl, by simp⟩⟩

/-- Get after Update along a path without `"*"` and `"+"`, with a replacement
node of a set kind other than Document: the round trip, for any number of
matches. -/
theorem Visit_roundtrip (N : Node) (hN0 : N.Kind ≠ 0) (hND : N.Kind ≠ DocumentNode)
    (P : List String) (hstar : "*" ∉ P) (hplus : "+" ∉ P) :
    RoundTrip N P (fun x c => Visit x P (updateVisitor N) c)
      (fun x acc => Visit x P getVisitor acc) := by
  induction P with
  | nil =>
    intro x x1 c c1 _ hU
    beta_reduce at hU ⊢
    by_cases hd : x.Kind = DocumentNode
    · simp only [Visit, derefDocument, hd, if_true] at hU
      cases hc : x.Content with
      | nil => simp [hc] at hU
      | cons child others =>
        simp only [hc, updateVisitor, Option.some.injEq, Prod.mk.injEq, and_true] at hU
        obtain ⟨rfl, rfl⟩ := hU
        refine ⟨fun h => by simpa using h, fun acc => ⟨[overwrite child N], ?_, rfl, ?_⟩⟩
        · simp [Visit, derefDocument, hd, getVisitor]
        · intro m hm
          rw [List.mem_singleton.1 hm]
          exact sameFields_overwrite _ _
    · simp only [Visit_nil _ _ _ hd, updateVisitor, Option.some.injEq, Prod.mk.injEq,
        and_true] at hU
      obtain ⟨rfl, rfl⟩ := hU
      refine ⟨fun _ => by simp [Kind_overwrite, GuessKind, hN0], fun acc =>
        ⟨[overwrite x N], ?_, rfl, ?_⟩⟩
      · rw [Visit_nil _ _ _ (by rw [Kind_overwrite]; exact hND)]
        rfl
      · intro m hm
        rw [List.mem_singleton.1 hm]
        exact sameFields_overwrite _ _
  | cons head tail ih =>
    have hstar' : head ≠ "*" := fun h => hstar (by simp [h])
    have hplus' : head ≠ "+" := fun h => hplus (by simp [h])
    have ih' := ih (fun h => hstar (by simp [h])) (fun h => hplus (by simp [h]))
    intro x x1 c c1 hwf hU
    beta_reduce at hU ⊢
    by_cases hd : x.Kind = DocumentNode
    · simp only [Visit, derefDocument, hd, if_true] at hU
      cases hc : x.Content with
      | nil => simp [hc] at hU
      | cons child others =>
        simp only [hc] at hU
        cases hr : recurse child head tail (fun node s2 => Visit node tail (updateVisitor N) s2) c with
        | none => simp [hr] at hU
        | some r =>
          obtain ⟨child1, c2, err⟩ := r
          simp only [hr, Option.some.injEq, Prod.mk.injEq] at hU
          obtain ⟨rfl, rfl, rfl⟩ := hU
          have hwfc : evenMappings child = true :=
            ((evenMappings_iff x).1 hwf).2 child (by simp [hc])
          obtain ⟨_, hG⟩ := recurse_roundtrip N head tail hstar' hplus' _ _ ih' child child1 c _
            hwfc hr
          refine ⟨fun h => by simpa using h, fun acc => ?_⟩
          obtain ⟨ms, hg, hc2, hm⟩ := hG acc
          exact ⟨ms, by simp [Visit, derefDocument, hd, hg], hc2, hm⟩
    · rw [Visit_cons _ _ _ _ _ hd] at hU
      obtain ⟨hkind, hG⟩ := recurse_roundtrip N head tail hstar' hplus' _ _ ih' x x1 c c1 hwf hU
      refine ⟨fun h => by rw [hkind]; exact h, fun acc => ?_⟩
      obtain ⟨ms, hg, hc2, hm⟩ := hG acc
      exact ⟨ms, by rw [Visit_cons _ _ _ _ _ (by rw [hkind]; exact hd)]; exact hg, hc2, hm⟩

/-- C1, amended. Update-then-Get round trip: for every tree in which every
Mapping has even-length content, every path with no segment `"+"` or `"*"`
and every replacement node whose kind is set and is not Document, if Update
returns no error and its visitor was called on exactly one node, then Get with
the same path on the updated tree returns no error, leaves the tree as it is
and returns a node whose value, tag, kind and content are the replacement
node's. -/
theorem Update_then_Get (T N T1 : Node) (P : List String) (hT : evenMappings T = true)
    (hstar : "*" ∉ P) (hplus : "+" ∉ P) (hN0 : N.Kind ≠ 0) (hND : N.Kind ≠ DocumentNode)
    (hU : Update T P N = some (T1, none)) (hone : updateCalls T P N = some 1) :
    ∃ x, Get T1 P = some (T1, some x, none) ∧ x.Value = N.Value ∧ x.Tag = N.Tag ∧
      x.Kind = N.Kind ∧ x.Content = N.Content := by
  cases hv : Visit T P (updateVisitor N) 0 with
  | none => simp [Update, hv] at hU
  | some r =>
    obtain ⟨T2, calls, err⟩ := r
    simp only [Update, hv, Option.some.injEq, Prod.mk.injEq] at hU
    simp only [updateCalls, hv, Option.some.injEq] at hone
    obtain ⟨rfl, rfl⟩ := hU
    subst hone
    obtain ⟨_, hG⟩ := Visit_roundtrip N hN0 hND P hstar hplus T T2 0 1 hT hv
    obtain ⟨ms, hg, hc, hm⟩ := hG []
    match ms, hc with
    | [x], _ =>
      have hx := hm x (by simp)
      refine ⟨x, ?_, hx.1, hx.2.1, hx.2.2.1, hx.2.2.2.2.1⟩
      simp only [List.nil_append] at hg
      simp [Get, hg, getResult]

theorem Update_then_Get_witness :
    ∃ x, Get (Node.container MappingNode [Node.scalar "k", Node.scalar "x"]) ["k"] =
        some (Node.container MappingNode [Node.scalar "k", Node.scalar "x"], some x, none) ∧
      x.Value = (Node.scalar "x").Value ∧ x.Tag = (Node.scalar "x").Tag ∧
      x.Kind = (Node.scalar "x").Kind ∧ x.Content = (Node.scalar "x").Content :=
  Update_then_Get (Node.container MappingNode []) (Node.scalar "x")
    (Node.container MappingNode [Node.scalar "k", Node.scalar "x"]) ["k"]
    (by decide) (by decide) (by decide) (by decide) (by decide) rfl rfl

/-- C1, counterexample. With the append marker the round trip fails: on the
empty Sequence, Update with path `["+"]` and the Scalar `"x"` returns no error
and its visitor is called on one node, and Get with the same path on the
updated Sequence `["x"]` returns one node, a new element with the empty value,
and leaves the Sequence with two elements. The round trip fails as well
through a full wildcard that has to replace a child (the update is made on a
node outside the tree), with a replacement node of kind Document (Get steps
through it) or of unset kind (Get replaces it), and below a Mapping with
content of odd length. -/
theorem Update_then_Get_fails :
    (Update (Node.container SequenceNode []) ["+"] (Node.scalar "x") =
        some (Node.container SequenceNode [Node.scalar "x"], none) ∧
      updateCalls (Node.container SequenceNode []) ["+"] (Node.scalar "x") = some 1 ∧
      Get (Node.container SequenceNode [Node.scalar "x"]) ["+"] =
        some (Node.container SequenceNode [Node.scalar "x", Node.scalar ""],
          some (Node.scalar ""), none) ∧
      (Node.scalar "").Value ≠ (Node.scalar "x").Value) ∧
    (Update (Node.container MappingNode [Node.scalar "a", Node.scalar "1"]) ["*", "b"]
          (Node.scalar "x") =
        some (Node.container MappingNode [Node.scalar "a", Node.scalar "1"], none) ∧
      updateCalls (Node.container MappingNode [Node.scalar "a", Node.scalar "1"]) ["*", "b"]
          (Node.scalar "x") = some 1 ∧
      Get (Node.container MappingNode [Node.scalar "a", Node.scalar "1"]) ["*", "b"] =
        some (Node.container MappingNode [Node.scalar "a", Node.scalar "1"],
          some (Node.scalar ""), none)) ∧
    (Update (Node.container MappingNode [Node.scalar "a", Node.scalar "1"]) ["a"]
          (Node.container DocumentNode [Node.scalar "y"]) =
        some (Node.container MappingNode
          [Node.scalar "a", Node.container DocumentNode [Node.scalar "y"]], none) ∧
      updateCalls (Node.container MappingNode [Node.scalar "a", Node.scalar "1"]) ["a"]
          (Node.container DocumentNode [Node.scalar "y"]) = some 1 ∧
      Get (Node.container MappingNode
          [Node.scalar "a", Node.container DocumentNode [Node.scalar "y"]]) ["a"] =
        some (Node.container MappingNode
          [Node.scalar "a", Node.container DocumentNode [Node.scalar "y"]],
          some (Node.scalar "y"), none) ∧
      (Node.scalar "y").Kind ≠ (Node.container DocumentNode [Node.scalar "y"]).Kind) ∧
    (Update (Node.container MappingNode [Node.scalar "a", Node.scalar "1"]) ["a"]
          (Node.ofValue "x" 0) =
        some (Node.container MappingNode [Node.scalar "a", Node.ofValue "x" 0], none) ∧
      updateCalls (Node.container MappingNode [Node.scalar "a", Node.scalar "1"]) ["a"]
          (Node.ofValue "x" 0) = some 1 ∧
      Get (Node.container MappingNode [Node.scalar "a", Node.ofValue "x" 0]) ["a"] =
        some (Node.container MappingNode [Node.scalar "a", Node.scalar ""],
          some (Node.scalar ""), none)) ∧
    (Update (Node.container MappingNode [Node.scalar "k0"]) ["a"] (Node.scalar "x") =
        some (Node.container MappingNode [Node.scalar "k0", Node.scalar "a", Node.scalar "x"],
          none) ∧
      updateCalls (Node.container MappingNode [Node.scalar "k0"]) ["a"] (Node.scalar "x") =
        some 1 ∧
      Get (Node.container MappingNode [Node.scalar "k0", Node.scalar "a", Node.scalar "x"])
          ["a"] =
        some (Node.container MappingNode
          [Node.scalar "k0", Node.scalar "a", Node.scalar "x", Node.scalar "a", Node.scalar ""],
          some (Node.scalar ""), none)) :=
  ⟨⟨rfl, rfl, rfl, by decide⟩, ⟨rfl, rfl, rfl⟩, ⟨rfl, rfl, rfl, by decide⟩, ⟨rfl, rfl, rfl⟩,
    ⟨rfl, rfl, rfl⟩⟩

/-! ## Get after Update and Delete: a mapping with a one-segment path -/

theorem mapPairs_ofPairs (ps : List (Node × Node)) : mapPairs (ofPairs ps) = ps := by
  induction ps with
  | nil => rfl
  | cons p ps ih => obtain ⟨k, v⟩ := p; simp [ofPairs, mapPairs, ih]

theorem mapPairs_append (l l2 : List Node) (heven : l.length % 2 = 0) :
    mapPairs (l ++ l2) = mapPairs l ++ mapPairs l2 := by
  match l with
  | [] => rfl
  | [_] => simp at heven
  | k :: v :: rest =>
    simp [mapPairs, mapPairs_append rest l2 (by simp at heven ⊢; omega)]

/-- Whatever the visitor, the loop of `recurseMap` keeps the length of the
content and the pairs whose key does not match. -/
theorem mapLoop_keeps_others {σ : Type} (key : String) (tail : List String)
    (visit : Node → σ → Step σ) (l : List Node) (heven : l.length % 2 = 0) (visited : Bool)
    (s : σ) (l1 : List Node) (visited1 : Bool) (s1 : σ) (err : Option Error)
    (h : mapLoop key tail visit l visited s = some (l1, visited1, s1, err)) :
    l1.length = l.length ∧
      (mapPairs l1).filter (fun p => !matchesKey key p.1.Value) =
        (mapPairs l).filter (fun p => !matchesKey key p.1.Value) := by
  match l with
  | [] =>
    simp only [mapLoop, Option.some.injEq, Prod.mk.injEq] at h
    obtain ⟨rfl, _⟩ := h
    exact ⟨rfl, rfl⟩
  | [_] => simp at heven
  | k :: v :: rest =>
    have hrest : rest.length % 2 = 0 := by simp at heven ⊢; omega
    by_cases hk : matchesKey key k.Value = true
    · simp only [mapLoop, hk, if_true] at h
      cases hv : visit (getOrReplace v (GuessKind tail v.Kind)) s with
      | none => simp [hv] at h
      | some r =>
        obtain ⟨v1, s2, e⟩ := r
        cases e with
        | some e =>
          simp only [hv, Option.some.injEq, Prod.mk.injEq] at h
          obtain ⟨rfl, _⟩ := h
          exact ⟨rfl, by simp [mapPairs, hk]⟩
        | none =>
          simp only [hv] at h
          cases hr : mapLoop key tail visit rest true s2 with
          | none => simp [hr] at h
          | some r2 =>
            obtain ⟨rest1, vis2, s3, e3⟩ := r2
            simp only [hr, Option.some.injEq, Prod.mk.injEq] at h
            obtain ⟨rfl, _⟩ := h
            obtain ⟨h1, h2⟩ := mapLoop_keeps_others key tail visit rest hrest true s2 rest1 vis2 s3
              e3 hr
            exact ⟨by simp [h1], by simp [mapPairs, hk, h2]⟩
    · simp only [mapLoop, hk, if_false, Bool.false_eq_true] at h
      cases hr : mapLoop key tail visit rest visited s with
      | none => simp [hr] at h
      | some r2 =>
        obtain ⟨rest1, vis2, s3, e3⟩ := r2
        simp only [hr, Option.some.injEq, Prod.mk.injEq] at h
        obtain ⟨rfl, _⟩ := h
        obtain ⟨h1, h2⟩ := mapLoop_keeps_others key tail visit rest hrest visited s rest1 vis2 s3
          e3 hr
        exact ⟨by simp [h1], by simp [mapPairs, hk, h2]⟩

theorem splatMapFrom_length {σ : Type} (tail : List String) (visit : Node → σ → Step σ)
    (l : List Node) (index : Nat) (s : σ) (l1 : List Node) (s1 : σ) (err : Option Error)
    (h : splatMapFrom tail visit l index s = some (l1, s1, err)) : l1.length = l.length := by
  induction l generalizing index s l1 s1 err with
  | nil =>
    simp only [splatMapFrom, Option.some.injEq, Prod.mk.injEq] at h
    rw [← h.1]
  | cons a l ih =>
    simp only [splatMapFrom] at h
    split at h
    · split at h
      · cases h
      · rename_i r1 s2 e2 heq
        simp only [Option.some.injEq, Prod.mk.injEq] at h
        rw [← h.1]
        simp [ih _ _ _ _ _ heq]
    · split at h
      · cases h
      · simp only [Option.some.injEq, Prod.mk.injEq] at h
        rw [← h.1]
        simp
      · split at h
        · cases h
        · rename_i r1 s2 e2 heq
          simp only [Option.some.injEq, Prod.mk.injEq] at h
          rw [← h.1]
          simp [ih _ _ _ _ _ heq]

theorem matchesKey_star (actual : String) : matchesKey "*" actual = true := by
  have h : TrimSuffix "*" "*" = "" := by decide
  simp [matchesKey, h, HasPrefix]

/-- What Update on a mapping with a one-segment path leaves of the content. -/
theorem Update_mapping_keeps_others (M N M1 : Node) (h : String) (hM : M.Kind = MappingNode)
    (heven : M.Content.length % 2 = 0) (hU : Update M [h] N = some (M1, none)) :
    ∃ content, M1 = M.setContent content ∧ content.length % 2 = 0 ∧
      (mapPairs content).filter (fun p => !matchesKey h p.1.Value) =
        (mapPairs M.Content).filter (fun p => !matchesKey h p.1.Value) := by
  have hd : M.Kind ≠ DocumentNode := by rw [hM]; decide
  simp only [Update, Visit_cons _ _ _ _ _ hd, recurse, hM, if_true] at hU
  by_cases hstar : h = "*"
  · subst hstar
    simp only [if_true, splatMap] at hU
    cases hs : splatMapFrom [] (fun node s2 => Visit node [] (updateVisitor N) s2) M.Content 0 0 with
    | none => simp [hs] at hU
    | some r =>
      obtain ⟨content, c, e⟩ := r
      simp only [hs, Option.some.injEq, Prod.mk.injEq] at hU
      have hlen := splatMapFrom_length _ _ _ _ _ _ _ _ hs
      refine ⟨content, hU.1.symm, by rw [hlen]; exact heven, ?_⟩
      simp [matchesKey_star]
  · simp only [hstar, if_false, recurseMap_eq] at hU
    cases hloop : mapLoop h [] (fun node s2 => Visit node [] (updateVisitor N) s2) M.Content false 0 with
    | none => simp [hloop] at hU
    | some r =>
      obtain ⟨content, visited, c, e⟩ := r
      obtain ⟨h1, h2⟩ := mapLoop_keeps_others _ _ _ _ heven _ _ _ _ _ _ hloop
      have hce : content.length % 2 = 0 := by rw [h1]; exact heven
      cases e with
      | some e => simp [hloop] at hU
      | none =>
        cases visited with
        | true =>
          simp only [hloop, Option.some.injEq, Prod.mk.injEq] at hU
          exact ⟨content, hU.1.symm, hce, h2⟩
        | false =>
          simp only [hloop] at hU
          cases hv : Visit (Node.ofKind (GuessKind [] 0)) [] (updateVisitor N) c with
          | none => simp [hv] at hU
          | some r2 =>
            obtain ⟨mv, c2, e2⟩ := r2
            simp only [hv, Option.some.injEq, Prod.mk.injEq] at hU
            refine ⟨_, hU.1.symm, by simp; omega, ?_⟩
            rw [mapPairs_append _ _ hce]
            simp [mapPairs, Value_ofValue, matchesKey_self, h2]

theorem anyKey_ofPairs_filter (key : String) (ps : List (Node × Node)) :
    anyKey key (ofPairs (ps.filter (fun p => !matchesKey key p.1.Value))) = false := by
  simp [anyKey, mapPairs_ofPairs]

/-- Get after Update and Delete on a Mapping with even-length content, with a
one-segment path: Update and then Delete leave the original entries whose key
does not match the segment; Get then returns no node when the segment is the
full wildcard `"*"`, and for any other segment adds the key again with a new
empty Scalar value and returns that node. -/
theorem Update_Delete_then_Get_mapping (M N M1 M2 : Node) (h : String) (hM : M.Kind = MappingNode)
    (heven : M.Content.length % 2 = 0) (hU : Update M [h] N = some (M1, none))
    (hD : Delete M1 [h] = some (M2, none)) :
    M2 = M.setContent
        (ofPairs ((mapPairs M.Content).filter (fun p => !matchesKey h p.1.Value))) ∧
      (h = "*" → Get M2 [h] = some (M2, none, none)) ∧
      (h ≠ "*" → Get M2 [h] =
        some (M2.setContent (M2.Content ++ [Node.ofValue h ScalarNode, Node.ofKind ScalarNode]),
          some (Node.ofKind ScalarNode), none)) := by
  obtain ⟨content, rfl, hce, hkeep⟩ := Update_mapping_keeps_others M N M1 h hM heven hU
  have hdel := Delete_mapping (M.setContent content) h (by simpa using hM)
    (by simpa using hce)
  rw [hdel] at hD
  simp only [Node.Content_setContent, Node.setContent_setContent, hkeep, Option.some.injEq,
    Prod.mk.injEq, and_true] at hD
  subst hD
  have hd : (M.setContent
      (ofPairs ((mapPairs M.Content).filter (fun p => !matchesKey h p.1.Value)))).Kind ≠
      DocumentNode := by simp [hM]
  have hlen : (ofPairs ((mapPairs M.Content).filter (fun p => !matchesKey h p.1.Value))).length % 2
      = 0 := by rw [length_ofPairs]; omega
  refine ⟨rfl, ?_, ?_⟩
  · rintro rfl
    have : (mapPairs M.Content).filter (fun p => !matchesKey "*" p.1.Value) = [] := by
      simp [matchesKey_star]
    have hd' : (M.setContent []).Kind ≠ DocumentNode := by simp [hM]
    simp [Get, Visit_cons _ _ _ _ _ hd', recurse, hM, splatMap, this, ofPairs, splatMapFrom,
      getResult]
  · intro hstar
    have hloop := mapLoop_append h [] (fun node s2 => Visit node [] getVisitor s2)
      (ofPairs ((mapPairs M.Content).filter (fun p => !matchesKey h p.1.Value))) [] hlen
      (anyKey_ofPairs_filter h _) false []
    simp only [List.append_nil, mapLoop, Option.map_some'] at hloop
    simp [Get, Visit_cons _ _ _ _ _ hd, recurse, hM, hstar, recurseMap_eq, hloop, GuessKind,
      Visit_nil, getVisitor, getResult]

/-- C2, counterexample. On the empty Mapping, Update with path `["k"]` and the
Scalar `"x"` gives `{k: "x"}` without error, Delete with the same path gives
the empty Mapping again without error, and Get with the same path then returns
a node, the empty Scalar it has just added under `k`, not absence. On the
Sequence `["a", "b"]` with path `["0"]`, Get after Update and Delete returns
the element `"b"` that moved to position 0. Behind an append marker or a full
wildcard the three calls do not meet the same node: with path `["+", "k"]` on
the empty Sequence Delete appends an empty Scalar and removes nothing from it,
and Get appends a Mapping and returns the empty Scalar it adds under `k`; with
path `["*", "k"]` on `{a: "1"}` Update and Delete leave the tree as it is,
Delete being called on the Scalar `"1"`, and Get returns the empty Scalar it
adds under `k` in a Mapping outside the tree. On the Sequence
`["a", Document[]]` with path `["0"]` Update and Delete return no error and Get
then fails at run time on the Document without a child. On the Mapping with
the odd-length content `["b"]` and path `["a", "t"]` Update adds `a: {t: "x"}`
behind the key `b`, which puts the new key at a value position: Delete and
Get do not find it, each adds `a` again, Delete removes nothing and Get
returns the empty Scalar it adds under `t`. -/
theorem Get_after_Update_Delete_returns_a_node :
    (Update (Node.container MappingNode []) ["k"] (Node.scalar "x") =
        some (Node.container MappingNode [Node.scalar "k", Node.scalar "x"], none) ∧
      Delete (Node.container MappingNode [Node.scalar "k", Node.scalar "x"]) ["k"] =
        some (Node.container MappingNode [], none) ∧
      Get (Node.container MappingNode []) ["k"] =
        some (Node.container MappingNode [Node.scalar "k", Node.scalar ""],
          some (Node.scalar ""), none)) ∧
    (Update (Node.container SequenceNode [Node.scalar "a", Node.scalar "b"]) ["0"]
          (Node.scalar "x") =
        some (Node.container SequenceNode [Node.scalar "x", Node.scalar "b"], none) ∧
      Delete (Node.container SequenceNode [Node.scalar "x", Node.scalar "b"]) ["0"] =
        some (Node.container SequenceNode [Node.scalar "b"], none) ∧
      Get (Node.container SequenceNode [Node.scalar "b"]) ["0"] =
        some (Node.container SequenceNode [Node.scalar "b"], some (Node.scalar "b"), none)) ∧
    (Update (Node.container SequenceNode []) ["+", "k"] (Node.scalar "x") =
        some (Node.container SequenceNode
          [Node.container MappingNode [Node.scalar "k", Node.scalar "x"]], none) ∧
      Delete (Node.container SequenceNode
          [Node.container MappingNode [Node.scalar "k", Node.scalar "x"]]) ["+", "k"] =
        some (Node.container SequenceNode
          [Node.container MappingNode [Node.scalar "k", Node.scalar "x"],
            Node.ofKind ScalarNode], none) ∧
      Visit (Node.container SequenceNode
          [Node.container MappingNode [Node.scalar "k", Node.scalar "x"]]) ["+"]
          (traced (deleteVisitor "k")) ((), []) =
        some (Node.container SequenceNode
          [Node.container MappingNode [Node.scalar "k", Node.scalar "x"],
            Node.ofKind ScalarNode], ((), [Node.ofKind ScalarNode]), none) ∧
      foundAfterDelete "k" (Node.ofKind ScalarNode) = [] ∧
      Get (Node.container SequenceNode
          [Node.container MappingNode [Node.scalar "k", Node.scalar "x"],
            Node.ofKind ScalarNode]) ["+", "k"] =
        some (Node.container SequenceNode
          [Node.container MappingNode [Node.scalar "k", Node.scalar "x"],
            Node.ofKind ScalarNode,
            Node.container MappingNode [Node.scalar "k", Node.ofKind ScalarNode]],
          some (Node.ofKind ScalarNode), none)) ∧
    (Update (Node.container MappingNode [Node.scalar "a", Node.scalar "1"]) ["*", "k"]
          (Node.scalar "x") =
        some (Node.container MappingNode [Node.scalar "a", Node.scalar "1"], none) ∧
      Delete (Node.container MappingNode [Node.scalar "a", Node.scalar "1"]) ["*", "k"] =
        some (Node.container MappingNode [Node.scalar "a", Node.scalar "1"], none) ∧
      Visit (Node.container MappingNode [Node.scalar "a", Node.scalar "1"]) ["*"]
          (traced (deleteVisitor "k")) ((), []) =
        some (Node.container MappingNode [Node.scalar "a", Node.scalar "1"],
          ((), [Node.scalar "1"]), none) ∧
      foundAfterDelete "k" (Node.scalar "1") = [] ∧
      Get (Node.container MappingNode [Node.scalar "a", Node.scalar "1"]) ["*", "k"] =
        some (Node.container MappingNode [Node.scalar "a", Node.scalar "1"],
          some (Node.ofKind ScalarNode), none)) ∧
    (Update (Node.container SequenceNode [Node.scalar "a", Node.container DocumentNode []])
          ["0"] (Node.scalar "x") =
        some (Node.container SequenceNode [Node.scalar "x", Node.container DocumentNode []],
          none) ∧
      Delete (Node.container SequenceNode [Node.scalar "x", Node.container DocumentNode []])
          ["0"] =
        some (Node.container SequenceNode [Node.container DocumentNode []], none) ∧
      Get (Node.container SequenceNode [Node.container DocumentNode []]) ["0"] = none) ∧
    (Update (Node.container MappingNode [Node.scalar "b"]) ["a", "t"] (Node.scalar "x") =
        some (Node.container MappingNode [Node.scalar "b", Node.scalar "a",
          Node.container MappingNode [Node.scalar "t", Node.scalar "x"]], none) ∧
      Delete (Node.container MappingNode [Node.scalar "b", Node.scalar "a",
          Node.container MappingNode [Node.scalar "t", Node.scalar "x"]]) ["a", "t"] =
        some (Node.container MappingNode [Node.scalar "b", Node.scalar "a",
          Node.container MappingNode [Node.scalar "t", Node.scalar "x"],
          Node.scalar "a", Node.ofKind ScalarNode], none) ∧
      Get (Node.container MappingNode [Node.scalar "b", Node.scalar "a",
          Node.container MappingNode [Node.scalar "t", Node.scalar "x"],
          Node.scalar "a", Node.ofKind ScalarNode]) ["a", "t"] =
        some (Node.container MappingNode [Node.scalar "b", Node.scalar "a",
          Node.container MappingNode [Node.scalar "t", Node.scalar "x"],
          Node.scalar "a", Node.ofKind ScalarNode, Node.scalar "a",
          Node.container MappingNode [Node.scalar "t", Node.ofKind ScalarNode]],
          some (Node.ofKind ScalarNode), none)) :=
  ⟨⟨rfl, rfl, rfl⟩, ⟨rfl, rfl, rfl⟩, ⟨rfl, rfl, rfl, rfl, rfl⟩, ⟨rfl, rfl, rfl, rfl, rfl⟩,
    ⟨rfl, rfl, rfl⟩, ⟨rfl, rfl, rfl⟩⟩

/-! ## The claims on single steps -/


/-- C11. Delete on a Sequence with a target that parses as an integer `i`
with `0 ≤ i < n` returns no error and leaves the first `i` elements of the old
content followed by the elements after position `i`, in their original order;
the content is one element shorter. -/
theorem Delete_sequence_in_bounds (S : Node) (t : String) (i : Int)
    (hS : S.Kind = SequenceNode) (ht : ParseInt t = .ok i) (h0 : 0 ≤ i)
    (hi : i < (S.Content.length : Int)) :
    Delete S [t] =
        some (S.setContent (S.Content.take i.toNat ++ S.Content.drop (i.toNat + 1)), none) ∧
      (S.Content.take i.toNat ++ S.Content.drop (i.toNat + 1)).length + 1 = S.Content.length := by
  have hd : S.Kind ≠ DocumentNode := by rw [hS]; decide
  have h1 : ¬ i ≥ (S.Content.length : Int) := by omega
  have h2 : ¬ i < 0 := by omega
  refine ⟨by simp [Delete, Visit_nil _ _ _ hd, deleteVisitor, hS, ht, h1, h2], ?_⟩
  simp only [List.length_append, List.length_take, List.length_drop]
  omega

theorem Delete_sequence_in_bounds_witness :
    Delete (Node.container SequenceNode [Node.scalar "x", Node.scalar "y", Node.scalar "z"])
        ["1"] =
      some (Node.container SequenceNode [Node.scalar "x", Node.scalar "z"], none) :=
  (Delete_sequence_in_bounds
    (Node.container SequenceNode [Node.scalar "x", Node.scalar "y", Node.scalar "z"]) "1" 1
    rfl rfl (by decide) (by decide)).1

/-- C15. Get auto-vivifies: on a Mapping with even-length content, for a
segment `h` other than `"*"` that matches no key, Get with path `[h]` returns
no error and returns a newly created node of kind Scalar with empty value and
empty content; afterwards the content of the Mapping is its old content
followed by a Scalar key node with value `h` and that new node, two nodes
longer. -/
theorem Get_vivifies (M : Node) (h : String) (hM : M.Kind = MappingNode)
    (heven : M.Content.length % 2 = 0) (hstar : h ≠ "*")
    (hno : ∀ p ∈ mapPairs M.Content, matchesKey h p.1.Value = false) :
    ∃ created, created.Kind = ScalarNode ∧ created.Value = "" ∧ created.Content = [] ∧
      Get M [h] =
        some (M.setContent (M.Content ++ [Node.ofValue h ScalarNode, created]), some created,
          none) ∧
      (M.Content ++ [Node.ofValue h ScalarNode, created]).length = M.Content.length + 2 ∧
      (Node.ofValue h ScalarNode).Kind = ScalarNode ∧ (Node.ofValue h ScalarNode).Value = h := by
  have hd : M.Kind ≠ DocumentNode := by rw [hM]; decide
  have hany : anyKey h M.Content = false := (anyKey_eq_false h M.Content).2 hno
  have hloop := mapLoop_append h [] (fun node s2 => Visit node [] getVisitor s2) M.Content []
    heven hany false []
  simp only [List.append_nil, mapLoop, Option.map_some'] at hloop
  refine ⟨Node.ofKind ScalarNode, rfl, rfl, rfl, ?_, by simp, rfl, rfl⟩
  simp [Get, Visit_cons _ _ _ _ _ hd, recurse, hM, hstar, recurseMap_eq, hloop, GuessKind,
    Visit_nil, getVisitor, getResult]

theorem Get_vivifies_witness :
    ∃ created, created.Kind = ScalarNode ∧ created.Value = "" ∧ created.Content = [] ∧
      Get (Node.container MappingNode [Node.scalar "a", Node.scalar "1"]) ["b"] =
        some ((Node.container MappingNode [Node.scalar "a", Node.scalar "1"]).setContent
          ((Node.container MappingNode [Node.scalar "a", Node.scalar "1"]).Content ++
            [Node.ofValue "b" ScalarNode, created]), some created, none) ∧
      ((Node.container MappingNode [Node.scalar "a", Node.scalar "1"]).Content ++
          [Node.ofValue "b" ScalarNode, created]).length =
        (Node.container MappingNode [Node.scalar "a", Node.scalar "1"]).Content.length + 2 ∧
      (Node.ofValue "b" ScalarNode).Kind = ScalarNode ∧ (Node.ofValue "b" ScalarNode).Value = "b" :=
  Get_vivifies (Node.container MappingNode [Node.scalar "a", Node.scalar "1"]) "b" rfl
    (by decide) (by decide) (by
      intro p hp
      simp [Node.container, Node.Content, mapPairs] at hp
      subst hp
      decide)

/-- C12, the code at the failing input. Get never returns an error: it drops
the error of `Visit`. On the Sequence `["x"]` with path `["a"]`, where `"a"`
does not parse as an integer, Get returns no node and no error, while Update
on the same tree and path returns the error of `ParseInt`. -/
theorem Get_drops_the_error :
    (∀ (T : Node) (P : List String) (T1 : Node) (r : Option Node) (e : Option Error),
        Get T P = some (T1, r, e) → e = none) ∧
      parsesAsInt "a" = false ∧
      Get (Node.container SequenceNode [Node.scalar "x"]) ["a"] =
        some (Node.container SequenceNode [Node.scalar "x"], none, none) ∧
      Update (Node.container SequenceNode [Node.scalar "x"]) ["a"] (Node.scalar "n") =
        some (Node.container SequenceNode [Node.scalar "x"], some (.syntaxError "a")) := by
  refine ⟨?_, by decide, rfl, rfl⟩
  intro T P T1 r e h
  simp only [Get] at h
  split at h
  · cases h
  · simp only [Option.some.injEq, Prod.mk.injEq] at h
    exact h.2.2.symm

/-- C17, the code at the failing input. On the Mapping `{a: "1"}`, Update with
path `["*", "k"]` returns no error and leaves the Mapping as it was: the
Mapping that replaces the Scalar value is never stored in the content, so what
is created below it is lost. The same on the Sequence `["1"]`. With the key
step `["a", "k"]` the value does become `{k: "x"}`. -/
theorem splat_replaces_outside_the_tree :
    Update (Node.container MappingNode [Node.scalar "a", Node.scalar "1"]) ["*", "k"]
        (Node.scalar "x") =
      some (Node.container MappingNode [Node.scalar "a", Node.scalar "1"], none) ∧
    Update (Node.container SequenceNode [Node.scalar "1"]) ["*", "k"] (Node.scalar "x") =
      some (Node.container SequenceNode [Node.scalar "1"], none) ∧
    Update (Node.container MappingNode [Node.scalar "a", Node.scalar "1"]) ["a", "k"]
        (Node.scalar "x") =
      some (Node.container MappingNode [Node.scalar "a",
        Node.container MappingNode [Node.scalar "k", Node.scalar "x"]], none) :=
  ⟨rfl, rfl, rfl⟩

/-- C20, the code at the failing input. On the Sequence `["x", "y"]`, which
has no Document and no Mapping in it, the segment `"-1"` parses as the integer
`-1`, passes the test `index >= len` and indexes or slices the content out of
range: Get, Update and Delete with path `["-1"]` all fail at run time. -/
theorem negative_index_fails_at_run_time :
    ParseInt "-1" = .ok (-1) ∧
      wellFormed (Node.container SequenceNode [Node.scalar "x", Node.scalar "y"]) = true ∧
      Get (Node.container SequenceNode [Node.scalar "x", Node.scalar "y"]) ["-1"] = none ∧
      Update (Node.container SequenceNode [Node.scalar "x", Node.scalar "y"]) ["-1"]
        (Node.scalar "n") = none ∧
      Delete (Node.container SequenceNode [Node.scalar "x", Node.scalar "y"]) ["-1"] = none :=
  ⟨rfl, by decide, rfl, rfl, rfl⟩



/-- C13, amended. A path that overshoots a Scalar at the root produces zero
matches and changes nothing: for every tree that is a Scalar node, or a
Document node whose first child is a Scalar node, and every non-empty path,
Get returns no node and no error, Update returns no error, and the tree is
unchanged after either call. -/
theorem overshoot_at_the_root (T N : Node) (P : List String) (hP : P ≠ [])
    (hT : T.Kind = ScalarNode ∨
      (T.Kind = DocumentNode ∧ ∃ c rest, T.Content = c :: rest ∧ c.Kind = ScalarNode)) :
    Get T P = some (T, none, none) ∧ Update T P N = some (T, none) := by
  cases P with
  | nil => exact absurd rfl hP
  | cons head tail =>
    rcases hT with hS | ⟨hD, c, rest, hc, hcS⟩
    · have hd : T.Kind ≠ DocumentNode := by rw [hS]; decide
      constructor
      · simp [Get, Visit_cons _ _ _ _ _ hd, recurse, hS, getResult]
      · simp [Update, Visit_cons _ _ _ _ _ hd, recurse, hS]
    · have hT' : T.setContent (c :: rest) = T := by rw [← hc]; simp
      constructor
      · simp [Get, Visit, derefDocument, hD, hc, recurse, hcS, getResult, hT']
      · simp [Update, Visit, derefDocument, hD, hc, recurse, hcS, hT']

theorem overshoot_at_the_root_witness :
    Get (Node.scalar "1") ["a", "b"] = some (Node.scalar "1", none, none) ∧
      Update (Node.scalar "1") ["a", "b"] (Node.scalar "x") = some (Node.scalar "1", none) :=
  overshoot_at_the_root (Node.scalar "1") (Node.scalar "x") ["a", "b"] (by decide) (Or.inl rfl)

/-- C13, counterexample. On the Mapping `{a: "1"}` with path `["a", "b"]` the
Scalar under `a` is not overshot: the key step replaces it by a new Mapping in
which the rest of the path is created. Get returns a node, the new empty
Scalar under `b`, and leaves `{a: {b: ""}}`; Update leaves `{a: {b: "x"}}`. -/
theorem overshoot_below_a_key_replaces :
    Get (Node.container MappingNode [Node.scalar "a", Node.scalar "1"]) ["a", "b"] =
        some (Node.container MappingNode [Node.scalar "a",
          Node.container MappingNode [Node.scalar "b", Node.scalar ""]],
          some (Node.scalar ""), none) ∧
      Update (Node.container MappingNode [Node.scalar "a", Node.scalar "1"]) ["a", "b"]
          (Node.scalar "x") =
        some (Node.container MappingNode [Node.scalar "a",
          Node.container MappingNode [Node.scalar "b", Node.scalar "x"]], none) :=
  ⟨rfl, rfl⟩

theorem TrimSuffix_star_of_ends (s : String) (h : s.data.getLast? = some '*') :
    TrimSuffix s "*" = ⟨s.data.dropLast⟩ ∧ TrimSuffix s "*" ≠ s := by
  have hsuf : List.isSuffixOf "*".data s.data = true := by
    rw [List.isSuffixOf_iff_suffix]
    obtain ⟨l, hl⟩ : ∃ l, s.data = l ++ ['*'] := by
      rcases List.eq_nil_or_concat s.data with hnil | ⟨l, a, hla⟩
      · rw [hnil] at h; cases h
      · rw [hla, List.concat_eq_append, List.getLast?_append] at h
        simp at h
        exact ⟨l, by rw [hla, List.concat_eq_append, h]⟩
    exact ⟨l, hl.symm⟩
  have h1 : TrimSuffix s "*" = ⟨s.data.dropLast⟩ := by
    simp only [TrimSuffix, hsuf, if_true]
    congr 1
    rw [List.dropLast_eq_take]
    rfl
  refine ⟨h1, ?_⟩
  rw [h1]
  intro heq
  have hlen := congrArg (fun x : String => x.data.length) heq
  simp only [List.length_dropLast] at hlen
  have hpos : s.data ≠ [] := by intro hn; rw [hn] at h; cases h
  have := List.length_pos.2 hpos
  omega

theorem TrimSuffix_star_of_not_ends (s : String) (h : s.data.getLast? ≠ some '*') :
    TrimSuffix s "*" = s := by
  have hsuf : List.isSuffixOf "*".data s.data = false := by
    rw [Bool.eq_false_iff]
    intro hs
    rw [List.isSuffixOf_iff_suffix] at hs
    obtain ⟨l, hl⟩ := hs
    apply h
    rw [← hl]
    simp
  simp [TrimSuffix, hsuf]

/-- C18. The key matcher equals its reference definition: `matchesKey s a` is
true exactly when either `s` ends with `"*"` and `a` starts with `s` minus
that one trailing `"*"`, or `s` does not end with `"*"` and `a` equals `s`.
The segment `"*"` alone matches every key, and the empty segment matches only
the empty key. -/
theorem matchesKey_eq_reference (s a : String) :
    (matchesKey s a = true ↔
        (s.data.getLast? = some '*' ∧ s.data.dropLast <+: a.data) ∨
          (s.data.getLast? ≠ some '*' ∧ a = s)) ∧
      matchesKey "*" a = true ∧ (matchesKey "" a = true ↔ a = "") := by
  refine ⟨?_, matchesKey_star a, ?_⟩
  · by_cases h : s.data.getLast? = some '*'
    · obtain ⟨h1, h2⟩ := TrimSuffix_star_of_ends s h
      rw [h1] at h2
      simp only [matchesKey, h1, h2, ne_eq, not_false_eq_true, if_true, HasPrefix,
        List.isPrefixOf_iff_prefix, h, true_and, not_true_eq_false, false_and, or_false]
    · have h1 := TrimSuffix_star_of_not_ends s h
      simp [matchesKey, h1, h]
  · have h1 : TrimSuffix "" "*" = "" := by decide
    simp [matchesKey, h1]

/-! ## Replacement of a child of another kind -/


theorem getOrReplace_eq_ite (v : Node) (g : Kind) :
    getOrReplace v g = if v.Kind = g then v else Node.ofKind g := by
  by_cases h : v.Kind = g <;> simp [getOrReplace, h]

/-- The loop of `recurseMap` when it returns no error, pair by pair. -/
theorem mapLoop_steps {σ : Type} (key : String) (tail : List String) (visitor : VisitorFn σ)
    (l : List Node) (heven : l.length % 2 = 0) (visited : Bool) (s : σ) (l1 : List Node)
    (visited1 : Bool) (s1 : σ)
    (h : mapLoop key tail (fun node s2 => Visit node tail visitor s2) l visited s =
      some (l1, visited1, s1, none)) :
    l1.length = l.length ∧ visited1 = (visited || anyKey key l) ∧
      List.Forall₂ (steppedPair key tail visitor) (mapPairs l) (mapPairs l1) := by
  match l with
  | [] =>
    simp only [mapLoop, Option.some.injEq, Prod.mk.injEq] at h
    obtain ⟨rfl, rfl, _⟩ := h
    exact ⟨rfl, by simp [anyKey, mapPairs], by simp [mapPairs]⟩
  | [_] => simp at heven
  | k :: v :: rest =>
    have hrest : rest.length % 2 = 0 := by simp at heven ⊢; omega
    by_cases hk : matchesKey key k.Value = true
    · simp only [mapLoop, hk, if_true] at h
      cases hv : Visit (getOrReplace v (GuessKind tail v.Kind)) tail visitor s with
      | none => simp [hv] at h
      | some r =>
        obtain ⟨v1, s2, e⟩ := r
        cases e with
        | some e => simp [hv] at h
        | none =>
          simp only [hv] at h
          cases hr : mapLoop key tail (fun node s2 => Visit node tail visitor s2) rest true s2 with
          | none => simp [hr] at h
          | some r2 =>
            obtain ⟨rest1, vis2, s3, e3⟩ := r2
            simp only [hr, Option.some.injEq, Prod.mk.injEq] at h
            obtain ⟨hl, hvis, hs, he⟩ := h
            subst hl hvis hs he
            obtain ⟨h1, h2, h3⟩ := mapLoop_steps key tail visitor rest hrest true s2 rest1 _ _ hr
            refine ⟨by simp [h1], by simp [h2, anyKey, mapPairs, hk], ?_⟩
            simp only [mapPairs, List.forall₂_cons]
            refine ⟨⟨rfl, ?_⟩, h3⟩
            simp only [hk, if_true]
            rw [getOrReplace_eq_ite] at hv
            exact ⟨s, s2, hv⟩
    · simp only [mapLoop, hk, if_false, Bool.false_eq_true] at h
      cases hr : mapLoop key tail (fun node s2 => Visit node tail visitor s2) rest visited s with
      | none => simp [hr] at h
      | some r2 =>
        obtain ⟨rest1, vis2, s3, e3⟩ := r2
        simp only [hr, Option.some.injEq, Prod.mk.injEq] at h
        obtain ⟨hl, hvis, hs, he⟩ := h
        subst hl hvis hs he
        obtain ⟨h1, h2, h3⟩ := mapLoop_steps key tail visitor rest hrest visited s rest1 _ _ hr
        refine ⟨by simp [h1], by simp [h2, anyKey, mapPairs, hk], ?_⟩
        simp only [mapPairs, List.forall₂_cons]
        exact ⟨⟨rfl, by simp [hk]⟩, h3⟩

/-- The flag the loop of `recurseMap` starts with decides nothing but the flag
it ends with. -/
theorem mapLoop_visited {σ : Type} (key : String) (tail : List String)
    (visit : Node → σ → Step σ) (l : List Node) (visited : Bool) (s : σ) :
    mapLoop key tail visit l visited s =
      (mapLoop key tail visit l false s).map (fun r => (r.1, (visited || r.2.1), r.2.2)) := by
  match l with
  | [] => simp [mapLoop]
  | [k] => by_cases hk : matchesKey key k.Value = true <;> simp [mapLoop, hk]
  | k :: v :: rest =>
    by_cases hk : matchesKey key k.Value = true
    · simp only [mapLoop, hk, if_true]
      cases visit (getOrReplace v (GuessKind tail v.Kind)) s with
      | none => rfl
      | some r =>
        obtain ⟨v1, s1, err⟩ := r
        cases err with
        | some e => simp
        | none =>
          simp only
          rw [mapLoop_visited key tail visit rest true s1]
          cases mapLoop key tail visit rest false s1 with
          | none => rfl
          | some r2 => cases visited <;> simp
    · simp only [mapLoop, hk, if_false, Bool.false_eq_true,
        mapLoop_visited key tail visit rest visited s]
      cases mapLoop key tail visit rest false s <;> simp

theorem mapLoop_flag {σ : Type} (key : String) (tail : List String)
    (visit : Node → σ → Step σ) (l : List Node) (heven : l.length % 2 = 0) (visited : Bool)
    (s : σ) (l1 : List Node) (visited1 : Bool) (s1 : σ)
    (h : mapLoop key tail visit l visited s = some (l1, visited1, s1, none)) :
    visited1 = (visited || anyKey key l) := by
  match l with
  | [] =>
    simp only [mapLoop, Option.some.injEq, Prod.mk.injEq] at h
    simp [← h.2.1, anyKey, mapPairs]
  | [_] => simp at heven
  | k :: v :: rest =>
    have hrest : rest.length % 2 = 0 := by simp at heven ⊢; omega
    by_cases hk : matchesKey key k.Value = true
    · simp only [mapLoop, hk, if_true] at h
      cases hv : visit (getOrReplace v (GuessKind tail v.Kind)) s with
      | none => simp [hv] at h
      | some r =>
        obtain ⟨v1, s2, e⟩ := r
        cases e with
        | some e => simp [hv] at h
        | none =>
          simp only [hv] at h
          cases hr : mapLoop key tail visit rest true s2 with
          | none => simp [hr] at h
          | some r2 =>
            obtain ⟨rest1, vis2, s3, e3⟩ := r2
            simp only [hr, Option.some.injEq, Prod.mk.injEq] at h
            obtain ⟨_, hvis, _, he⟩ := h
            subst hvis he
            have h2 := mapLoop_flag key tail visit rest hrest true s2 rest1 _ _ hr
            simp [h2, anyKey, mapPairs, hk]
    · simp only [mapLoop, hk, if_false, Bool.false_eq_true] at h
      cases hr : mapLoop key tail visit rest visited s with
      | none => simp [hr] at h
      | some r2 =>
        obtain ⟨rest1, vis2, s3, e3⟩ := r2
        simp only [hr, Option.some.injEq, Prod.mk.injEq] at h
        obtain ⟨_, hvis, _, he⟩ := h
        subst hvis he
        have h2 := mapLoop_flag key tail visit rest hrest visited s rest1 _ _ hr
        simp [h2, anyKey, mapPairs, hk]

/-- C16. Kind mismatch on a key or index step is resolved by replacement in
the tree, whatever the outcome of the step. For every visitor, state and rest
of path: a step through an in-bounds index of a Sequence is the traversal of
the child itself when its kind is the inferred one, and of a new node of the
inferred kind otherwise, and what that traversal leaves of the node is stored
in the child's slot, error or no error; a step through the keys of a Mapping
does the same at the first key that matches: when that traversal returns an
error the step returns it with the slot replaced and every other entry as it
was, and when it does not the step goes on over the entries behind it from the
state that traversal left. When the step returns no error every key and every
value under a key that does not match is as it was. The new node has the
inferred kind, empty value and empty content. So Update with path
`["a", "b"]` on `{a: "1"}` yields `{a: {b: N}}`, on `{a: {c: "1"}}` it keeps
the Mapping under `a` and adds `b` to it, and Delete with path
`["a*", "b", "zz"]` on `{a1: "s", a2: {b: [1, 2]}}` returns the error of the
index `zz` and has replaced the Scalar under `a1` by `{b: ""}`. -/
theorem kind_mismatch_replaces_in_the_tree :
    (∀ (σ : Type) (tail : List String) (visitor : VisitorFn σ) (s : σ)
        (S : Node) (seg : String) (i : Nat) (c : Node), S.Kind = SequenceNode →
        ParseInt seg = .ok (i : Int) → S.Content[i]? = some c →
        Visit S (seg :: tail) visitor s =
          match Visit (if c.Kind = GuessKind tail c.Kind then c
              else Node.ofKind (GuessKind tail c.Kind)) tail visitor s with
          | none => none
          | some (c1, s1, err) => some (S.setContent (S.Content.set i c1), s1, err)) ∧
      (∀ (σ : Type) (tail : List String) (visitor : VisitorFn σ) (s : σ)
        (M : Node) (h : String) (pre : List Node) (k v : Node) (post : List Node),
        M.Kind = MappingNode → h ≠ "*" → M.Content = pre ++ k :: v :: post →
        pre.length % 2 = 0 → post.length % 2 = 0 → anyKey h pre = false →
        matchesKey h k.Value = true →
        Visit M (h :: tail) visitor s =
          match Visit (if v.Kind = GuessKind tail v.Kind then v
              else Node.ofKind (GuessKind tail v.Kind)) tail visitor s with
          | none => none
          | some (v1, s1, some err) =>
            some (M.setContent (pre ++ k :: v1 :: post), s1, some err)
          | some (v1, s1, none) =>
            if anyKey h post = true then
              match Visit (M.setContent post) (h :: tail) visitor s1 with
              | none => none
              | some (M2, s2, err) =>
                some (M.setContent (pre ++ k :: v1 :: M2.Content), s2, err)
            else some (M.setContent (pre ++ k :: v1 :: post), s1, none)) ∧
      (∀ (σ : Type) (tail : List String) (visitor : VisitorFn σ) (s : σ)
        (M M1 : Node) (h : String) (s1 : σ), M.Kind = MappingNode →
        M.Content.length % 2 = 0 → h ≠ "*" →
        Visit M (h :: tail) visitor s = some (M1, s1, none) →
        ∃ content extra, M1 = M.setContent (content ++ extra) ∧
          content.length = M.Content.length ∧ (anyKey h M.Content = true → extra = []) ∧
          List.Forall₂ (steppedPair h tail visitor) (mapPairs M.Content) (mapPairs content)) ∧
      (∀ g : Kind, (Node.ofKind g).Kind = g ∧ (Node.ofKind g).Value = "" ∧
        (Node.ofKind g).Content = []) ∧
      (∀ N : Node,
        Update (Node.container MappingNode [Node.scalar "a", Node.scalar "1"]) ["a", "b"] N =
          some (Node.container MappingNode [Node.scalar "a",
            Node.container MappingNode
              [Node.scalar "b", overwrite (Node.ofKind ScalarNode) N]], none)) ∧
      (∀ N : Node,
        Update (Node.container MappingNode [Node.scalar "a",
            Node.container MappingNode [Node.scalar "c", Node.scalar "1"]]) ["a", "b"] N =
          some (Node.container MappingNode [Node.scalar "a",
            Node.container MappingNode [Node.scalar "c", Node.scalar "1",
              Node.scalar "b", overwrite (Node.ofKind ScalarNode) N]], none)) ∧
      Delete (Node.container MappingNode [Node.scalar "a1", Node.scalar "s", Node.scalar "a2",
          Node.container MappingNode [Node.scalar "b",
            Node.container SequenceNode [Node.scalar "1", Node.scalar "2"]]])
          ["a*", "b", "zz"] =
        some (Node.container MappingNode [Node.scalar "a1",
          Node.container MappingNode [Node.scalar "b", Node.ofKind ScalarNode],
          Node.scalar "a2",
          Node.container MappingNode [Node.scalar "b",
            Node.container SequenceNode [Node.scalar "1", Node.scalar "2"]]],
          some (.syntaxError "zz")) := by
  refine ⟨?_, ?_, ?_, fun g => ⟨rfl, rfl, rfl⟩, fun N => rfl, fun N => rfl, rfl⟩
  · intro σ tail visitor s S seg i c hS hseg hc
    have hd : S.Kind ≠ DocumentNode := by rw [hS]; decide
    obtain ⟨h1, h2⟩ := ParseInt_ok_ne seg i hseg
    have hlt : i < S.Content.length := by
      rw [List.getElem?_eq_some] at hc
      exact hc.1
    have hge : ¬ (i : Int) ≥ (S.Content.length : Int) := by omega
    have hneg : ¬ (i : Int) < 0 := by omega
    simp only [Visit_cons _ _ _ _ _ hd, recurse, hS, if_true, h1, h2, if_false, recurseArray,
      hseg, hge, hneg, Int.toNat_ofNat, hc, getOrReplace_eq_ite]
    try rfl
  · intro σ tail visitor s M h pre k v post hM hstar hc hpre hpost hno hk
    have hd : M.Kind ≠ DocumentNode := by rw [hM]; decide
    have hd2 : (M.setContent post).Kind ≠ DocumentNode := by simp [hM]
    simp only [Visit_cons _ _ _ _ _ hd, Visit_cons _ _ _ _ _ hd2, recurse, hM,
      Node.Kind_setContent, if_true, hstar, if_false, recurseMap_eq, hc, Node.Content_setContent,
      mapLoop_append h tail _ pre _ hpre hno, mapLoop, hk, ← getOrReplace_eq_ite]
    cases hv : Visit (getOrReplace v (GuessKind tail v.Kind)) tail visitor s with
    | none => rfl
    | some r =>
      obtain ⟨v1, s1, err⟩ := r
      cases err with
      | some e => rfl
      | none =>
        simp only [mapLoop_visited h tail _ post true s1]
        cases hl : mapLoop h tail (fun node s2 => Visit node tail visitor s2) post false s1 with
        | none =>
          by_cases hany : anyKey h post = true
          · simp [hany]
          · simp only [Bool.not_eq_true] at hany
            have := mapLoop_append h tail (fun node s2 => Visit node tail visitor s2) post []
              hpost hany false s1
            simp [mapLoop, hl] at this
        | some r2 =>
          obtain ⟨post1, vis, s2, err2⟩ := r2
          cases err2 with
          | some e =>
            by_cases hany : anyKey h post = true
            · simp [hany]
            · simp only [Bool.not_eq_true] at hany
              have := mapLoop_append h tail (fun node s2 => Visit node tail visitor s2) post []
                hpost hany false s1
              simp [mapLoop, hl] at this
          | none =>
            have hflag := mapLoop_flag h tail _ post hpost false s1 post1 vis s2 hl
            simp only [Bool.false_or] at hflag
            by_cases hany : anyKey h post = true
            · rw [hany] at hflag
              subst hflag
              simp [hany]
            · simp only [Bool.not_eq_true] at hany
              have := mapLoop_append h tail (fun node s2 => Visit node tail visitor s2) post []
                hpost hany false s1
              simp only [List.append_nil, mapLoop, Option.map_some', hl, Option.some.injEq,
                Prod.mk.injEq] at this
              obtain ⟨rfl, rfl, rfl, _⟩ := this
              simp [hany]
  · intro σ tail visitor s M M1 h s1 hM heven hstar hV
    have hd : M.Kind ≠ DocumentNode := by rw [hM]; decide
    simp only [Visit_cons _ _ _ _ _ hd, recurse, hM, if_true, hstar, if_false, recurseMap_eq] at hV
    cases hloop : mapLoop h tail (fun node s2 => Visit node tail visitor s2) M.Content false s with
    | none => simp [hloop] at hV
    | some r =>
      obtain ⟨content, visited, s2, e⟩ := r
      cases e with
      | some e => simp [hloop] at hV
      | none =>
        obtain ⟨h1, h2, h3⟩ := mapLoop_steps h tail visitor M.Content heven false s content
          visited s2 hloop
        simp only [Bool.false_or] at h2
        cases visited with
        | true =>
          simp only [hloop, Option.some.injEq, Prod.mk.injEq] at hV
          exact ⟨content, [], by simp [hV.1], h1, fun _ => rfl, h3⟩
        | false =>
          simp only [hloop] at hV
          cases hv : Visit (Node.ofKind (GuessKind tail 0)) tail visitor s2 with
          | none => simp [hv] at hV
          | some r2 =>
            obtain ⟨mv, s3, e3⟩ := r2
            simp only [hv, Option.some.injEq, Prod.mk.injEq] at hV
            refine ⟨content, [Node.ofValue h ScalarNode, mv], hV.1.symm, h1, ?_, h3⟩
            intro hany
            rw [← h2] at hany
            cases hany

/-! ## Fail-fast traversal -/


/-- A kind for which a step with no path left visits the child itself. -/
theorem Visit_child_nil {σ : Type} (x : Node) (visitor : VisitorFn σ) (s : σ)
    (hx : x.Kind = ScalarNode ∨ x.Kind = SequenceNode ∨ x.Kind = MappingNode) :
    GuessKind [] x.Kind = x.Kind ∧ getOrReplace x x.Kind = x ∧
      Visit x [] visitor s = visitor x s := by
  have h0 : x.Kind ≠ 0 := by rcases hx with h | h | h <;> rw [h] <;> decide
  have hd : x.Kind ≠ DocumentNode := by rcases hx with h | h | h <;> rw [h] <;> decide
  exact ⟨GuessKind_nil _ h0, getOrReplace_same _ _ rfl, Visit_nil _ _ _ hd⟩

theorem splatArrayFrom_traced_error {σ : Type} (visitor : VisitorFn σ) (pre : List Node)
    (x : Node) (post pre1 : List Node) (s s1 s2 : σ) (x1 : Node) (e : Error) (tr : List Node)
    (hk : ∀ y ∈ pre ++ x :: post,
      y.Kind = ScalarNode ∨ y.Kind = SequenceNode ∨ y.Kind = MappingNode)
    (hpre : runAll visitor pre s = some (pre1, s1))
    (hx : visitor x s1 = some (x1, s2, some e)) :
    splatArrayFrom [] (fun node s3 => Visit node [] (traced visitor) s3) (pre ++ x :: post)
        (s, tr) =
      some (pre1 ++ x1 :: post, (s2, tr ++ pre ++ [x]), some e) := by
  induction pre generalizing s tr pre1 with
  | nil =>
    simp only [runAll, Option.some.injEq, Prod.mk.injEq] at hpre
    obtain ⟨rfl, rfl⟩ := hpre
    obtain ⟨h1, h2, h3⟩ := Visit_child_nil x (traced visitor) (s, tr) (hk x (by simp))
    simp [splatArrayFrom, h1, h2, h3, traced, hx]
  | cons y pre ih =>
    simp only [runAll] at hpre
    cases hy : visitor y s with
    | none => simp [hy] at hpre
    | some r =>
      obtain ⟨y1, sy, ey⟩ := r
      cases ey with
      | some ey => simp [hy] at hpre
      | none =>
        simp only [hy] at hpre
        cases hr : runAll visitor pre sy with
        | none => simp [hr] at hpre
        | some r2 =>
          obtain ⟨r1, sr⟩ := r2
          simp only [hr, Option.some.injEq, Prod.mk.injEq] at hpre
          obtain ⟨rfl, rfl⟩ := hpre
          obtain ⟨h1, h2, h3⟩ := Visit_child_nil y (traced visitor) (s, tr) (hk y (by simp))
          have := ih r1 sy (tr ++ [y]) (fun z hz => hk z (by simp at hz ⊢; tauto)) hr
          simp [splatArrayFrom, h1, h2, h3, traced, hy, this]

theorem splatArrayFrom_traced_ok {σ : Type} (visitor : VisitorFn σ) (l c1 : List Node)
    (s s1 : σ) (tr : List Node)
    (hk : ∀ y ∈ l, y.Kind = ScalarNode ∨ y.Kind = SequenceNode ∨ y.Kind = MappingNode)
    (hall : runAll visitor l s = some (c1, s1)) :
    splatArrayFrom [] (fun node s3 => Visit node [] (traced visitor) s3) l (s, tr) =
      some (c1, (s1, tr ++ l), none) := by
  induction l generalizing s tr c1 with
  | nil =>
    simp only [runAll, Option.some.injEq, Prod.mk.injEq] at hall
    obtain ⟨rfl, rfl⟩ := hall
    simp [splatArrayFrom]
  | cons y l ih =>
    simp only [runAll] at hall
    cases hy : visitor y s with
    | none => simp [hy] at hall
    | some r =>
      obtain ⟨y1, sy, ey⟩ := r
      cases ey with
      | some ey => simp [hy] at hall
      | none =>
        simp only [hy] at hall
        cases hr : runAll visitor l sy with
        | none => simp [hr] at hall
        | some r2 =>
          obtain ⟨r1, sr⟩ := r2
          simp only [hr, Option.some.injEq, Prod.mk.injEq] at hall
          obtain ⟨rfl, rfl⟩ := hall
          obtain ⟨h1, h2, h3⟩ := Visit_child_nil y (traced visitor) (s, tr) (hk y (by simp))
          have := ih r1 sy (tr ++ [y]) (fun z hz => hk z (by simp [hz])) hr
          simp [splatArrayFrom, h1, h2, h3, traced, hy, this]

theorem matchingValues_cons_match (key : String) (k v : Node) (rest : List Node)
    (hk : matchesKey key k.Value = true) :
    matchingValues key (k :: v :: rest) = v :: matchingValues key rest := by
  simp [matchingValues, mapPairs, hk]

theorem matchingValues_cons_other (key : String) (k v : Node) (rest : List Node)
    (hk : ¬ matchesKey key k.Value = true) :
    matchingValues key (k :: v :: rest) = matchingValues key rest := by
  simp [matchingValues, mapPairs, hk]

theorem mapLoop_traced_error {σ : Type} (key : String) (visitor : VisitorFn σ) (l : List Node)
    (heven : l.length % 2 = 0) (pre : List Node) (x : Node) (post pre1 : List Node)
    (s s1 s2 : σ) (x1 : Node) (e : Error) (tr : List Node) (visited : Bool)
    (hm : matchingValues key l = pre ++ x :: post)
    (hk : ∀ y ∈ matchingValues key l,
      y.Kind = ScalarNode ∨ y.Kind = SequenceNode ∨ y.Kind = MappingNode)
    (hpre : runAll visitor pre s = some (pre1, s1))
    (hx : visitor x s1 = some (x1, s2, some e)) :
    ∃ l1 vis, mapLoop key [] (fun node s3 => Visit node [] (traced visitor) s3) l visited (s, tr) =
      some (l1, vis, (s2, tr ++ pre ++ [x]), some e) := by
  match l with
  | [] => simp [matchingValues, mapPairs] at hm
  | [_] => simp at heven
  | k :: v :: rest =>
    have hrest : rest.length % 2 = 0 := by simp at heven ⊢; omega
    by_cases hkey : matchesKey key k.Value = true
    · rw [matchingValues_cons_match key k v rest hkey] at hm hk
      obtain ⟨h1, h2, h3⟩ := Visit_child_nil v (traced visitor) (s, tr) (hk v (by simp))
      cases pre with
      | nil =>
        simp only [List.nil_append, List.cons.injEq] at hm
        obtain ⟨rfl, _⟩ := hm
        simp only [runAll, Option.some.injEq, Prod.mk.injEq] at hpre
        obtain ⟨rfl, rfl⟩ := hpre
        simp only [mapLoop, hkey, if_true, h1, h2, h3, traced, hx, List.append_nil]
        exact ⟨_, _, rfl⟩
      | cons y pre =>
        simp only [List.cons_append, List.cons.injEq] at hm
        obtain ⟨rfl, hm⟩ := hm
        simp only [runAll] at hpre
        cases hy : visitor v s with
        | none => simp [hy] at hpre
        | some r =>
          obtain ⟨y1, sy, ey⟩ := r
          cases ey with
          | some ey => simp [hy] at hpre
          | none =>
            simp only [hy] at hpre
            cases hr : runAll visitor pre sy with
            | none => simp [hr] at hpre
            | some r2 =>
              obtain ⟨r1, sr⟩ := r2
              simp only [hr, Option.some.injEq, Prod.mk.injEq] at hpre
              obtain ⟨rfl, rfl⟩ := hpre
              obtain ⟨l1, vis, hl⟩ := mapLoop_traced_error key visitor rest hrest pre x post r1
                sy _ s2 x1 e (tr ++ [v]) true hm (fun z hz => hk z (by simp [hz])) hr hx
              simp only [mapLoop, hkey, if_true, h1, h2, h3, traced, hy, hl, List.append_assoc,
                List.singleton_append, List.cons_append]
              exact ⟨_, _, rfl⟩
    · rw [matchingValues_cons_other key k v rest hkey] at hm hk
      obtain ⟨l1, vis, hl⟩ := mapLoop_traced_error key visitor rest hrest pre x post pre1
        s s1 s2 x1 e tr visited hm hk hpre hx
      simp only [mapLoop, hkey, if_false, Bool.false_eq_true, hl]
      exact ⟨_, _, rfl⟩

theorem mapLoop_traced_ok {σ : Type} (key : String) (visitor : VisitorFn σ) (l : List Node)
    (heven : l.length % 2 = 0) (c1 : List Node) (s s1 : σ) (tr : List Node) (visited : Bool)
    (hk : ∀ y ∈ matchingValues key l,
      y.Kind = ScalarNode ∨ y.Kind = SequenceNode ∨ y.Kind = MappingNode)
    (hall : runAll visitor (matchingValues key l) s = some (c1, s1)) :
    ∃ l1, mapLoop key [] (fun node s3 => Visit node [] (traced visitor) s3) l visited (s, tr) =
      some (l1, (visited || anyKey key l), (s1, tr ++ matchingValues key l), none) := by
  match l with
  | [] =>
    simp only [matchingValues, mapPairs, List.filter_nil, List.map_nil, runAll, Option.some.injEq,
      Prod.mk.injEq] at hall
    obtain ⟨_, rfl⟩ := hall
    exact ⟨[], by simp [mapLoop, anyKey, mapPairs, matchingValues]⟩
  | [_] => simp at heven
  | k :: v :: rest =>
    have hrest : rest.length % 2 = 0 := by simp at heven ⊢; omega
    by_cases hkey : matchesKey key k.Value = true
    · rw [matchingValues_cons_match key k v rest hkey] at hall hk ⊢
      obtain ⟨h1, h2, h3⟩ := Visit_child_nil v (traced visitor) (s, tr) (hk v (by simp))
      simp only [runAll] at hall
      cases hy : visitor v s with
      | none => simp [hy] at hall
      | some r =>
        obtain ⟨y1, sy, ey⟩ := r
        cases ey with
        | some ey => simp [hy] at hall
        | none =>
          simp only [hy] at hall
          cases hr : runAll visitor (matchingValues key rest) sy with
          | none => simp [hr] at hall
          | some r2 =>
            obtain ⟨r1, sr⟩ := r2
            simp only [hr, Option.some.injEq, Prod.mk.injEq] at hall
            obtain ⟨rfl, rfl⟩ := hall
            obtain ⟨l1, hl⟩ := mapLoop_traced_ok key visitor rest hrest r1 sy _ (tr ++ [v]) true
              (fun z hz => hk z (by simp [hz])) hr
            have hany : anyKey key (k :: v :: rest) = true := by simp [anyKey, mapPairs, hkey]
            simp only [mapLoop, hkey, if_true, h1, h2, h3, traced, hy, hl, List.append_assoc,
              List.singleton_append, hany, Bool.or_true, Bool.true_or]
            exact ⟨_, rfl⟩
    · rw [matchingValues_cons_other key k v rest hkey] at hall hk ⊢
      obtain ⟨l1, hl⟩ := mapLoop_traced_ok key visitor rest hrest c1 s s1 tr visited hk hall
      have hany : anyKey key (k :: v :: rest) = anyKey key rest := by
        simp [anyKey, mapPairs, hkey]
      simp only [mapLoop, hkey, if_false, Bool.false_eq_true, hl, hany]
      exact ⟨_, rfl⟩

theorem anyKey_of_matchingValues (key : String) (l : List Node)
    (h : matchingValues key l ≠ []) : anyKey key l = true := by
  by_contra hno
  rw [Bool.not_eq_true, anyKey_eq_false] at hno
  apply h
  simp only [matchingValues, List.map_eq_nil_iff, List.filter_eq_nil_iff]
  intro p hp
  simp [hno p hp]

/-- C19. Traversal is fail-fast on callback errors. On a Sequence whose
elements all have kind Scalar, Sequence or Mapping, with path `["*"]`: when
the visitor returns no error on the elements before `x` and an error on `x`,
it has been called on exactly those elements and `x`, in content order, the
elements after `x` are untouched and `Visit` returns that error; when it
returns no error on any element it has been called once on each, in order,
and `Visit` returns no error. The same holds for the values under the
matching keys of a Mapping with even-length content under a key or
prefix-wildcard segment. -/
theorem traversal_is_fail_fast :
    (∀ (σ : Type) (f : VisitorFn σ) (s : σ) (S : Node), S.Kind = SequenceNode →
        (∀ y ∈ S.Content, y.Kind = ScalarNode ∨ y.Kind = SequenceNode ∨ y.Kind = MappingNode) →
        (∀ pre x post pre1 s1 x1 s2 e, S.Content = pre ++ x :: post →
          runAll f pre s = some (pre1, s1) → f x s1 = some (x1, s2, some e) →
          Visit S ["*"] (traced f) (s, []) =
            some (S.setContent (pre1 ++ x1 :: post), (s2, pre ++ [x]), some e)) ∧
        (∀ c1 s1, runAll f S.Content s = some (c1, s1) →
          Visit S ["*"] (traced f) (s, []) = some (S.setContent c1, (s1, S.Content), none))) ∧
      (∀ (σ : Type) (f : VisitorFn σ) (s : σ) (M : Node) (h : String), M.Kind = MappingNode →
        M.Content.length % 2 = 0 → h ≠ "*" →
        (∀ y ∈ matchingValues h M.Content,
          y.Kind = ScalarNode ∨ y.Kind = SequenceNode ∨ y.Kind = MappingNode) →
        (∀ pre x post pre1 s1 x1 s2 e, matchingValues h M.Content = pre ++ x :: post →
          runAll f pre s = some (pre1, s1) → f x s1 = some (x1, s2, some e) →
          ∃ M1, Visit M [h] (traced f) (s, []) = some (M1, (s2, pre ++ [x]), some e)) ∧
        (∀ c1 s1, matchingValues h M.Content ≠ [] →
          runAll f (matchingValues h M.Content) s = some (c1, s1) →
          ∃ M1, Visit M [h] (traced f) (s, []) =
            some (M1, (s1, matchingValues h M.Content), none))) := by
  constructor
  · intro σ f s S hS hk
    have hd : S.Kind ≠ DocumentNode := by rw [hS]; decide
    constructor
    · intro pre x post pre1 s1 x1 s2 e hc hpre hx
      have := splatArrayFrom_traced_error f pre x post pre1 s s1 s2 x1 e [] (hc ▸ hk) hpre hx
      simp [Visit_cons _ _ _ _ _ hd, recurse, hS, splatArray, hc, this]
    · intro c1 s1 hall
      have := splatArrayFrom_traced_ok f S.Content c1 s s1 [] hk hall
      simp [Visit_cons _ _ _ _ _ hd, recurse, hS, splatArray, this]
  · intro σ f s M h hM heven hstar hk
    have hd : M.Kind ≠ DocumentNode := by rw [hM]; decide
    constructor
    · intro pre x post pre1 s1 x1 s2 e hm hpre hx
      obtain ⟨l1, vis, hl⟩ := mapLoop_traced_error h f M.Content heven pre x post pre1 s s1 s2
        x1 e [] false hm hk hpre hx
      simp only [Visit_cons _ _ _ _ _ hd, recurse, hM, if_true, hstar, if_false, recurseMap_eq,
        hl, List.nil_append]
      exact ⟨_, rfl⟩
    · intro c1 s1 hne hall
      obtain ⟨l1, hl⟩ := mapLoop_traced_ok h f M.Content heven c1 s s1 [] false hk hall
      rw [anyKey_of_matchingValues h M.Content hne] at hl
      simp only [Visit_cons _ _ _ _ _ hd, recurse, hM, if_true, hstar, if_false, recurseMap_eq,
        hl, List.nil_append, Bool.or_true]
      exact ⟨_, rfl⟩


theorem traversal_is_fail_fast_witness :
    Visit (Node.container SequenceNode [Node.scalar "a", Node.scalar "b", Node.scalar "c"])
        ["*"] (traced (stopAt "b")) ((), []) =
      some ((Node.container SequenceNode
          [Node.scalar "a", Node.scalar "b", Node.scalar "c"]).setContent
            ([Node.scalar "a"] ++ Node.scalar "b" :: [Node.scalar "c"]),
        ((), [Node.scalar "a"] ++ [Node.scalar "b"]), some (.other "stop")) :=
  ((traversal_is_fail_fast.1 Unit (stopAt "b") ()
    (Node.container SequenceNode [Node.scalar "a", Node.scalar "b", Node.scalar "c"]) rfl
    (by
      intro y hy
      simp [Node.container, Node.Content] at hy
      rcases hy with rfl | rfl | rfl <;> exact Or.inl rfl)).1
    [Node.scalar "a"] (Node.scalar "b") [Node.scalar "c"] [Node.scalar "a"] ()
    (Node.scalar "b") () (.other "stop") rfl rfl rfl)

/-! ## The invariant on mappings -/


theorem evenMappings_setContent (x : Node) (c : List Node) :
    evenMappings (x.setContent c) = true ↔
      (x.Kind = MappingNode → c.length % 2 = 0) ∧ ∀ y ∈ c, evenMappings y = true := by
  rw [evenMappings_iff]
  simp

theorem evenMappings_ofValue (v : String) (k : Kind) : evenMappings (Node.ofValue v k) = true := by
  simp [Node.ofValue, evenMappings, evenMappingsList]

theorem evenMappings_overwrite (x N : Node) (hN : evenMappings N = true) :
    evenMappings (overwrite x N) = true := by
  rw [evenMappings_iff] at hN ⊢
  exact hN

/-- The loop of `splatMap` keeps the invariant on every child. -/
theorem splatMapFrom_even {σ : Type} (tail : List String) (visit : Node → σ → Step σ)
    (hvisit : ∀ x s x1 s1 e, evenMappings x = true → visit x s = some (x1, s1, e) →
      evenMappings x1 = true)
    (l : List Node) (index : Nat) (s : σ) (l1 : List Node) (s1 : σ) (err : Option Error)
    (hl : ∀ y ∈ l, evenMappings y = true)
    (h : splatMapFrom tail visit l index s = some (l1, s1, err)) :
    ∀ y ∈ l1, evenMappings y = true := by
  induction l generalizing index s l1 s1 err with
  | nil =>
    simp only [splatMapFrom, Option.some.injEq, Prod.mk.injEq] at h
    rw [← h.1]
    simp
  | cons a l ih =>
    have ha := hl a (by simp)
    have hl' : ∀ y ∈ l, evenMappings y = true := fun y hy => hl y (by simp [hy])
    simp only [splatMapFrom] at h
    split at h
    · split at h
      · cases h
      · rename_i r1 s2 e2 heq
        simp only [Option.some.injEq, Prod.mk.injEq] at h
        rw [← h.1]
        intro y hy
        rcases List.mem_cons.1 hy with rfl | hy
        · exact ha
        · exact ih _ _ _ _ _ hl' heq y hy
    · have hslot : ∀ c1 s2 e2, visit (getOrReplace a (GuessKind tail a.Kind)) s = some (c1, s2, e2) →
          evenMappings (if a.Kind = GuessKind tail a.Kind then c1 else a) = true := by
        intro c1 s2 e2 hv
        split_ifs
        · exact hvisit _ _ _ _ _ (evenMappings_getOrReplace a _ ha) hv
        · exact ha
      split at h
      · cases h
      · rename_i c1 s2 e2 heq
        simp only [Option.some.injEq, Prod.mk.injEq] at h
        rw [← h.1]
        intro y hy
        rcases List.mem_cons.1 hy with rfl | hy
        · exact hslot _ _ _ heq
        · exact hl' y hy
      · rename_i c1 s2 heq
        split at h
        · cases h
        · rename_i r1 s3 e3 heq2
          simp only [Option.some.injEq, Prod.mk.injEq] at h
          rw [← h.1]
          intro y hy
          rcases List.mem_cons.1 hy with rfl | hy
          · exact hslot _ _ _ heq
          · exact ih _ _ _ _ _ hl' heq2 y hy

/-- The loop of `splatArray` keeps the invariant on every child. -/
theorem splatArrayFrom_even {σ : Type} (tail : List String) (visit : Node → σ → Step σ)
    (hvisit : ∀ x s x1 s1 e, evenMappings x = true → visit x s = some (x1, s1, e) →
      evenMappings x1 = true)
    (l : List Node) (s : σ) (l1 : List Node) (s1 : σ) (err : Option Error)
    (hl : ∀ y ∈ l, evenMappings y = true)
    (h : splatArrayFrom tail visit l s = some (l1, s1, err)) :
    ∀ y ∈ l1, evenMappings y = true := by
  induction l generalizing s l1 s1 err with
  | nil =>
    simp only [splatArrayFrom, Option.some.injEq, Prod.mk.injEq] at h
    rw [← h.1]
    simp
  | cons a l ih =>
    have ha := hl a (by simp)
    have hl' : ∀ y ∈ l, evenMappings y = true := fun y hy => hl y (by simp [hy])
    have hslot : ∀ c1 s2 e2, visit (getOrReplace a (GuessKind tail a.Kind)) s = some (c1, s2, e2) →
        evenMappings (if a.Kind = GuessKind tail a.Kind then c1 else a) = true := by
      intro c1 s2 e2 hv
      split_ifs
      · exact hvisit _ _ _ _ _ (evenMappings_getOrReplace a _ ha) hv
      · exact ha
    simp only [splatArrayFrom] at h
    split at h
    · cases h
    · rename_i c1 s2 e2 heq
      simp only [Option.some.injEq, Prod.mk.injEq] at h
      rw [← h.1]
      intro y hy
      rcases List.mem_cons.1 hy with rfl | hy
      · exact hslot _ _ _ heq
      · exact hl' y hy
    · rename_i c1 s2 heq
      split at h
      · cases h
      · rename_i r1 s3 e3 heq2
        simp only [Option.some.injEq, Prod.mk.injEq] at h
        rw [← h.1]
        intro y hy
        rcases List.mem_cons.1 hy with rfl | hy
        · exact hslot _ _ _ heq
        · exact ih _ _ _ _ hl' heq2 y hy

/-- The loop of `recurseMap` keeps the invariant on every child. -/
theorem mapLoop_even {σ : Type} (key : String) (tail : List String) (visit : Node → σ → Step σ)
    (hvisit : ∀ x s x1 s1 e, evenMappings x = true → visit x s = some (x1, s1, e) →
      evenMappings x1 = true)
    (l : List Node) (visited : Bool) (s : σ) (l1 : List Node) (visited1 : Bool) (s1 : σ)
    (err : Option Error) (hl : ∀ y ∈ l, evenMappings y = true)
    (h : mapLoop key tail visit l visited s = some (l1, visited1, s1, err)) :
    ∀ y ∈ l1, evenMappings y = true := by
  match l with
  | [] =>
    simp only [mapLoop, Option.some.injEq, Prod.mk.injEq] at h
    rw [← h.1]
    simp
  | [k] =>
    simp only [mapLoop] at h
    split_ifs at h
    simp only [Option.some.injEq, Prod.mk.injEq] at h
    rw [← h.1]
    exact hl
  | k :: v :: rest =>
    have hk := hl k (by simp)
    have hv := hl v (by simp)
    have hl' : ∀ y ∈ rest, evenMappings y = true := fun y hy => hl y (by simp [hy])
    by_cases hkey : matchesKey key k.Value = true
    · simp only [mapLoop, hkey, if_true] at h
      cases hvis : visit (getOrReplace v (GuessKind tail v.Kind)) s with
      | none => simp [hvis] at h
      | some r =>
        obtain ⟨v1, s2, e⟩ := r
        have hv1 := hvisit _ _ _ _ _ (evenMappings_getOrReplace v _ hv) hvis
        cases e with
        | some e =>
          simp only [hvis, Option.some.injEq, Prod.mk.injEq] at h
          rw [← h.1]
          intro y hy
          simp only [List.mem_cons] at hy
          rcases hy with rfl | rfl | hy
          · exact hk
          · exact hv1
          · exact hl' y hy
        | none =>
          simp only [hvis] at h
          cases hr : mapLoop key tail visit rest true s2 with
          | none => simp [hr] at h
          | some r2 =>
            obtain ⟨rest1, vis2, s3, e3⟩ := r2
            simp only [hr, Option.some.injEq, Prod.mk.injEq] at h
            rw [← h.1]
            have ih := mapLoop_even key tail visit hvisit rest true s2 rest1 vis2 s3 e3 hl' hr
            intro y hy
            simp only [List.mem_cons] at hy
            rcases hy with rfl | rfl | hy
            · exact hk
            · exact hv1
            · exact ih y hy
    · simp only [mapLoop, hkey, if_false, Bool.false_eq_true] at h
      cases hr : mapLoop key tail visit rest visited s with
      | none => simp [hr] at h
      | some r2 =>
        obtain ⟨rest1, vis2, s3, e3⟩ := r2
        simp only [hr, Option.some.injEq, Prod.mk.injEq] at h
        rw [← h.1]
        have ih := mapLoop_even key tail visit hvisit rest visited s rest1 vis2 s3 e3 hl' hr
        intro y hy
        simp only [List.mem_cons] at hy
        rcases hy with rfl | rfl | hy
        · exact hk
        · exact hv
        · exact ih y hy

/-- One step of the traversal keeps the invariant. -/
theorem recurse_even {σ : Type} (head : String) (tail : List String) (visit : Node → σ → Step σ)
    (hvisit : ∀ x s x1 s1 e, evenMappings x = true → visit x s = some (x1, s1, e) →
      evenMappings x1 = true)
    (v : Node) (s : σ) (v1 : Node) (s1 : σ) (err : Option Error) (hv : evenMappings v = true)
    (h : recurse v head tail visit s = some (v1, s1, err)) : evenMappings v1 = true := by
  obtain ⟨heven, hchildren⟩ := (evenMappings_iff v).1 hv
  by_cases hM : v.Kind = MappingNode
  · simp only [recurse, hM, if_true] at h
    by_cases hstar : head = "*"
    · simp only [hstar, if_true, splatMap] at h
      cases hs : splatMapFrom tail visit v.Content 0 s with
      | none => simp [hs] at h
      | some r =>
        obtain ⟨content, s2, e⟩ := r
        simp only [hs, Option.some.injEq, Prod.mk.injEq] at h
        rw [← h.1, evenMappings_setContent]
        exact ⟨fun _ => by rw [splatMapFrom_length _ _ _ _ _ _ _ _ hs]; exact heven hM,
          splatMapFrom_even tail visit hvisit _ _ _ _ _ _ hchildren hs⟩
    · simp only [hstar, if_false, recurseMap_eq] at h
      cases hloop : mapLoop head tail visit v.Content false s with
      | none => simp [hloop] at h
      | some r =>
        obtain ⟨content, visited, s2, e⟩ := r
        have hlen := (mapLoop_keeps_others head tail visit v.Content (heven hM) false s content
          visited s2 e hloop).1
        have hall := mapLoop_even head tail visit hvisit v.Content false s content visited s2 e
          hchildren hloop
        have hce : content.length % 2 = 0 := by rw [hlen]; exact heven hM
        cases e with
        | some e =>
          simp only [hloop, Option.some.injEq, Prod.mk.injEq] at h
          rw [← h.1, evenMappings_setContent]
          exact ⟨fun _ => hce, hall⟩
        | none =>
          cases visited with
          | true =>
            simp only [hloop, Option.some.injEq, Prod.mk.injEq] at h
            rw [← h.1, evenMappings_setContent]
            exact ⟨fun _ => hce, hall⟩
          | false =>
            simp only [hloop] at h
            cases hnew : visit (Node.ofKind (GuessKind tail 0)) s2 with
            | none => simp [hnew] at h
            | some r2 =>
              obtain ⟨mv, s3, e3⟩ := r2
              simp only [hnew, Option.some.injEq, Prod.mk.injEq] at h
              rw [← h.1, evenMappings_setContent]
              refine ⟨fun _ => by simp; omega, ?_⟩
              intro y hy
              simp only [List.mem_append, List.mem_cons, List.mem_singleton, List.not_mem_nil,
                or_false] at hy
              rcases hy with hy | rfl | rfl
              · exact hall y hy
              · exact evenMappings_ofValue _ _
              · exact hvisit _ _ _ _ _ (evenMappings_ofKind _) hnew
  · have hkeep : ∀ c : List Node, (∀ y ∈ c, evenMappings y = true) →
        evenMappings (v.setContent c) = true := by
      intro c hc
      rw [evenMappings_setContent]
      exact ⟨fun hk => absurd hk hM, hc⟩
    have hne : ¬ SequenceNode = MappingNode := by decide
    by_cases hS : v.Kind = SequenceNode
    · simp only [recurse, hS, hne, if_false, if_true] at h
      by_cases hstar : head = "*"
      · simp only [hstar, if_true, splatArray] at h
        cases hs : splatArrayFrom tail visit v.Content s with
        | none => simp [hs] at h
        | some r =>
          obtain ⟨content, s2, e⟩ := r
          simp only [hs, Option.some.injEq, Prod.mk.injEq] at h
          rw [← h.1]
          exact hkeep _ (splatArrayFrom_even tail visit hvisit _ _ _ _ _ hchildren hs)
      · by_cases hplus : head = "+"
        · subst hplus
          simp only [hstar, if_false, if_true, appendArray] at h
          cases hnew : visit (Node.ofKind (GuessKind tail 0)) s with
          | none => simp [hnew] at h
          | some r2 =>
            obtain ⟨mv, s3, e3⟩ := r2
            simp only [hnew, Option.some.injEq, Prod.mk.injEq] at h
            rw [← h.1]
            apply hkeep
            intro y hy
            simp only [List.mem_append, List.mem_singleton] at hy
            rcases hy with hy | rfl
            · exact hchildren y hy
            · exact hvisit _ _ _ _ _ (evenMappings_ofKind _) hnew
        · simp only [hstar, if_false, hplus, recurseArray] at h
          cases hp : ParseInt head with
          | error e =>
            simp only [hp, Option.some.injEq, Prod.mk.injEq] at h
            rw [← h.1]; exact hv
          | ok index =>
            simp only [hp] at h
            split_ifs at h with h1 h2
            · simp only [Option.some.injEq, Prod.mk.injEq] at h
              rw [← h.1]; exact hv
            · cases hx : v.Content[index.toNat]? with
              | none => simp [hx] at h
              | some x =>
                simp only [hx] at h
                cases hvis : visit (getOrReplace x (GuessKind tail x.Kind)) s with
                | none => simp [hvis] at h
                | some r =>
                  obtain ⟨x1, s2, e⟩ := r
                  simp only [hvis, Option.some.injEq, Prod.mk.injEq] at h
                  rw [← h.1]
                  apply hkeep
                  intro y hy
                  rcases List.mem_or_eq_of_mem_set hy with hy | rfl
                  · exact hchildren y hy
                  · exact hvisit _ _ _ _ _
                      (evenMappings_getOrReplace x _ (hchildren x (mem_of_getElem? _ _ _ hx))) hvis
    · simp only [recurse, hM, hS, if_false, Option.some.injEq, Prod.mk.injEq] at h
      rw [← h.1]; exact hv

theorem derefDocument_even {σ : Type} (inner : Node → σ → Step σ)
    (hinner : ∀ x s x1 s1 e, evenMappings x = true → inner x s = some (x1, s1, e) →
      evenMappings x1 = true)
    (v : Node) (s : σ) (v1 : Node) (s1 : σ) (err : Option Error) (hv : evenMappings v = true)
    (h : derefDocument v inner s = some (v1, s1, err)) : evenMappings v1 = true := by
  obtain ⟨_, hchildren⟩ := (evenMappings_iff v).1 hv
  by_cases hd : v.Kind = DocumentNode
  · simp only [derefDocument, hd, if_true] at h
    cases hc : v.Content with
    | nil => simp [hc] at h
    | cons child others =>
      simp only [hc] at h
      cases hi : inner child s with
      | none => simp [hi] at h
      | some r =>
        obtain ⟨c1, s2, e⟩ := r
        simp only [hi, Option.some.injEq, Prod.mk.injEq] at h
        rw [← h.1, evenMappings_setContent]
        refine ⟨fun hk => absurd (hd.symm.trans hk) (by decide), ?_⟩
        intro y hy
        rcases List.mem_cons.1 hy with rfl | hy
        · exact hinner _ _ _ _ _ (hchildren child (by simp [hc])) hi
        · exact hchildren y (by simp [hc, hy])
  · simp only [derefDocument, hd, if_false] at h
    exact hinner _ _ _ _ _ hv h

/-- The traversal keeps the invariant when the visitor does. -/
theorem Visit_even {σ : Type} (visitor : VisitorFn σ)
    (hvisitor : ∀ x s x1 s1 e, evenMappings x = true → visitor x s = some (x1, s1, e) →
      evenMappings x1 = true)
    (path : List String) :
    ∀ x s x1 s1 e, evenMappings x = true → Visit x path visitor s = some (x1, s1, e) →
      evenMappings x1 = true := by
  induction path with
  | nil =>
    intro x s x1 s1 e hx h
    simp only [Visit] at h
    exact derefDocument_even visitor hvisitor x s x1 s1 e hx h
  | cons head tail ih =>
    intro x s x1 s1 e hx h
    simp only [Visit] at h
    exact derefDocument_even _ (fun y s y1 s1 e hy hr =>
      recurse_even head tail _ ih y s y1 s1 e hy hr) x s x1 s1 e hx h

theorem deleteVisitor_even (lastBit : String) :
    ∀ x s x1 s1 e, evenMappings x = true → deleteVisitor lastBit x s = some (x1, s1, e) →
      evenMappings x1 = true := by
  intro x s x1 s1 e hx h
  obtain ⟨heven, hchildren⟩ := (evenMappings_iff x).1 hx
  by_cases hS : x.Kind = SequenceNode
  · simp only [deleteVisitor, hS, if_true] at h
    cases hp : ParseInt lastBit with
    | error e =>
      simp only [hp, Option.some.injEq, Prod.mk.injEq] at h
      rw [← h.1]; exact hx
    | ok index =>
      simp only [hp] at h
      split_ifs at h with h1 h2
      · simp only [Option.some.injEq, Prod.mk.injEq] at h
        rw [← h.1]; exact hx
      · simp only [Option.some.injEq, Prod.mk.injEq] at h
        rw [← h.1, evenMappings_setContent]
        refine ⟨fun hk => absurd (hS.symm.trans hk) (by decide), ?_⟩
        intro y hy
        rcases List.mem_append.1 hy with hy | hy
        · exact hchildren y (List.mem_of_mem_take hy)
        · exact hchildren y (List.mem_of_mem_drop hy)
  · by_cases hM : x.Kind = MappingNode
    · obtain ⟨b, hb⟩ := visitMatchingEntriesFrom_collectIndex lastBit x.Content 0 false []
      have hdel := deleteIndices_reverse lastBit x.Content [] (heven hM)
      simp only [List.length_nil, List.nil_append] at hdel hb
      have hne : ¬ MappingNode = SequenceNode := by decide
      simp only [deleteVisitor, hM, hne, if_false, if_true, visitMatchingEntries, hb, hdel,
        Option.some.injEq, Prod.mk.injEq] at h
      rw [← h.1, evenMappings_setContent]
      refine ⟨fun _ => by rw [length_ofPairs]; omega, ?_⟩
      intro y hy
      have hsub : ∀ (ps : List (Node × Node)), (∀ p ∈ ps, evenMappings p.1 = true ∧
          evenMappings p.2 = true) → ∀ y ∈ ofPairs ps, evenMappings y = true := by
        intro ps
        induction ps with
        | nil => simp [ofPairs]
        | cons p ps ih =>
          obtain ⟨k, v⟩ := p
          intro hps y hy
          simp only [ofPairs, List.mem_cons] at hy
          rcases hy with h1 | h1 | hy
          · rw [h1]; exact (hps (k, v) (by simp)).1
          · rw [h1]; exact (hps (k, v) (by simp)).2
          · exact ih (fun p hp => hps p (by simp [hp])) y hy
      have hpairs : ∀ (l : List Node), (∀ y ∈ l, evenMappings y = true) →
          ∀ p ∈ mapPairs l, evenMappings p.1 = true ∧ evenMappings p.2 = true := by
        intro l
        induction l using mapPairs.induct with
        | case1 => simp [mapPairs]
        | case2 => simp [mapPairs]
        | case3 k v rest ih =>
          intro hl p hp
          simp only [mapPairs, List.mem_cons] at hp
          rcases hp with rfl | hp
          · exact ⟨hl _ (by simp), hl _ (by simp)⟩
          · exact ih (fun y hy => hl y (by simp [hy])) p hp
      exact hsub _ (fun p hp => hpairs x.Content hchildren p (List.mem_of_mem_filter hp)) y hy
    · simp only [deleteVisitor, hS, hM, if_false, Option.some.injEq, Prod.mk.injEq] at h
      rw [← h.1]; exact hx

/-- C14. The even-length Mapping invariant is preserved by every operation:
on a tree in which every Mapping has even-length content, for every path,
whatever Get, Delete or Update (with a replacement node that satisfies the
invariant itself) leaves of the tree when it returns, with or without an
error, is again a tree in which every Mapping has even-length content. -/
theorem even_mappings_preserved (T N : Node) (P : List String) (hT : evenMappings T = true)
    (hN : evenMappings N = true) :
    (∀ T1 r e, Get T P = some (T1, r, e) → evenMappings T1 = true) ∧
      (∀ T1 e, Delete T P = some (T1, e) → evenMappings T1 = true) ∧
      (∀ T1 e, Update T P N = some (T1, e) → evenMappings T1 = true) := by
  refine ⟨?_, ?_, ?_⟩
  · intro T1 r e h
    simp only [Get] at h
    cases hv : Visit T P getVisitor [] with
    | none => simp [hv] at h
    | some res =>
      obtain ⟨T2, ms, e2⟩ := res
      simp only [hv, Option.some.injEq, Prod.mk.injEq] at h
      rw [← h.1]
      refine Visit_even getVisitor ?_ P T [] T2 ms e2 hT hv
      intro x s x1 s1 e hx hg
      simp only [getVisitor, Option.some.injEq, Prod.mk.injEq] at hg
      rw [← hg.1]; exact hx
  · intro T1 e h
    simp only [Delete] at h
    cases hl : P.getLast? with
    | none => simp [hl] at h
    | some lastBit =>
      simp only [hl] at h
      cases hv : Visit T P.dropLast (deleteVisitor lastBit) () with
      | none => simp [hv] at h
      | some res =>
        obtain ⟨T2, u, e2⟩ := res
        simp only [hv, Option.some.injEq, Prod.mk.injEq] at h
        rw [← h.1]
        exact Visit_even _ (deleteVisitor_even lastBit) _ T () T2 u e2 hT hv
  · intro T1 e h
    simp only [Update] at h
    cases hv : Visit T P (updateVisitor N) 0 with
    | none => simp [hv] at h
    | some res =>
      obtain ⟨T2, c, e2⟩ := res
      simp only [hv, Option.some.injEq, Prod.mk.injEq] at h
      rw [← h.1]
      refine Visit_even (updateVisitor N) ?_ P T 0 T2 c e2 hT hv
      intro x s x1 s1 e hx hg
      simp only [updateVisitor, Option.some.injEq, Prod.mk.injEq] at hg
      rw [← hg.1]; exact evenMappings_overwrite x N hN


theorem even_mappings_preserved_witness :
    evenMappings (Node.container MappingNode [Node.scalar "a", Node.scalar "1"]) = true ∧
      evenMappings (Node.container MappingNode []) = true ∧
      Update (Node.container MappingNode [Node.scalar "a", Node.scalar "1"]) ["a", "b"]
          (Node.container MappingNode []) =
        some (Node.container MappingNode [Node.scalar "a",
          Node.container MappingNode [Node.scalar "b", Node.container MappingNode []]], none) ∧
      evenMappings (Node.container MappingNode [Node.scalar "a",
          Node.container MappingNode [Node.scalar "b", Node.container MappingNode []]]) = true :=
  ⟨by decide, by decide, rfl,
    (even_mappings_preserved (Node.container MappingNode [Node.scalar "a", Node.scalar "1"])
      (Node.container MappingNode []) ["a", "b"] (by decide) (by decide)).2.2 _ none rfl⟩

/-! ## Run-time failures -/


theorem wellFormedList_iff (l : List Node) :
    wellFormedList l = true ↔ ∀ x ∈ l, wellFormed x = true := by
  induction l with
  | nil => simp [wellFormedList]
  | cons a l ih => simp [wellFormedList, ih]

theorem wellFormed_iff (n : Node) :
    wellFormed n = true ↔
      (n.Kind = DocumentNode → n.Content.length = 1) ∧
        (n.Kind = MappingNode → n.Content.length % 2 = 0) ∧
        ∀ x ∈ n.Content, wellFormed x = true := by
  cases n with
  | mk k s t v a c h l f li co =>
    simp only [wellFormed, Node.Kind, Node.Content]
    rw [← wellFormedList_iff]
    simp
    tauto

theorem wellFormed_ofKind (g : Kind) (hg : g ≠ DocumentNode) :
    wellFormed (Node.ofKind g) = true := by
  simp [Node.ofKind, wellFormed, wellFormedList, hg]

theorem GuessKind_ne_document (tail : List String) : GuessKind tail 0 ≠ DocumentNode := by
  cases tail with
  | nil => simp [GuessKind]
  | cons first rest =>
    simp only [GuessKind]
    split_ifs <;> simp_all

theorem wellFormed_getOrReplace (v : Node) (tail : List String) (h : wellFormed v = true) :
    wellFormed (getOrReplace v (GuessKind tail v.Kind)) = true := by
  by_cases hk : v.Kind = GuessKind tail v.Kind
  · simp [getOrReplace, ← hk, h]
  · have hne : GuessKind tail v.Kind ≠ DocumentNode := by
      cases tail with
      | nil =>
        by_cases h0 : v.Kind = 0
        · simp [GuessKind, h0]
        · simp [GuessKind, h0] at hk
      | cons first rest =>
        simp only [GuessKind]
        split_ifs with h1 h2
        · decide
        · rcases h2.2 with h3 | h3 <;> rw [h3] <;> decide
        · decide
    simp [getOrReplace, hk, wellFormed_ofKind _ hne]

theorem splatMapFrom_total {σ : Type} (tail : List String) (visit : Node → σ → Step σ)
    (hvisit : ∀ x s, wellFormed x = true → visit x s ≠ none) (l : List Node) (index : Nat)
    (s : σ) (hl : ∀ y ∈ l, wellFormed y = true) : splatMapFrom tail visit l index s ≠ none := by
  induction l generalizing index s with
  | nil => simp [splatMapFrom]
  | cons a l ih =>
    have hl' : ∀ y ∈ l, wellFormed y = true := fun y hy => hl y (by simp [hy])
    simp only [splatMapFrom]
    split
    · cases hr : splatMapFrom tail visit l (index + 1) s with
      | none => exact absurd hr (ih _ _ hl')
      | some r => simp [hr]
    · cases hv : visit (getOrReplace a (GuessKind tail a.Kind)) s with
      | none => exact absurd hv (hvisit _ _ (wellFormed_getOrReplace a tail (hl a (by simp))))
      | some r =>
        obtain ⟨c1, s1, e⟩ := r
        cases e with
        | some e => simp
        | none =>
          cases hr : splatMapFrom tail visit l (index + 1) s1 with
          | none => exact absurd hr (ih _ _ hl')
          | some r => simp [hr]

theorem splatArrayFrom_total {σ : Type} (tail : List String) (visit : Node → σ → Step σ)
    (hvisit : ∀ x s, wellFormed x = true → visit x s ≠ none) (l : List Node) (s : σ)
    (hl : ∀ y ∈ l, wellFormed y = true) : splatArrayFrom tail visit l s ≠ none := by
  induction l generalizing s with
  | nil => simp [splatArrayFrom]
  | cons a l ih =>
    have hl' : ∀ y ∈ l, wellFormed y = true := fun y hy => hl y (by simp [hy])
    simp only [splatArrayFrom]
    cases hv : visit (getOrReplace a (GuessKind tail a.Kind)) s with
    | none => exact absurd hv (hvisit _ _ (wellFormed_getOrReplace a tail (hl a (by simp))))
    | some r =>
      obtain ⟨c1, s1, e⟩ := r
      cases e with
      | some e => simp
      | none =>
        cases hr : splatArrayFrom tail visit l s1 with
        | none => exact absurd hr (ih _ hl')
        | some r => simp [hr]

theorem mapLoop_total {σ : Type} (key : String) (tail : List String) (visit : Node → σ → Step σ)
    (hvisit : ∀ x s, wellFormed x = true → visit x s ≠ none) (l : List Node)
    (heven : l.length % 2 = 0) (visited : Bool) (s : σ) (hl : ∀ y ∈ l, wellFormed y = true) :
    mapLoop key tail visit l visited s ≠ none := by
  match l with
  | [] => simp [mapLoop]
  | [_] => simp at heven
  | k :: v :: rest =>
    have hrest : rest.length % 2 = 0 := by simp at heven ⊢; omega
    have hl' : ∀ y ∈ rest, wellFormed y = true := fun y hy => hl y (by simp [hy])
    simp only [mapLoop]
    split
    · cases hv : visit (getOrReplace v (GuessKind tail v.Kind)) s with
      | none => exact absurd hv (hvisit _ _ (wellFormed_getOrReplace v tail (hl v (by simp))))
      | some r =>
        obtain ⟨c1, s1, e⟩ := r
        cases e with
        | some e => simp
        | none =>
          cases hr : mapLoop key tail visit rest true s1 with
          | none => exact absurd hr (mapLoop_total key tail visit hvisit rest hrest true s1 hl')
          | some r => simp [hr]
    · cases hr : mapLoop key tail visit rest visited s with
      | none => exact absurd hr (mapLoop_total key tail visit hvisit rest hrest visited s hl')
      | some r => simp [hr]

theorem recurse_total {σ : Type} (head : String) (tail : List String)
    (visit : Node → σ → Step σ) (hvisit : ∀ x s, wellFormed x = true → visit x s ≠ none)
    (hhead : ∀ i, ParseInt head = .ok i → 0 ≤ i) (v : Node) (s : σ)
    (hv : wellFormed v = true) : recurse v head tail visit s ≠ none := by
  obtain ⟨_, heven, hchildren⟩ := (wellFormed_iff v).1 hv
  have hfresh : ∀ s, visit (Node.ofKind (GuessKind tail 0)) s ≠ none :=
    fun s => hvisit _ _ (wellFormed_ofKind _ (GuessKind_ne_document tail))
  simp only [recurse]
  split_ifs with hM hstar hS hstar2 hplus
  · simp only [splatMap]
    cases hs : splatMapFrom tail visit v.Content 0 s with
    | none => exact absurd hs (splatMapFrom_total tail visit hvisit _ _ _ hchildren)
    | some r => simp [hs]
  · rw [recurseMap_eq]
    cases hloop : mapLoop head tail visit v.Content false s with
    | none => exact absurd hloop (mapLoop_total head tail visit hvisit _ (heven hM) _ _ hchildren)
    | some r =>
      obtain ⟨content, visited, s1, e⟩ := r
      cases e with
      | some e => simp
      | none =>
        cases visited with
        | true => simp
        | false =>
          simp only
          cases hn : visit (Node.ofKind (GuessKind tail 0)) s1 with
          | none => exact absurd hn (hfresh s1)
          | some r => simp [hn]
  · simp only [splatArray]
    cases hs : splatArrayFrom tail visit v.Content s with
    | none => exact absurd hs (splatArrayFrom_total tail visit hvisit _ _ hchildren)
    | some r => simp [hs]
  · simp only [appendArray]
    cases hn : visit (Node.ofKind (GuessKind tail 0)) s with
    | none => exact absurd hn (hfresh s)
    | some r => simp [hn]
  · simp only [recurseArray]
    cases hp : ParseInt head with
    | error e => simp
    | ok index =>
      have h0 := hhead index hp
      simp only
      split_ifs with h1 h2
      · simp
      · omega
      · have hlt : index.toNat < v.Content.length := by omega
        have hx : v.Content[index.toNat]? = some (v.Content[index.toNat]) :=
          List.getElem?_eq_getElem hlt
        simp only [hx]
        cases hvis : visit (getOrReplace (v.Content[index.toNat])
            (GuessKind tail (v.Content[index.toNat]).Kind)) s with
        | none =>
          exact absurd hvis (hvisit _ _ (wellFormed_getOrReplace _ tail
            (hchildren _ (List.getElem_mem hlt))))
        | some r => simp [hvis]
  · simp

theorem derefDocument_total {σ : Type} (inner : Node → σ → Step σ)
    (hinner : ∀ x s, wellFormed x = true → inner x s ≠ none) (v : Node) (s : σ)
    (hv : wellFormed v = true) : derefDocument v inner s ≠ none := by
  obtain ⟨hdoc, _, hchildren⟩ := (wellFormed_iff v).1 hv
  simp only [derefDocument]
  split_ifs with hd
  · have hlen := hdoc hd
    match hc : v.Content, hlen with
    | [child], _ =>
      simp only
      cases hi : inner child s with
      | none => exact absurd hi (hinner _ _ (hchildren child (by simp [hc])))
      | some r => simp [hi]
  · exact hinner _ _ hv

/-- On a well-formed tree the traversal does not fail at run time when no
segment of the path parses as a negative integer and the visitor does not
fail. -/
theorem Visit_total {σ : Type} (visitor : VisitorFn σ)
    (hvisitor : ∀ x s, wellFormed x = true → visitor x s ≠ none) (path : List String)
    (hpath : ∀ seg ∈ path, ∀ i, ParseInt seg = .ok i → 0 ≤ i) :
    ∀ x s, wellFormed x = true → Visit x path visitor s ≠ none := by
  induction path with
  | nil =>
    intro x s hx
    simp only [Visit]
    exact derefDocument_total visitor hvisitor x s hx
  | cons head tail ih =>
    intro x s hx
    simp only [Visit]
    exact derefDocument_total _ (fun y s hy =>
      recurse_total head tail _ (ih (fun seg hseg => hpath seg (by simp [hseg])))
        (hpath head (by simp)) y s hy) x s hx

theorem deleteVisitor_total (lastBit : String) (hlast : ∀ i, ParseInt lastBit = .ok i → 0 ≤ i) :
    ∀ x s, wellFormed x = true → deleteVisitor lastBit x s ≠ none := by
  intro x s hx
  obtain ⟨_, heven, _⟩ := (wellFormed_iff x).1 hx
  simp only [deleteVisitor]
  split_ifs with hS hM
  · cases hp : ParseInt lastBit with
    | error e => simp
    | ok index =>
      have h0 := hlast index hp
      simp only
      split_ifs with h1 h2
      · simp
      · omega
      · simp
  · obtain ⟨b, hb⟩ := visitMatchingEntriesFrom_collectIndex lastBit x.Content 0 false []
    have hdel := deleteIndices_reverse lastBit x.Content [] (heven hM)
    simp only [List.length_nil, List.nil_append] at hdel hb
    simp [visitMatchingEntries, hb, hdel]
  · simp

/-- Apart from a negative index, the operations do not fail at run time on a
well-formed tree: when every Document has exactly one child, every Mapping
has even-length content and no segment of the path parses as a negative
integer, Get and Update return, and so does Delete on a non-empty path. -/
theorem operations_return (T N : Node) (P : List String) (hT : wellFormed T = true)
    (hP : ∀ seg ∈ P, ∀ i, ParseInt seg = .ok i → 0 ≤ i) :
    Get T P ≠ none ∧ Update T P N ≠ none ∧ (P ≠ [] → Delete T P ≠ none) := by
  refine ⟨?_, ?_, ?_⟩
  · simp only [Get]
    cases hv : Visit T P getVisitor [] with
    | none => exact absurd hv (Visit_total getVisitor (by simp [getVisitor]) P hP T [] hT)
    | some r => simp [hv]
  · simp only [Update]
    cases hv : Visit T P (updateVisitor N) 0 with
    | none => exact absurd hv (Visit_total _ (by simp [updateVisitor]) P hP T 0 hT)
    | some r => simp [hv]
  · intro hne
    simp only [Delete]
    cases hl : P.getLast? with
    | none => exact absurd (List.getLast?_eq_none_iff.1 hl) hne
    | some lastBit =>
      simp only
      have hmem : lastBit ∈ P := List.mem_of_getLast?_eq_some hl
      cases hv : Visit T P.dropLast (deleteVisitor lastBit) () with
      | none =>
        exact absurd hv (Visit_total _ (deleteVisitor_total lastBit (hP lastBit hmem)) _
          (fun seg hseg => hP seg (List.mem_of_mem_dropLast hseg)) T () hT)
      | some r => simp [hv]

/-! ## Get after Update and Delete: every tree, along a path -/

theorem recurse_Kind {σ : Type} (head : String) (tail : List String) (visit : Node → σ → Step σ)
    (v v1 : Node) (s s1 : σ) (e : Option Error)
    (h : recurse v head tail visit s = some (v1, s1, e)) : v1.Kind = v.Kind := by
  unfold recurse at h
  split_ifs at h
  · simp only [splatMap] at h
    cases hs : splatMapFrom tail visit v.Content 0 s with
    | none => simp [hs] at h
    | some r => simp only [hs, Option.some.injEq, Prod.mk.injEq] at h; simp [← h.1]
  · rw [recurseMap_eq] at h
    cases hs : mapLoop head tail visit v.Content false s with
    | none => simp [hs] at h
    | some r =>
      obtain ⟨content, visited, s2, err⟩ := r
      cases err with
      | some e2 => simp only [hs, Option.some.injEq, Prod.mk.injEq] at h; simp [← h.1]
      | none =>
        cases visited with
        | true => simp only [hs, Option.some.injEq, Prod.mk.injEq] at h; simp [← h.1]
        | false =>
          simp only [hs] at h
          cases hv : visit (Node.ofKind (GuessKind tail 0)) s2 with
          | none => simp [hv] at h
          | some r2 => simp only [hv, Option.some.injEq, Prod.mk.injEq] at h; simp [← h.1]
  · simp only [splatArray] at h
    cases hs : splatArrayFrom tail visit v.Content s with
    | none => simp [hs] at h
    | some r => simp only [hs, Option.some.injEq, Prod.mk.injEq] at h; simp [← h.1]
  · simp only [appendArray] at h
    cases hs : visit (Node.ofKind (GuessKind tail 0)) s with
    | none => simp [hs] at h
    | some r => simp only [hs, Option.some.injEq, Prod.mk.injEq] at h; simp [← h.1]
  · simp only [recurseArray] at h
    cases hp : ParseInt head with
    | error e2 => simp only [hp, Option.some.injEq, Prod.mk.injEq] at h; simp [← h.1]
    | ok index =>
      simp only [hp] at h
      split_ifs at h
      · simp only [Option.some.injEq, Prod.mk.injEq] at h; simp [← h.1]
      · cases hx : v.Content[index.toNat]? with
        | none => simp [hx] at h
        | some x =>
          simp only [hx] at h
          cases hv : visit (getOrReplace x (GuessKind tail x.Kind)) s with
          | none => simp [hv] at h
          | some r => simp only [hv, Option.some.injEq, Prod.mk.injEq] at h; simp [← h.1]
  · simp only [Option.some.injEq, Prod.mk.injEq] at h; simp [← h.1]

theorem derefDocument_Kind {σ : Type} (inner : Node → σ → Step σ)
    (hinner : ∀ x s x1 s1 e, inner x s = some (x1, s1, e) → x1.Kind = x.Kind)
    (v v1 : Node) (s s1 : σ) (e : Option Error)
    (h : derefDocument v inner s = some (v1, s1, e)) : v1.Kind = v.Kind := by
  unfold derefDocument at h
  split_ifs at h
  · cases hc : v.Content with
    | nil => simp [hc] at h
    | cons realValue others =>
      simp only [hc] at h
      cases hi : inner realValue s with
      | none => simp [hi] at h
      | some r => simp only [hi, Option.some.injEq, Prod.mk.injEq] at h; simp [← h.1]
  · exact hinner _ _ _ _ _ h

theorem Visit_Kind_cons {σ : Type} (head : String) (tail : List String) (visitor : VisitorFn σ)
    (v v1 : Node) (s s1 : σ) (e : Option Error)
    (h : Visit v (head :: tail) visitor s = some (v1, s1, e)) : v1.Kind = v.Kind :=
  derefDocument_Kind _ (fun _ _ _ _ _ hr => recurse_Kind head tail _ _ _ _ _ _ hr) v v1 s s1 e h

theorem Visit_Kind {σ : Type} (visitor : VisitorFn σ)
    (hvisitor : ∀ x s x1 s1 e, visitor x s = some (x1, s1, e) → x1.Kind = x.Kind)
    (path : List String) (v v1 : Node) (s s1 : σ) (e : Option Error)
    (h : Visit v path visitor s = some (v1, s1, e)) : v1.Kind = v.Kind := by
  cases path with
  | nil => exact derefDocument_Kind _ hvisitor v v1 s s1 e h
  | cons head tail => exact Visit_Kind_cons head tail visitor v v1 s s1 e h

theorem deleteVisitor_Kind (t : String) (x : Node) (s : Unit) (x1 : Node) (s1 : Unit)
    (e : Option Error) (h : deleteVisitor t x s = some (x1, s1, e)) : x1.Kind = x.Kind := by
  unfold deleteVisitor at h
  split_ifs at h
  · cases hp : ParseInt t with
    | error e2 => simp only [hp, Option.some.injEq, Prod.mk.injEq] at h; simp [← h.1]
    | ok index =>
      simp only [hp] at h
      split_ifs at h
      · simp only [Option.some.injEq, Prod.mk.injEq] at h; simp [← h.1]
      · simp only [Option.some.injEq, Prod.mk.injEq] at h; simp [← h.1]
  · cases hm : visitMatchingEntries x.Content t collectIndex [] with
    | none => simp [hm] at h
    | some r =>
      obtain ⟨b, idx, err⟩ := r
      cases err with
      | some e2 => simp only [hm, Option.some.injEq, Prod.mk.injEq] at h; simp [← h.1]
      | none =>
        simp only [hm] at h
        cases hd : deleteIndices idx.reverse x.Content with
        | none => simp [hd] at h
        | some content => simp only [hd, Option.some.injEq, Prod.mk.injEq] at h; simp [← h.1]
  · simp only [Option.some.injEq, Prod.mk.injEq] at h; simp [← h.1]

theorem traced_Kind {σ : Type} (visitor : VisitorFn σ)
    (hvisitor : ∀ x s x1 s1 e, visitor x s = some (x1, s1, e) → x1.Kind = x.Kind)
    (x : Node) (s : σ × List Node) (x1 : Node) (s1 : σ × List Node) (e : Option Error)
    (h : traced visitor x s = some (x1, s1, e)) : x1.Kind = x.Kind := by
  simp only [traced] at h
  cases hv : visitor x s.1 with
  | none => simp [hv] at h
  | some r =>
    obtain ⟨x2, s2, e2⟩ := r
    simp only [hv, Option.some.injEq, Prod.mk.injEq] at h
    rw [← h.1]
    exact hvisitor _ _ _ _ _ hv

theorem GuessKind_append (tail : List String) (t : String) (k : Kind) :
    GuessKind tail (GuessKind (tail ++ [t]) k) = GuessKind (tail ++ [t]) k := by
  cases tail with
  | nil =>
    simp only [List.nil_append, GuessKind]
    split_ifs <;> simp_all
  | cons first rest =>
    simp only [List.cons_append, GuessKind]
    split_ifs <;> simp_all

theorem Visit_foundAt (e : Node) (hwf : wellFormed e = true) (acc : List Node) :
    ∃ e3, Visit (getOrReplace e (GuessKind [] e.Kind)) [] getVisitor acc =
      some (e3, acc ++ foundAt e, none) := by
  by_cases h0 : e.Kind = 0
  · refine ⟨Node.ofKind ScalarNode, ?_⟩
    simp [getOrReplace, GuessKind, h0, foundAt, Visit, derefDocument, getVisitor]
  · rw [getOrReplace_same _ _ (GuessKind_nil _ h0).symm]
    by_cases hd : e.Kind = DocumentNode
    · obtain ⟨hdoc, _, _⟩ := (wellFormed_iff e).1 hwf
      have hlen := hdoc hd
      match hc : e.Content, hlen with
      | [child], _ =>
        exact ⟨e.setContent [child], by simp [Visit, derefDocument, hd, hc, getVisitor, foundAt]⟩
    · exact ⟨e, by simp [Visit_nil _ _ _ hd, getVisitor, foundAt, h0, hd]⟩

theorem deleteVisitor_mapping (M : Node) (t : String) (s : Unit) (hM : M.Kind = MappingNode)
    (heven : M.Content.length % 2 = 0) :
    deleteVisitor t M s =
      some (M.setContent
        (ofPairs ((mapPairs M.Content).filter (fun p => !matchesKey t p.1.Value))), s, none) := by
  obtain ⟨b, hb⟩ := visitMatchingEntriesFrom_collectIndex t M.Content 0 false []
  have hdel := deleteIndices_reverse t M.Content [] heven
  simp only [List.length_nil, List.nil_append] at hdel hb
  simp [deleteVisitor, hM, visitMatchingEntries, hb, hdel]

theorem recurseMap_even_length {σ : Type} (head : String) (tail : List String)
    (visit : Node → σ → Step σ) (v v1 : Node) (s s1 : σ) (e : Option Error)
    (heven : v.Content.length % 2 = 0)
    (h : recurseMap v head tail visit s = some (v1, s1, e)) :
    ∃ content, v1 = v.setContent content ∧ content.length % 2 = 0 := by
  rw [recurseMap_eq] at h
  cases hs : mapLoop head tail visit v.Content false s with
  | none => simp [hs] at h
  | some r =>
    obtain ⟨content, visited, s2, err⟩ := r
    obtain ⟨hlen, _⟩ := mapLoop_keeps_others _ _ _ _ heven _ _ _ _ _ _ hs
    cases err with
    | some e2 =>
      simp only [hs, Option.some.injEq, Prod.mk.injEq] at h
      exact ⟨content, h.1.symm, by rw [hlen]; exact heven⟩
    | none =>
      cases visited with
      | true =>
        simp only [hs, Option.some.injEq, Prod.mk.injEq] at h
        exact ⟨content, h.1.symm, by rw [hlen]; exact heven⟩
      | false =>
        simp only [hs] at h
        cases hv : visit (Node.ofKind (GuessKind tail 0)) s2 with
        | none => simp [hv] at h
        | some r2 =>
          simp only [hv, Option.some.injEq, Prod.mk.injEq] at h
          exact ⟨_, h.1.symm, by simp; omega⟩

theorem take_drop_set (l : List Node) (n : Nat) (a : Node) :
    (l.set n a).take n ++ (l.set n a).drop (n + 1) = l.take n ++ l.drop (n + 1) := by
  induction l generalizing n with
  | nil => simp
  | cons x l ih =>
    cases n with
    | zero => simp
    | succ n => simpa using ih n

theorem getElem?_take_drop (l : List Node) (n : Nat) :
    (l.take n ++ l.drop (n + 1))[n]? = l[n + 1]? := by
  induction l generalizing n with
  | nil => simp
  | cons x l ih =>
    cases n with
    | zero => simp
    | succ n => simpa using ih n

theorem take_one_drop_set (l : List Node) (n : Nat) (a : Node) :
    ((l.set n a).drop (n + 1)).take 1 = (l[n + 1]?).toList := by
  induction l generalizing n with
  | nil => simp
  | cons x l ih =>
    cases n with
    | zero => cases l <;> simp
    | succ n => simpa using ih n

/-- Update, Delete and Get at the node the last segment applies to. -/
theorem last_afterDelete (N : Node) (t : String) :
    AfterDelete t
      (fun v c => recurse v t [] (fun node s2 => Visit node [] (updateVisitor N) s2) c)
      (traced (deleteVisitor t))
      (fun v acc => recurse v t [] (fun node s2 => Visit node [] getVisitor s2) acc) := by
  intro x x1 x2 c c1 tr tr2 hwf hU hD
  beta_reduce at hU ⊢
  obtain ⟨_, heven, hchildren⟩ := (wellFormed_iff x).1 hwf
  have hk1 := recurse_Kind _ _ _ _ _ _ _ _ hU
  simp only [traced] at hD
  cases hdel : deleteVisitor t x1 () with
  | none => simp [hdel] at hD
  | some r =>
    obtain ⟨x2', u, e⟩ := r
    simp only [hdel, Option.some.injEq, Prod.mk.injEq] at hD
    obtain ⟨rfl, ⟨_, rfl⟩, rfl⟩ := hD
    refine ⟨[x1], rfl, fun acc => ?_⟩
    simp only [List.flatMap_cons, List.flatMap_nil, List.append_nil]
    by_cases hM : x.Kind = MappingNode
    · have hM1 : x1.Kind = MappingNode := by rw [hk1]; exact hM
      have heven1 : x1.Content.length % 2 = 0 := by
        by_cases hstar : t = "*"
        · subst hstar
          simp only [recurse, hM, if_true, splatMap] at hU
          cases hs : splatMapFrom [] (fun node s2 => Visit node [] (updateVisitor N) s2)
              x.Content 0 c with
          | none => simp [hs] at hU
          | some r =>
            obtain ⟨content, c2, e2⟩ := r
            simp only [hs, Option.some.injEq, Prod.mk.injEq] at hU
            have hlen := splatMapFrom_length _ _ _ _ _ _ _ _ hs
            rw [← hU.1]
            simp [hlen, heven hM]
        · simp only [recurse, hM, if_true, hstar, if_false] at hU
          obtain ⟨content, rfl, hce⟩ := recurseMap_even_length _ _ _ _ _ _ _ _ (heven hM) hU
          simpa using hce
      rw [deleteVisitor_mapping x1 t () hM1 heven1] at hdel
      simp only [Option.some.injEq, Prod.mk.injEq] at hdel
      obtain ⟨rfl, _, _⟩ := hdel
      by_cases hstar : t = "*"
      · subst hstar
        have : (mapPairs x1.Content).filter (fun p => !matchesKey "*" p.1.Value) = [] := by
          simp [matchesKey_star]
        simp [recurse, hM1, splatMap, this, ofPairs, splatMapFrom, foundAfterDelete]
      · have hlen : (ofPairs ((mapPairs x1.Content).filter
            (fun p => !matchesKey t p.1.Value))).length % 2 = 0 := by
          rw [length_ofPairs]; omega
        have hloop := mapLoop_append t [] (fun node s2 => Visit node [] getVisitor s2)
          (ofPairs ((mapPairs x1.Content).filter (fun p => !matchesKey t p.1.Value))) [] hlen
          (anyKey_ofPairs_filter t _) false acc
        simp only [List.append_nil, mapLoop, Option.map_some'] at hloop
        simp [recurse, hM1, hstar, recurseMap_eq, hloop, GuessKind, Visit_nil,
          getVisitor, foundAfterDelete]
    · by_cases hS : x.Kind = SequenceNode
      · have hS1 : x1.Kind = SequenceNode := by rw [hk1]; exact hS
        have hMS : ¬ SequenceNode = MappingNode := by decide
        cases hp : ParseInt t with
        | error err =>
          simp [deleteVisitor, hS1, hp] at hdel
        | ok index =>
          obtain ⟨hstar, hplus⟩ := ParseInt_ok_ne t index hp
          simp only [recurse, hM, if_false, hS, if_true, hstar, hplus, recurseArray, hp] at hU
          simp only [deleteVisitor, hS1, if_true, hp] at hdel
          by_cases hi : index ≥ (x.Content.length : Int)
          · simp only [hi, if_true, Option.some.injEq, Prod.mk.injEq] at hU
            obtain ⟨rfl, _, _⟩ := hU
            simp only [hi, if_true, Option.some.injEq, Prod.mk.injEq] at hdel
            obtain ⟨rfl, _, _⟩ := hdel
            have hdrop : List.drop (index.toNat + 1) x.Content = [] := by
              rw [List.drop_eq_nil_iff]; omega
            simp [recurse, hS, hMS, hstar, hplus, recurseArray, hp, hi, foundAfterDelete, hdrop]
          · simp only [hi, if_false] at hU
            by_cases hneg : index < 0
            · simp [hneg] at hU
            · simp only [hneg, if_false] at hU
              cases hx : x.Content[index.toNat]? with
              | none => simp [hx] at hU
              | some child =>
                simp only [hx] at hU
                cases hv : Visit (getOrReplace child (GuessKind [] child.Kind)) []
                    (updateVisitor N) c with
                | none => simp [hv] at hU
                | some r =>
                  obtain ⟨child1, c2, err⟩ := r
                  simp only [hv, Option.some.injEq, Prod.mk.injEq] at hU
                  obtain ⟨rfl, _, _⟩ := hU
                  simp only [Node.Content_setContent, List.length_set, hi, if_false, hneg,
                    take_drop_set, Node.setContent_setContent, Option.some.injEq,
                    Prod.mk.injEq] at hdel
                  obtain ⟨rfl, _, _⟩ := hdel
                  have hfound : foundAfterDelete t
                      (x.setContent (x.Content.set index.toNat child1)) =
                      (x.Content[index.toNat + 1]?).toList.flatMap foundAt := by
                    simp [foundAfterDelete, hS, hMS, hp, take_one_drop_set]
                  rw [hfound]
                  have hidx : ((index.toNat : Nat) : Int) = index := Int.toNat_of_nonneg (by omega)
                  cases hnext : x.Content[index.toNat + 1]? with
                  | none =>
                    have hlen : x.Content.length ≤ index.toNat + 1 := by
                      rw [List.getElem?_eq_none_iff] at hnext; exact hnext
                    have hge : index ≥ ((List.take index.toNat x.Content ++
                        List.drop (index.toNat + 1) x.Content).length : Int) := by
                      simp only [List.length_append, List.length_take, List.length_drop]
                      omega
                    simp only [recurse, Node.Kind_setContent, hS, hMS, if_false, if_true, hstar,
                      hplus, recurseArray, hp, Node.Content_setContent, hge, Option.toList,
                      List.flatMap_nil, List.append_nil]
                    exact ⟨_, rfl⟩
                  | some next =>
                    have hlen : index.toNat + 1 < x.Content.length := by
                      rw [List.getElem?_eq_some] at hnext; exact hnext.1
                    have hge : ¬ index ≥ ((List.take index.toNat x.Content ++
                        List.drop (index.toNat + 1) x.Content).length : Int) := by
                      simp only [List.length_append, List.length_take, List.length_drop]
                      omega
                    have hslot := getElem?_take_drop x.Content index.toNat
                    rw [hnext] at hslot
                    obtain ⟨e3, he3⟩ := Visit_foundAt next
                      (hchildren next (mem_of_getElem? _ _ _ hnext)) acc
                    simp only [recurse, Node.Kind_setContent, hS, hMS, if_false, if_true, hstar,
                      hplus, recurseArray, hp, Node.Content_setContent, hge, hneg, hslot, he3,
                      Option.toList, List.flatMap_cons, List.flatMap_nil, List.append_nil]
                    exact ⟨_, rfl⟩
      · have hM1 : ¬ x1.Kind = MappingNode := by rw [hk1]; exact hM
        have hS1 : ¬ x1.Kind = SequenceNode := by rw [hk1]; exact hS
        simp only [recurse, hM, hS, if_false, Option.some.injEq, Prod.mk.injEq] at hU
        obtain ⟨rfl, _, _⟩ := hU
        simp only [deleteVisitor, hM, hS, if_false, Option.some.injEq, Prod.mk.injEq] at hdel
        obtain ⟨rfl, _, _⟩ := hdel
        simp [recurse, hM, hS, foundAfterDelete]

/-- Update, Delete and Get through the loop of `recurseMap`. -/
theorem mapLoop_afterDelete (t key : String) (tailU tailD : List String)
    (visitU : Node → Nat → Step Nat)
    (visitD : Node → Unit × List Node → Step (Unit × List Node))
    (visitG : Node → List Node → Step (List Node))
    (ih : AfterDelete t visitU visitD visitG)
    (hKU : ∀ x c x1 c1 e, visitU x c = some (x1, c1, e) → x1.Kind = x.Kind)
    (hKD : ∀ x s x1 s1 e, visitD x s = some (x1, s1, e) → x1.Kind = x.Kind)
    (hG : ∀ k, GuessKind tailD (GuessKind tailU k) = GuessKind tailU k)
    (l : List Node) (heven : l.length % 2 = 0) (hwf : ∀ x ∈ l, wellFormed x = true)
    (vis : Bool) (c : Nat) (l1 : List Node) (vis1 : Bool) (c1 : Nat)
    (hU : mapLoop key tailU visitU l vis c = some (l1, vis1, c1, none))
    (visd : Bool) (tr : List Node) (l2 : List Node) (visd1 : Bool) (tr2 : List Node)
    (hD : mapLoop key tailD visitD l1 visd ((), tr) = some (l2, visd1, ((), tr2), none)) :
    visd1 = (visd || anyKey key l) ∧
      ∃ cs, tr2 = tr ++ cs ∧ ∀ acc visg, ∃ l3, mapLoop key tailU visitG l2 visg acc =
        some (l3, (visg || anyKey key l), acc ++ cs.flatMap (foundAfterDelete t), none) := by
  match l with
  | [] =>
    simp only [mapLoop, Option.some.injEq, Prod.mk.injEq] at hU
    obtain ⟨rfl, _, _⟩ := hU
    simp only [mapLoop, Option.some.injEq, Prod.mk.injEq, and_true, true_and] at hD
    obtain ⟨rfl, rfl, rfl⟩ := hD
    exact ⟨by simp [anyKey, mapPairs], [], by simp, fun acc visg =>
      ⟨[], by simp [mapLoop, anyKey, mapPairs]⟩⟩
  | [_] => simp at heven
  | k :: v :: rest =>
    have hrest : rest.length % 2 = 0 := by simp at heven ⊢; omega
    have hwf' : ∀ x ∈ rest, wellFormed x = true := fun x hx => hwf x (by simp [hx])
    by_cases hk : matchesKey key k.Value = true
    · simp only [mapLoop, hk, if_true] at hU
      cases hv : visitU (getOrReplace v (GuessKind tailU v.Kind)) c with
      | none => simp [hv] at hU
      | some r =>
        obtain ⟨v1, c', err⟩ := r
        cases err with
        | some e => simp [hv] at hU
        | none =>
          simp only [hv] at hU
          cases hr : mapLoop key tailU visitU rest true c' with
          | none => simp [hr] at hU
          | some r2 =>
            obtain ⟨rest1, vis2, c2, err2⟩ := r2
            simp only [hr, Option.some.injEq, Prod.mk.injEq] at hU
            obtain ⟨rfl, rfl, rfl, rfl⟩ := hU
            have hkind1 : v1.Kind = GuessKind tailU v.Kind := by
              rw [hKU _ _ _ _ _ hv, Kind_getOrReplace]
            have hsame1 : getOrReplace v1 (GuessKind tailD v1.Kind) = v1 :=
              getOrReplace_same _ _ (by rw [hkind1, hG])
            simp only [mapLoop, hk, if_true, hsame1] at hD
            cases hvd : visitD v1 ((), tr) with
            | none => simp [hvd] at hD
            | some r3 =>
              obtain ⟨v2, ⟨⟨⟩, tr'⟩, errd⟩ := r3
              cases errd with
              | some e => simp [hvd] at hD
              | none =>
                simp only [hvd] at hD
                cases hrd : mapLoop key tailD visitD rest1 true ((), tr') with
                | none => simp [hrd] at hD
                | some r4 =>
                  obtain ⟨rest2, visd2, ⟨⟨⟩, tr3⟩, errd2⟩ := r4
                  simp only [hrd, Option.some.injEq, Prod.mk.injEq] at hD
                  obtain ⟨rfl, rfl, ⟨_, rfl⟩, rfl⟩ := hD
                  obtain ⟨hflag, cs2, hcs2, hG2⟩ := mapLoop_afterDelete t key tailU tailD visitU
                    visitD visitG ih hKU hKD hG rest hrest hwf' true c' rest1 vis2 c2 hr true tr'
                    rest2 visd2 tr3 hrd
                  obtain ⟨cs1, hcs1, hG1⟩ := ih _ v1 v2 c c' tr tr'
                    (wellFormed_getOrReplace v tailU (hwf v (by simp))) hv hvd
                  have hkind2 : v2.Kind = GuessKind tailU v.Kind := by
                    rw [hKD _ _ _ _ _ hvd, hkind1]
                  have hsame2 : getOrReplace v2 (GuessKind tailU v2.Kind) = v2 :=
                    getOrReplace_same _ _ (by rw [hkind2, GuessKind_idem])
                  refine ⟨by simp [hflag, anyKey, mapPairs, hk], cs1 ++ cs2,
                    by rw [hcs2, hcs1, List.append_assoc], fun acc visg => ?_⟩
                  obtain ⟨v3, hv3⟩ := hG1 acc
                  obtain ⟨rest3, hrest3⟩ := hG2 (acc ++ cs1.flatMap (foundAfterDelete t)) true
                  exact ⟨k :: v3 :: rest3, by
                    simp [mapLoop, hk, hsame2, hv3, hrest3, anyKey, mapPairs]⟩
    · simp only [mapLoop, hk, if_false, Bool.false_eq_true] at hU
      cases hr : mapLoop key tailU visitU rest vis c with
      | none => simp [hr] at hU
      | some r2 =>
        obtain ⟨rest1, vis2, c2, err2⟩ := r2
        simp only [hr, Option.some.injEq, Prod.mk.injEq] at hU
        obtain ⟨rfl, rfl, rfl, rfl⟩ := hU
        simp only [mapLoop, hk, if_false, Bool.false_eq_true] at hD
        cases hrd : mapLoop key tailD visitD rest1 visd ((), tr) with
        | none => simp [hrd] at hD
        | some r4 =>
          obtain ⟨rest2, visd2, ⟨⟨⟩, tr3⟩, errd2⟩ := r4
          simp only [hrd, Option.some.injEq, Prod.mk.injEq] at hD
          obtain ⟨rfl, rfl, ⟨_, rfl⟩, rfl⟩ := hD
          obtain ⟨hflag, cs2, hcs2, hG2⟩ := mapLoop_afterDelete t key tailU tailD visitU
            visitD visitG ih hKU hKD hG rest hrest hwf' vis c rest1 vis2 c2 hr visd tr
            rest2 visd2 tr3 hrd
          have hany : anyKey key (k :: v :: rest) = anyKey key rest := by
            simp [anyKey, mapPairs, hk]
          refine ⟨by rw [hany]; exact hflag, cs2, hcs2, fun acc visg => ?_⟩
          obtain ⟨rest3, hrest3⟩ := hG2 acc visg
          exact ⟨k :: v :: rest3, by simp [mapLoop, hk, hrest3, hany]⟩

theorem mapLoop_no_match {σ : Type} (key : String) (tail : List String)
    (visit : Node → σ → Step σ) (l : List Node) (heven : l.length % 2 = 0)
    (hno : anyKey key l = false) (visited : Bool) (s : σ) :
    mapLoop key tail visit l visited s = some (l, visited, s, none) := by
  have h := mapLoop_append key tail visit l [] heven hno visited s
  simpa [mapLoop] using h

/-- Update, Delete and Get through one step of the traversal. -/
theorem recurse_afterDelete (t head : String) (tailU tailD : List String)
    (hstar : head ≠ "*") (hplus : head ≠ "+")
    (visitU : Node → Nat → Step Nat)
    (visitD : Node → Unit × List Node → Step (Unit × List Node))
    (visitG : Node → List Node → Step (List Node))
    (ih : AfterDelete t visitU visitD visitG)
    (hKU : ∀ x c x1 c1 e, visitU x c = some (x1, c1, e) → x1.Kind = x.Kind)
    (hKD : ∀ x s x1 s1 e, visitD x s = some (x1, s1, e) → x1.Kind = x.Kind)
    (hG : ∀ k, GuessKind tailD (GuessKind tailU k) = GuessKind tailU k) :
    AfterDelete t (fun v c => recurse v head tailU visitU c)
      (fun v s => recurse v head tailD visitD s)
      (fun v acc => recurse v head tailU visitG acc) := by
  intro x x1 x2 c c1 tr tr2 hwf hU hD
  beta_reduce at hU hD ⊢
  obtain ⟨_, heven, hchildren⟩ := (wellFormed_iff x).1 hwf
  have hk1 := recurse_Kind _ _ _ _ _ _ _ _ hU
  have hk2 := recurse_Kind _ _ _ _ _ _ _ _ hD
  by_cases hM : x.Kind = MappingNode
  · have hM1 : x1.Kind = MappingNode := by rw [hk1]; exact hM
    have hM2 : x2.Kind = MappingNode := by rw [hk2]; exact hM1
    simp only [recurse, hM, if_true, hstar, if_false, recurseMap_eq] at hU
    simp only [recurse, hM1, if_true, hstar, if_false, recurseMap_eq] at hD
    simp only [recurse, hM2, if_true, hstar, if_false, recurseMap_eq]
    by_cases hany : anyKey head x.Content = true
    · cases hloop : mapLoop head tailU visitU x.Content false c with
      | none => simp [hloop] at hU
      | some r =>
        obtain ⟨content, visited, c', err⟩ := r
        cases err with
        | some e => simp [hloop] at hU
        | none =>
          have hflag := mapLoop_flag _ _ _ _ (heven hM) _ _ _ _ _ hloop
          simp only [Bool.false_or, hany] at hflag
          subst hflag
          simp only [hloop, Option.some.injEq, Prod.mk.injEq, and_true] at hU
          obtain ⟨rfl, rfl⟩ := hU
          simp only [Node.Content_setContent] at hD
          cases hloopd : mapLoop head tailD visitD content false ((), tr) with
          | none => simp [hloopd] at hD
          | some r2 =>
            obtain ⟨content2, visd, ⟨⟨⟩, tr'⟩, errd⟩ := r2
            cases errd with
            | some e => cases visd <;> simp [hloopd] at hD
            | none =>
              obtain ⟨hflagd, cs, hcs, hG3⟩ := mapLoop_afterDelete t head tailU tailD visitU
                visitD visitG ih hKU hKD hG x.Content (heven hM) hchildren false c content true c'
                hloop false tr content2 visd tr' hloopd
              simp only [Bool.false_or, hany] at hflagd
              subst hflagd
              simp only [hloopd, Option.some.injEq, Prod.mk.injEq, true_and, and_true] at hD
              obtain ⟨rfl, rfl⟩ := hD
              refine ⟨cs, hcs, fun acc => ?_⟩
              obtain ⟨l3, hl3⟩ := hG3 acc false
              simp only [Bool.false_or, hany] at hl3
              simp only [Node.Content_setContent, hl3]
              exact ⟨_, rfl⟩
    · simp only [Bool.not_eq_true] at hany
      simp only [mapLoop_no_match head tailU visitU x.Content (heven hM) hany] at hU
      cases hv : visitU (Node.ofKind (GuessKind tailU 0)) c with
      | none => simp [hv] at hU
      | some r =>
        obtain ⟨mv1, c', err⟩ := r
        simp only [hv, Option.some.injEq, Prod.mk.injEq] at hU
        obtain ⟨rfl, rfl, rfl⟩ := hU
        have hkind1 : mv1.Kind = GuessKind tailU 0 := by
          rw [hKU _ _ _ _ _ hv, Node.Kind_ofKind]
        have hsame1 : getOrReplace mv1 (GuessKind tailD mv1.Kind) = mv1 :=
          getOrReplace_same _ _ (by rw [hkind1, hG])
        simp only [Node.Content_setContent, mapLoop_append head tailD visitD x.Content _
          (heven hM) hany, mapLoop, Value_ofValue, matchesKey_self, if_true, hsame1] at hD
        cases hvd : visitD mv1 ((), tr) with
        | none => simp [hvd] at hD
        | some r3 =>
          obtain ⟨mv2, ⟨⟨⟩, tr'⟩, errd⟩ := r3
          cases errd with
          | some e => simp [hvd] at hD
          | none =>
            simp only [hvd, Option.map_some', Option.some.injEq, Prod.mk.injEq, true_and,
              and_true] at hD
            obtain ⟨rfl, rfl⟩ := hD
            obtain ⟨cs1, hcs1, hG1⟩ := ih _ mv1 mv2 c c' tr tr'
              (wellFormed_ofKind _ (GuessKind_ne_document tailU)) hv hvd
            have hkind2 : mv2.Kind = GuessKind tailU 0 := by
              rw [hKD _ _ _ _ _ hvd, hkind1]
            have hsame2 : getOrReplace mv2 (GuessKind tailU mv2.Kind) = mv2 :=
              getOrReplace_same _ _ (by rw [hkind2, GuessKind_idem])
            refine ⟨cs1, hcs1, fun acc => ?_⟩
            obtain ⟨mv3, hmv3⟩ := hG1 acc
            simp only [Node.Content_setContent, mapLoop_append head tailU visitG x.Content _
              (heven hM) hany, mapLoop, Value_ofValue, matchesKey_self, if_true, hsame2, hmv3,
              Option.map_some']
            exact ⟨_, rfl⟩
  · by_cases hS : x.Kind = SequenceNode
    · have hS1 : x1.Kind = SequenceNode := by rw [hk1]; exact hS
      have hS2 : x2.Kind = SequenceNode := by rw [hk2]; exact hS1
      have hMS : ¬ SequenceNode = MappingNode := by decide
      simp only [recurse, hS, hMS, if_false, if_true, hstar, hplus, recurseArray] at hU
      simp only [recurse, hS1, hMS, if_false, if_true, hstar, hplus, recurseArray] at hD
      simp only [recurse, hS2, hMS, if_false, if_true, hstar, hplus, recurseArray]
      cases hp : ParseInt head with
      | error e => simp [hp] at hU
      | ok index =>
        simp only [hp] at hU hD ⊢
        by_cases hi : index ≥ (x.Content.length : Int)
        · simp only [hi, if_true, Option.some.injEq, Prod.mk.injEq, and_true] at hU
          obtain ⟨rfl, rfl⟩ := hU
          simp only [hi, if_true, Option.some.injEq, Prod.mk.injEq, true_and, and_true] at hD
          obtain ⟨rfl, rfl⟩ := hD
          exact ⟨[], by simp, fun acc => ⟨x, by simp [hi]⟩⟩
        · simp only [hi, if_false] at hU
          by_cases hneg : index < 0
          · simp [hneg] at hU
          · simp only [hneg, if_false] at hU
            cases hx : x.Content[index.toNat]? with
            | none => simp [hx] at hU
            | some child =>
              simp only [hx] at hU
              cases hv : visitU (getOrReplace child (GuessKind tailU child.Kind)) c with
              | none => simp [hv] at hU
              | some r =>
                obtain ⟨child1, c', err⟩ := r
                simp only [hv, Option.some.injEq, Prod.mk.injEq] at hU
                obtain ⟨rfl, rfl, rfl⟩ := hU
                have hlt : index.toNat < x.Content.length := by
                  rw [List.getElem?_eq_some] at hx
                  exact hx.1
                have hkind1 : child1.Kind = GuessKind tailU child.Kind := by
                  rw [hKU _ _ _ _ _ hv, Kind_getOrReplace]
                have hsame1 : getOrReplace child1 (GuessKind tailD child1.Kind) = child1 :=
                  getOrReplace_same _ _ (by rw [hkind1, hG])
                simp only [Node.Content_setContent, List.length_set, hi, if_false, hneg,
                  List.getElem?_set_self hlt, hsame1] at hD
                cases hvd : visitD child1 ((), tr) with
                | none => simp [hvd] at hD
                | some r3 =>
                  obtain ⟨child2, ⟨⟨⟩, tr'⟩, errd⟩ := r3
                  simp only [hvd, Option.some.injEq, Prod.mk.injEq, true_and] at hD
                  obtain ⟨rfl, rfl, rfl⟩ := hD
                  obtain ⟨cs1, hcs1, hG1⟩ := ih _ child1 child2 c c' tr tr'
                    (wellFormed_getOrReplace child tailU
                      (hchildren child (mem_of_getElem? _ _ _ hx))) hv hvd
                  have hkind2 : child2.Kind = GuessKind tailU child.Kind := by
                    rw [hKD _ _ _ _ _ hvd, hkind1]
                  have hsame2 : getOrReplace child2 (GuessKind tailU child2.Kind) = child2 :=
                    getOrReplace_same _ _ (by rw [hkind2, GuessKind_idem])
                  refine ⟨cs1, hcs1, fun acc => ?_⟩
                  obtain ⟨child3, hchild3⟩ := hG1 acc
                  have hlt2 : index.toNat < (x.Content.set index.toNat child1).length := by
                    simpa using hlt
                  simp only [Node.Content_setContent, Node.setContent_setContent, List.length_set,
                    hi, if_false, hneg, List.getElem?_set_self hlt2, hsame2, hchild3]
                  exact ⟨_, rfl⟩
    · have hM1 : ¬ x1.Kind = MappingNode := by rw [hk1]; exact hM
      have hS1 : ¬ x1.Kind = SequenceNode := by rw [hk1]; exact hS
      simp only [recurse, hM, hS, if_false, Option.some.injEq, Prod.mk.injEq, and_true] at hU
      obtain ⟨rfl, rfl⟩ := hU
      simp only [recurse, hM, hS, if_false, Option.some.injEq, Prod.mk.injEq, true_and,
        and_true] at hD
      obtain ⟨rfl, rfl⟩ := hD
      exact ⟨[], by simp, fun acc => ⟨x, by simp [recurse, hM, hS]⟩⟩

theorem derefDocument_afterDelete (t : String) (innerU : Node → Nat → Step Nat)
    (innerD : Node → Unit × List Node → Step (Unit × List Node))
    (innerG : Node → List Node → Step (List Node))
    (ih : AfterDelete t innerU innerD innerG)
    (hKU : ∀ x c x1 c1 e, innerU x c = some (x1, c1, e) → x1.Kind = x.Kind)
    (hKD : ∀ x s x1 s1 e, innerD x s = some (x1, s1, e) → x1.Kind = x.Kind) :
    AfterDelete t (fun v c => derefDocument v innerU c) (fun v s => derefDocument v innerD s)
      (fun v acc => derefDocument v innerG acc) := by
  intro x x1 x2 c c1 tr tr2 hwf hU hD
  beta_reduce at hU hD ⊢
  obtain ⟨hdoc, _, hchildren⟩ := (wellFormed_iff x).1 hwf
  by_cases hd : x.Kind = DocumentNode
  · have hlen := hdoc hd
    match hc : x.Content, hlen with
    | [child], _ =>
      simp only [derefDocument, hd, if_true, hc] at hU
      cases hi : innerU child c with
      | none => simp [hi] at hU
      | some r =>
        obtain ⟨child1, c', err⟩ := r
        simp only [hi, Option.some.injEq, Prod.mk.injEq] at hU
        obtain ⟨rfl, rfl, rfl⟩ := hU
        simp only [derefDocument, Node.Kind_setContent, hd, if_true,
          Node.Content_setContent] at hD
        cases hid : innerD child1 ((), tr) with
        | none => simp [hid] at hD
        | some r2 =>
          obtain ⟨child2, ⟨⟨⟩, tr'⟩, errd⟩ := r2
          simp only [hid, Option.some.injEq, Prod.mk.injEq, true_and] at hD
          obtain ⟨rfl, rfl, rfl⟩ := hD
          obtain ⟨cs, hcs, hG⟩ := ih child child1 child2 c c' tr tr'
            (hchildren child (by simp [hc])) hi hid
          refine ⟨cs, hcs, fun acc => ?_⟩
          obtain ⟨child3, hchild3⟩ := hG acc
          simp only [derefDocument, Node.Kind_setContent, hd, if_true, Node.Content_setContent,
            hchild3]
          exact ⟨_, rfl⟩
  · simp only [derefDocument, hd, if_false] at hU
    have hd1 : ¬ x1.Kind = DocumentNode := by rw [hKU _ _ _ _ _ hU]; exact hd
    simp only [derefDocument, hd1, if_false] at hD
    have hd2 : ¬ x2.Kind = DocumentNode := by rw [hKD _ _ _ _ _ hD]; exact hd1
    obtain ⟨cs, hcs, hG⟩ := ih x x1 x2 c c1 tr tr2 hwf hU hD
    refine ⟨cs, hcs, fun acc => ?_⟩
    simp only [derefDocument, hd2, if_false]
    exact hG acc

theorem Visit_Kind_append {σ : Type} (Q : List String) (t : String) (visitor : VisitorFn σ)
    (v v1 : Node) (s s1 : σ) (e : Option Error)
    (h : Visit v (Q ++ [t]) visitor s = some (v1, s1, e)) : v1.Kind = v.Kind := by
  cases Q with
  | nil => exact Visit_Kind_cons t [] visitor v v1 s s1 e h
  | cons head tail => exact Visit_Kind_cons head (tail ++ [t]) visitor v v1 s s1 e h

/-- Update, then Delete, then Get along a path without `"*"` and `"+"` before
its last segment. -/
theorem Visit_afterDelete (N : Node) (t : String) (Q : List String) (hstar : "*" ∉ Q)
    (hplus : "+" ∉ Q) :
    AfterDelete t (fun x c => Visit x (Q ++ [t]) (updateVisitor N) c)
      (fun x s => Visit x Q (traced (deleteVisitor t)) s)
      (fun x acc => Visit x (Q ++ [t]) getVisitor acc) := by
  induction Q with
  | nil =>
    exact derefDocument_afterDelete t _ _ _ (last_afterDelete N t)
      (fun _ _ _ _ _ h => recurse_Kind _ _ _ _ _ _ _ _ h)
      (fun _ _ _ _ _ h => traced_Kind _ (deleteVisitor_Kind t) _ _ _ _ _ h)
  | cons head tail ih =>
    have hstar' : head ≠ "*" := fun h => hstar (by simp [h])
    have hplus' : head ≠ "+" := fun h => hplus (by simp [h])
    have ih' := ih (fun h => hstar (by simp [h])) (fun h => hplus (by simp [h]))
    exact derefDocument_afterDelete t _ _ _
      (recurse_afterDelete t head (tail ++ [t]) tail hstar' hplus' _ _ _ ih'
        (fun _ _ _ _ _ h => Visit_Kind_append tail t _ _ _ _ _ _ h)
        (fun _ _ _ _ _ h => Visit_Kind _
          (fun _ _ _ _ _ h2 => traced_Kind _ (deleteVisitor_Kind t) _ _ _ _ _ h2) tail _ _ _ _ _ h)
        (GuessKind_append tail t))
      (fun _ _ _ _ _ h => recurse_Kind _ _ _ _ _ _ _ _ h)
      (fun _ _ _ _ _ h => recurse_Kind _ _ _ _ _ _ _ _ h)

theorem getResult_eq_none (ms : List Node) : getResult ms = none ↔ ms = [] := by
  match ms with
  | [] => simp [getResult]
  | [_] => simp [getResult]
  | _ :: _ :: _ => simp [getResult]

/-- C2, amended. For every tree in which every Document has exactly one child
and every Mapping has even-length content, every path `Q ++ [t]` none of whose
segments before the last is `"+"` or `"*"`, and every replacement node: after
Update and then Delete with that path, both without error, Get with the same
path returns no error, and what it returns is decided by the nodes Delete
removed `t` from, `containers` in the order Delete was called on them, as
`foundAfterDelete` words it: a Mapping gives a new empty Scalar, which Get
adds again under `t` (and nothing when `t` is `"*"`), a Sequence gives the
element that followed the deleted one if there is one, any other node gives
nothing. Get returns these nodes by its result policy, so it returns no node
exactly when no container gives one. -/
theorem Update_Delete_then_Get (T N T1 T2 : Node) (Q : List String) (t : String)
    (hT : wellFormed T = true) (hstar : "*" ∉ Q) (hplus : "+" ∉ Q)
    (hU : Update T (Q ++ [t]) N = some (T1, none))
    (hD : Delete T1 (Q ++ [t]) = some (T2, none)) :
    ∃ containers T3 r,
      Visit T1 Q (traced (deleteVisitor t)) ((), []) = some (T2, ((), containers), none) ∧
      Get T2 (Q ++ [t]) = some (T3, r, none) ∧
      r = getResult (containers.flatMap (foundAfterDelete t)) ∧
      (r = none ↔ ∀ c ∈ containers, foundAfterDelete t c = []) := by
  cases hv : Visit T (Q ++ [t]) (updateVisitor N) 0 with
  | none => simp [Update, hv] at hU
  | some r =>
    obtain ⟨T1', calls, err⟩ := r
    simp only [Update, hv, Option.some.injEq, Prod.mk.injEq] at hU
    obtain ⟨rfl, rfl⟩ := hU
    have hst := Visit_state (fun st : Unit × List Node => st.1) (traced (deleteVisitor t))
      (deleteVisitor t) (fun x s => traced_fst (deleteVisitor t) x s) Q T1' ((), [])
    have hlast : (Q ++ [t]).getLast? = some t := by simp
    simp only [Delete, hlast, List.dropLast_concat] at hD
    cases hvd : Visit T1' Q (traced (deleteVisitor t)) ((), []) with
    | none => simp [hvd] at hst; simp [hst] at hD
    | some r2 =>
      obtain ⟨T2', ⟨⟨⟩, containers⟩, errd⟩ := r2
      simp only [hvd, Option.map_some'] at hst
      simp only [hst, Option.some.injEq, Prod.mk.injEq] at hD
      obtain ⟨rfl, rfl⟩ := hD
      obtain ⟨cs, hcs, hG⟩ := Visit_afterDelete N t Q hstar hplus T T1' T2' 0 calls [] containers
        hT hv hvd
      simp only [List.nil_append] at hcs
      subst hcs
      obtain ⟨T3, hT3⟩ := hG []
      simp only [List.nil_append] at hT3
      refine ⟨containers, T3, _, rfl, by simp [Get, hT3], rfl, ?_⟩
      rw [getResult_eq_none]
      simp [List.flatMap_eq_nil_iff]

theorem Update_Delete_then_Get_witness :
    (∃ containers T3 r,
      Visit (Node.container DocumentNode [Node.container MappingNode
            [Node.scalar "a", Node.container MappingNode [Node.scalar "k", Node.scalar "x"]]])
          ["a"] (traced (deleteVisitor "k")) ((), []) =
        some (Node.container DocumentNode [Node.container MappingNode
            [Node.scalar "a", Node.container MappingNode []]], ((), containers), none) ∧
      Get (Node.container DocumentNode [Node.container MappingNode
            [Node.scalar "a", Node.container MappingNode []]]) (["a"] ++ ["k"]) =
          some (T3, r, none) ∧
      r = getResult (containers.flatMap (foundAfterDelete "k")) ∧
      (r = none ↔ ∀ c ∈ containers, foundAfterDelete "k" c = [])) ∧
    Get (Node.container DocumentNode [Node.container MappingNode
          [Node.scalar "a", Node.container MappingNode []]]) ["a", "k"] =
      some (Node.container DocumentNode [Node.container MappingNode
          [Node.scalar "a", Node.container MappingNode
            [Node.scalar "k", Node.ofKind ScalarNode]]],
        some (Node.ofKind ScalarNode), none) ∧
    (∃ containers T3 r,
      Visit (Node.container SequenceNode [Node.scalar "a", Node.scalar "x"]) []
          (traced (deleteVisitor "1")) ((), []) =
        some (Node.container SequenceNode [Node.scalar "a"], ((), containers), none) ∧
      Get (Node.container SequenceNode [Node.scalar "a"]) ([] ++ ["1"]) = some (T3, r, none) ∧
      r = getResult (containers.flatMap (foundAfterDelete "1")) ∧
      (r = none ↔ ∀ c ∈ containers, foundAfterDelete "1" c = [])) ∧
    Get (Node.container SequenceNode [Node.scalar "a"]) ["1"] =
      some (Node.container SequenceNode [Node.scalar "a"], none, none) :=
  ⟨Update_Delete_then_Get
      (Node.container DocumentNode [Node.container MappingNode
        [Node.scalar "a", Node.container MappingNode []]])
      (Node.scalar "x")
      (Node.container DocumentNode [Node.container MappingNode
        [Node.scalar "a", Node.container MappingNode [Node.scalar "k", Node.scalar "x"]]])
      (Node.container DocumentNode [Node.container MappingNode
        [Node.scalar "a", Node.container MappingNode []]])
      ["a"] "k" rfl (by decide) (by decide) rfl rfl,
    rfl,
    Update_Delete_then_Get
      (Node.container SequenceNode [Node.scalar "a", Node.scalar "b"])
      (Node.scalar "x")
      (Node.container SequenceNode [Node.scalar "a", Node.scalar "x"])
      (Node.container SequenceNode [Node.scalar "a"])
      [] "1" rfl (by decide) (by decide) rfl rfl,
    rfl⟩

end yqlib
